import Mathlib

/-!
# PIMO masking engine: configuration, record-aware adapter, driver

A shallow embedding of `pkg/model/model.go` and `pkg/replacement/replacement.go`.

* A Go `map[string]Entry` is an association list; Go maps have unique keys, which is the
  hypothesis `nodupKeys` where a statement needs it.  `range` visits the entries in list order.
* A Go call either returns or aborts with a run-time panic; strategies may mutate private
  state.  A call is therefore a function `σ → Option (result × σ)`: `none` is a panic, `σ` is
  the state of all the strategies of a configuration.
* A Go `error` is `Option Err`; `none` is `nil`.
-/

namespace PIMO

/-- Entry is a dictionary value (`interface{}`): the dynamic types the engine dispatches on. -/
inductive Entry where
  | nil
  | str (s : String)
  | num (n : Int)
  | bool (b : Bool)
  | list (xs : List Entry)
  | dicts (ds : List (List (String × Entry)))
  | dict (d : List (String × Entry))

/-- Dictionary is a map with string as key and Entry as value. -/
abbrev Dictionary := List (String × Entry)

/-- The Go `error` values. -/
abbrev Err := String

/-- The keys of a dictionary, in iteration order. -/
def keys (d : Dictionary) : List String := d.map Prod.fst

/-- A Go map holds each key once. -/
def nodupKeys (d : Dictionary) : Prop := (keys d).Nodup

/-- The two-valued map read `v, ok := d[k]`. -/
def lookup (d : Dictionary) (k : String) : Option Entry :=
  match d with
  | [] => none
  | (k', v) :: rest => if k' = k then some v else lookup rest k

/-- The map read `d[k]`: the zero value `nil` when the key is missing. -/
def get (d : Dictionary) (k : String) : Entry :=
  match lookup d k with
  | some v => v
  | none => Entry.nil

/-- The map write `d[k] = v`. -/
def set (d : Dictionary) (k : String) (v : Entry) : Dictionary :=
  match d with
  | [] => [(k, v)]
  | (k', v') :: rest => if k' = k then (k, v) :: rest else (k', v') :: set rest k v

/-- The map removal `delete(d, k)`. -/
def delete (d : Dictionary) (k : String) : Dictionary :=
  match d with
  | [] => []
  | (k', v) :: rest => if k' = k then delete rest k else (k', v) :: delete rest k

/-- A call that may abort (`none`) and may change the strategies' state. -/
abbrev Run (σ : Type) (α : Type) := σ → Option (α × σ)

/-- MaskEngine is a masking algorithm: `Mask(Entry, ...Dictionary) (Entry, error)`. -/
abbrev MaskEngine (σ : Type) := Entry → List Dictionary → Run σ (Entry × Option Err)

/-- MaskContextEngine is a masking algorithm for dictionary:
`MaskContext(Dictionary, string, ...Dictionary) (Dictionary, error)`. -/
abbrev MaskContextEngine (σ : Type) :=
  Dictionary → String → List Dictionary → Run σ (Dictionary × Option Err)

/-- MaskKey is a structure containing a maskengine and the key which need the mask. -/
structure MaskKey (σ : Type) where
  maskCont : MaskContextEngine σ
  Key : String

/-- MapMaskConfiguration implements MaskConfiguration with a slice of MaskKey.  The slice is
here the list of its elements: what a chain of registrations builds and what `Entries` returns
right after a call.  The backing array that configurations derived from one base share is in
`slices.MapMaskConfiguration`. -/
structure MapMaskConfiguration (σ : Type) where
  config : List (MaskKey σ)

/-- NewMaskConfiguration build new configuration. -/
def NewMaskConfiguration {σ : Type} : MapMaskConfiguration σ := ⟨[]⟩

/-- Entries list every mask in mmc in order. -/
def MapMaskConfiguration.Entries {σ : Type} (mmc : MapMaskConfiguration σ) : List (MaskKey σ) :=
  mmc.config

/-- The `[]Dictionary` case of the adapter: `for i := range j`, with `tab` and `err` as loop
state.  A strategy result that is not a Dictionary aborts at `e.(Dictionary)`. -/
def maskDictionaries {σ : Type} (engine : MaskEngine σ) (contexts : List Dictionary) :
    List Dictionary → List Dictionary → Option Err → Run σ (List Dictionary × Option Err)
  | [], tab, err, st => some ((tab, err), st)
  | ji :: rest, tab, err, st =>
    match engine (Entry.dict ji) contexts st with
    | none => none
    | some ((_, some erreur), st') =>
      maskDictionaries engine contexts rest (tab ++ [ji]) (some erreur) st'
    | some ((Entry.dict e, none), st') =>
      maskDictionaries engine contexts rest (tab ++ [e]) err st'
    | some ((_, none), _) => none

/-- The `[]Entry` case of the adapter: `for i := range j`, with `tab` and `err` as loop state. -/
def maskEntries {σ : Type} (engine : MaskEngine σ) (contexts : List Dictionary) :
    List Entry → List Entry → Option Err → Run σ (List Entry × Option Err)
  | [], tab, err, st => some ((tab, err), st)
  | ji :: rest, tab, err, st =>
    match engine ji contexts st with
    | none => none
    | some ((_, some erreur), st') =>
      maskEntries engine contexts rest (tab ++ [ji]) (some erreur) st'
    | some ((e, none), st') =>
      maskEntries engine contexts rest (tab ++ [e]) err st'

/-- The body of `for k, v := range context` in `ContextWrapper.MaskContext`, with `result` and
`err` as loop state.  The type switch is on `context[k]`; no case matches a `nil` value. -/
def maskContextLoop {σ : Type} (engine : MaskEngine σ) (context : Dictionary) (key : String)
    (contexts : List Dictionary) :
    List (String × Entry) → Dictionary → Option Err → Run σ (Dictionary × Option Err)
  | [], result, err, st => some ((result, err), st)
  | (k, v) :: rest, result, err, st =>
    if k = key then
      match get context k with
      | Entry.dicts j =>
        match maskDictionaries engine contexts j [] err st with
        | none => none
        | some ((tab, err'), st') =>
          maskContextLoop engine context key contexts rest (set result k (Entry.dicts tab)) err' st'
      | Entry.list j =>
        match maskEntries engine contexts j [] err st with
        | none => none
        | some ((tab, err'), st') =>
          maskContextLoop engine context key contexts rest (set result k (Entry.list tab)) err' st'
      | Entry.nil => maskContextLoop engine context key contexts rest result err st
      | _ =>
        match engine (get context k) contexts st with
        | none => none
        | some ((_, some erreur), st') =>
          maskContextLoop engine context key contexts rest (set result k v) (some erreur) st'
        | some ((e, none), st') =>
          maskContextLoop engine context key contexts rest (set result k e) err st'
    else maskContextLoop engine context key contexts rest (set result k v) err st

/-- ContextWrapper lifts a MaskEngine to a MaskContextEngine. -/
structure ContextWrapper (σ : Type) where
  engine : MaskEngine σ

/-- The method `ContextWrapper.MaskContext`. -/
def ContextWrapper.MaskContext {σ : Type} (cw : ContextWrapper σ) : MaskContextEngine σ :=
  fun context key contexts st =>
    maskContextLoop cw.engine context key contexts context [] none st

/-- The body of `for _, maskKey := range config.Entries()` in `MaskingEngineFactory`, with
`output` and `errMask` as loop state. -/
def applyBindings {σ : Type} (root : Bool) (contexts : List Dictionary) :
    List (MaskKey σ) → Dictionary → Option Err → Run σ (Dictionary × Option Err)
  | [], output, errMask, st => some ((output, errMask), st)
  | maskKey :: rest, output, errMask, st =>
    match (if root then maskKey.maskCont output maskKey.Key [output]
           else maskKey.maskCont output maskKey.Key contexts) st with
    | none => none
    | some ((output', some err), st') =>
      applyBindings root contexts rest (delete output' maskKey.Key) (some err) st'
    | some ((output', none), st') =>
      applyBindings root contexts rest output' errMask st'

/-- The loop `for k, v := range dico { output[k] = v }`. -/
def copyDictionary (dico : Dictionary) : Dictionary :=
  dico.foldl (fun output kv => set output kv.1 kv.2) []

/-- MaskingEngineFactory return Masking function data without private information. -/
def MaskingEngineFactory {σ : Type} (config : MapMaskConfiguration σ) (root : Bool) :
    MaskEngine σ :=
  fun input contexts st =>
    match input with
    | Entry.dict dico =>
      match applyBindings root contexts config.Entries (copyDictionary dico) none st with
      | none => none
      | some ((output, errMask), st') => some ((Entry.dict output, errMask), st')
    | _ => some ((input, none), st)

/-- AsEngine return engine with configuration. -/
def MapMaskConfiguration.AsEngine {σ : Type} (mmc : MapMaskConfiguration σ) : MaskEngine σ :=
  MaskingEngineFactory mmc false

/-- AsContextEngine wraps the engine of the configuration in a ContextWrapper. -/
def MapMaskConfiguration.AsContextEngine {σ : Type} (mmc : MapMaskConfiguration σ) :
    MaskContextEngine σ :=
  ContextWrapper.MaskContext ⟨mmc.AsEngine⟩

/-- Scans for the first `.`: the characters before it and the characters after it. -/
def breakDot : List Char → Option (List Char × List Char)
  | [] => none
  | c :: cs =>
    if c = '.' then some ([], cs)
    else match breakDot cs with
      | none => none
      | some (a, b) => some (c :: a, b)

/-- The call `strings.SplitN(key, ".", 2)`: one or two substrings. -/
def SplitN (key : String) : List String :=
  match breakDot key.data with
  | none => [key]
  | some (a, b) => [String.mk a, String.mk b]

/-- WithContextEntry append the engine for the first segment of `key`; a dotted key binds a
nested configuration for the rest of the path. -/
def MapMaskConfiguration.WithContextEntry {σ : Type} (mmc : MapMaskConfiguration σ)
    (key : String) (engine : MaskContextEngine σ) : MapMaskConfiguration σ :=
  match h : SplitN key with
  | [first, rest] =>
    ⟨mmc.config ++
      [⟨(MapMaskConfiguration.WithContextEntry NewMaskConfiguration rest engine).AsContextEngine,
        first⟩]⟩
  | _ => ⟨mmc.config ++ [⟨engine, key⟩]⟩
termination_by key.length
decreasing_by
  have hb : ∀ (cs a b : List Char), breakDot cs = some (a, b) → b.length < cs.length := by
    intro cs
    induction cs with
    | nil => intro a b h; simp [breakDot] at h
    | cons c cs ih =>
      intro a b h
      unfold breakDot at h
      split at h
      · simp only [Option.some.injEq, Prod.mk.injEq] at h
        rw [← h.2]; simp
      · split at h
        · simp at h
        · rename_i a' b' hb
          simp only [Option.some.injEq, Prod.mk.injEq] at h
          have := ih a' b' hb
          rw [← h.2]; simp; omega
  unfold SplitN at h
  split at h
  · simp at h
  · rename_i a b hab
    simp only [List.cons.injEq, and_true] at h
    have := hb _ _ _ hab
    rw [← h.2]
    exact this

/-- WithEntry append engine for entry in the configuration and return modified configuration. -/
def MapMaskConfiguration.WithEntry {σ : Type} (mmc : MapMaskConfiguration σ) (key : String)
    (engine : MaskEngine σ) : MapMaskConfiguration σ :=
  mmc.WithContextEntry key (ContextWrapper.MaskContext ⟨engine⟩)

/-- GetMaskingEngine return the MaskEngine configured for that string. -/
def MapMaskConfiguration.GetMaskingEngine {σ : Type} (mmc : MapMaskConfiguration σ)
    (key : String) : Option (MaskContextEngine σ) :=
  go mmc.config
where
  /-- The loop `for _, k := range mmc.config`. -/
  go : List (MaskKey σ) → Option (MaskContextEngine σ)
    | [] => none
    | k :: rest => if k.Key = key then some k.maskCont else go rest

namespace replacement

/-- The replacement MaskEngine is to mask with a value from another field. -/
structure MaskEngine where
  Field : String

/-- NewMask return a replacement mask from a field name. -/
def NewMask (field : String) : MaskEngine := ⟨field⟩

/-- Mask masks a value with another field of the json: `context[0][remp.Field], nil`.
Indexing an empty `context` aborts. -/
def MaskEngine.Mask {σ : Type} (remp : MaskEngine) : PIMO.MaskEngine σ :=
  fun _ context st =>
    match context with
    | [] => none
    | c0 :: _ => some ((get c0 remp.Field, none), st)

end replacement

/-- A configuration built only with WithEntry, from the paths and scalar strategies in
registration order. -/
def buildConfig {σ : Type} (entries : List (String × MaskEngine σ)) : MapMaskConfiguration σ :=
  entries.foldl (fun c e => c.WithEntry e.1 e.2) NewMaskConfiguration

/-- The first segment of a path: the part before its first `.`, the whole path when it has
none. -/
def firstSegment (path : String) : String :=
  match breakDot path.data with
  | none => path
  | some (a, _) => String.mk a

/-- The values that reach the last case (`case Entry`) of the adapter's type switch: neither
`nil` nor a `[]Entry` nor a `[]Dictionary`. -/
def Entry.isSingle : Entry → Bool
  | Entry.nil => false
  | Entry.list _ => false
  | Entry.dicts _ => false
  | _ => true

/-- The outcomes of the successive `MaskContext` calls of the driver's loop, one per binding in
configuration order (`none`: the call did not fail). -/
def bindingOutcomes {σ : Type} (root : Bool) (contexts : List Dictionary) :
    List (MaskKey σ) → Dictionary → σ → Option (List (Option Err))
  | [], _, _ => some []
  | maskKey :: rest, output, st =>
    match (if root then maskKey.maskCont output maskKey.Key [output]
           else maskKey.maskCont output maskKey.Key contexts) st with
    | none => none
    | some ((output', some err), st') =>
      (bindingOutcomes root contexts rest (delete output' maskKey.Key) st').map
        (fun errs => some err :: errs)
    | some ((output', none), st') =>
      (bindingOutcomes root contexts rest output' st').map (fun errs => none :: errs)

/-- The last failure of a list of outcomes, `none` when there is none. -/
def lastFailure (errs : List (Option Err)) : Option Err :=
  (errs.filterMap id).getLast?

/-- A stateless strategy that always succeeds with the value `v`. -/
def constantMask (v : Entry) : MaskEngine Unit := fun _ _ st => some ((v, none), st)

/-- A stateless strategy that always fails with `e`. -/
def failingMask (e : Err) : MaskEngine Unit := fun _ _ st => some ((Entry.nil, some e), st)

/-- A binding whose record-aware strategy is a ContextWrapper. -/
def isWrapper {σ : Type}
    (b : MaskKey σ) : Prop := ∃ cw : ContextWrapper σ, b.maskCont = cw.MaskContext

/-- What the adapter computes on a record with unique keys, without the loop over the fields:
the field under `key` is rewritten in place, the other fields are kept. -/
def maskField {σ : Type} (engine : MaskEngine σ) (context : Dictionary) (key : String)
    (contexts : List Dictionary) : Run σ (Dictionary × Option Err) :=
  fun st =>
    match lookup context key with
    | none => some ((context, none), st)
    | some Entry.nil => some ((delete context key, none), st)
    | some (Entry.dicts j) =>
      match maskDictionaries engine contexts j [] none st with
      | none => none
      | some ((tab, err), st') => some ((set context key (Entry.dicts tab), err), st')
    | some (Entry.list j) =>
      match maskEntries engine contexts j [] none st with
      | none => none
      | some ((tab, err), st') => some ((set context key (Entry.list tab), err), st')
    | some v =>
      match engine v contexts st with
      | none => none
      | some ((_, some erreur), st') => some ((context, some erreur), st')
      | some ((e, none), st') => some ((set context key e, none), st')

/-- A Go `time.Time`, as an instant. -/
abbrev Time := Int

/-- A Go `float64`, as its bit pattern. -/
structure Float64 where
  bits : Nat

/-- SelectorType holds the path of the field a rule masks. -/
structure SelectorType where
  Jsonpath : String

/-- IncrementalType is the descriptor of the incremental mask. -/
structure IncrementalType where
  Start : Int
  Increment : Int

/-- RandDateType is the descriptor of the random date mask. -/
structure RandDateType where
  DateMin : Time
  DateMax : Time

/-- RandIntType is the descriptor of the random integer mask. -/
structure RandIntType where
  Min : Int
  Max : Int

/-- WeightedChoiceType is one choice of the weighted choice mask. -/
structure WeightedChoiceType where
  Choice : Entry
  Weight : Nat

/-- RandomDurationType is the descriptor of the random duration mask. -/
structure RandomDurationType where
  Min : String
  Max : String

/-- RandomDecimalType is the descriptor of the random decimal mask. -/
structure RandomDecimalType where
  Min : Float64
  Max : Float64
  Precision : Int

/-- DateParserType is the descriptor of the date parser mask. -/
structure DateParserType where
  InputFormat : String
  OutputFormat : String

/-- MaskType holds one descriptor per kind of mask; a rule populates one of them. -/
structure MaskType where
  Add : Entry
  Constant : Entry
  RandomChoice : List Entry
  RandomChoiceInURI : String
  Command : String
  RandomInt : RandIntType
  WeightedChoice : List WeightedChoiceType
  Regex : String
  Hash : List Entry
  HashInURI : String
  RandDate : RandDateType
  Incremental : IncrementalType
  Replacement : String
  Template : String
  Duration : String
  Remove : Bool
  RangeMask : Int
  RandomDuration : RandomDurationType
  FluxURI : String
  RandomDecimal : RandomDecimalType
  DateParser : DateParserType

/-- Masking is a declared rule: a selector, a mask descriptor and a cache name. -/
structure Masking where
  Selector : SelectorType
  Mask : MaskType
  Cache : String

/-- The Go zero value `MaskType{}`. -/
def MaskType.zero : MaskType :=
  ⟨Entry.nil, Entry.nil, [], "", "", ⟨0, 0⟩, [], "", [], "", ⟨0, 0⟩, ⟨0, 0⟩, "", "", "", false, 0,
    ⟨"", ""⟩, "", ⟨⟨0⟩, ⟨0⟩, 0⟩, ⟨"", ""⟩⟩

/-- The Go builtin `len` on a string: its number of bytes. -/
def len (s : String) : Nat := s.utf8ByteSize

/-- The result of a registration probe: `(MaskConfiguration, bool, error)`. -/
abbrev Registration (σ : Type) := Option (MapMaskConfiguration σ) × Bool × Option Err

namespace replacement

/-- RegistryMaskToConfiguration registers a field-copy mask when the rule has a Replacement
descriptor. -/
def RegistryMaskToConfiguration {σ : Type} (conf : Masking) (config : MapMaskConfiguration σ)
    (_seed : Int) : Registration σ :=
  if len conf.Mask.Replacement ≠ 0 then
    (some (config.WithEntry conf.Selector.Jsonpath (MaskEngine.Mask (NewMask conf.Mask.Replacement))),
      true, none)
  else (none, false, none)

end replacement

namespace regex

/-- The generator of the library `goregen`: `Generate()` returns a text and advances the
random source held in the state. -/
abbrev Generator (σ : Type) := σ → String × σ

/-- The constructor `regen.NewGenerator(exp, args)` of the library, a generator and an error
for a pattern and a seed. -/
abbrev GeneratorFactory (σ : Type) := String → Int → Generator σ × Option Err

/-- The regex MaskEngine is a value that mask thanks to a regular expression. -/
structure MaskEngine (σ : Type) where
  generator : Generator σ

/-- NewMask return a RegexMask from a regexp. -/
def NewMask {σ : Type} (NewGenerator : GeneratorFactory σ) (exp : String) (seed : Int) :
    MaskEngine σ × Option Err :=
  match NewGenerator exp seed with
  | (generator, err) => (⟨generator⟩, err)

/-- Mask returns a string thanks to a regular expression. -/
def MaskEngine.Mask {σ : Type} (rm : MaskEngine σ) : PIMO.MaskEngine σ :=
  fun _ _ st =>
    match rm.generator st with
    | (out, st') => some ((Entry.str out, none), st')

/-- RegistryMaskToConfiguration registers a regex mask when the rule has a Regex
descriptor. -/
def RegistryMaskToConfiguration {σ : Type} (NewGenerator : GeneratorFactory σ) (conf : Masking)
    (config : MapMaskConfiguration σ) (seed : Int) : Registration σ :=
  if len conf.Mask.Regex ≠ 0 then
    match NewMask NewGenerator conf.Mask.Regex seed with
    | (_, some err) => (none, true, some err)
    | (mask, none) => (some (config.WithEntry conf.Selector.Jsonpath mask.Mask), true, none)
  else (none, false, none)

end regex

/-- The calls of a strategy on the elements of a list, in list order: the result of each call
and the state after the last one. -/
def elementCalls {σ : Type} (engine : MaskEngine σ) (contexts : List Dictionary) :
    List Entry → Run σ (List (Entry × Option Err))
  | [], st => some ([], st)
  | x :: rest, st =>
    match engine x contexts st with
    | none => none
    | some (res, st') =>
      match elementCalls engine contexts rest st' with
      | none => none
      | some (rs, st'') => some (res :: rs, st'')

/-- The element a list keeps at the place of `x` after a call with result `res`: the result of
the call when it succeeded, `x` itself when it failed. -/
def keepOrReplace (x : Entry) (res : Entry × Option Err) : Entry :=
  match res.2 with
  | some _ => x
  | none => res.1

/-- The same for an element of a list of records whose masked value is again a record. -/
def keepOrReplaceRecord (x : Dictionary) (res : Entry × Option Err) : Dictionary :=
  match res.2, res.1 with
  | none, Entry.dict e => e
  | _, _ => x

/-- The scalar values: text, number, boolean. -/
def Entry.isScalar : Entry → Bool
  | Entry.str _ => true
  | Entry.num _ => true
  | Entry.bool _ => true
  | _ => false

namespace hash

/-- Modelled from the spec: the keyed-select strategy of `pkg/hash`, of which only the test is
among the sources.  It holds a fixed ordered list of candidate replacement values. -/
structure MaskEngine where
  candidates : List Entry

/-- Modelled from the spec: the `Mask` method of the keyed-select strategy of `pkg/hash`, of
which only the test is among the sources.  Given an input value it derives an index from a
stable hash of the input, here the parameter `stableHash`, and returns the candidate at that
index; it never fails and reads no context. -/
def MaskEngine.Mask {σ : Type} (stableHash : Entry → Nat) (hm : MaskEngine) : PIMO.MaskEngine σ :=
  fun e _ st =>
    some ((hm.candidates.getD (stableHash e % hm.candidates.length) Entry.nil, none), st)

end hash

/-- A stable hash for the examples: the length of a text, 0 for any other value. -/
def textLength : Entry → Nat
  | Entry.str s => s.length
  | _ => 0

/-- A stateless strategy: a call that returns leaves the state as it found it. -/
def keepsState {σ : Type} (engine : MaskEngine σ) : Prop :=
  ∀ (v : Entry) (c : List Dictionary) (st st' : σ) (res : Entry × Option Err),
    engine v c st = some (res, st') → st' = st

/-- The same for a record-aware strategy. -/
def bindingKeepsState {σ : Type} (b : MaskKey σ) : Prop :=
  ∀ (o : Dictionary) (k : String) (c : List Dictionary) (st st' : σ)
    (res : Dictionary × Option Err), b.maskCont o k c st = some (res, st') → st' = st

/-- A strategy that always fails with `e` and leaves the state alone, whatever the state is. -/
def failWith {σ : Type} (e : Err) : MaskEngine σ := fun _ _ st => some ((Entry.nil, some e), st)

/-- A generator for the examples, with a counter as state: it returns `"first"` on its first
call and `"later"` afterwards. -/
def countingGenerator : regex.Generator Nat :=
  fun n => (if n = 0 then "first" else "later", n + 1)

/-- A Go slice header of a `[]MaskKey`: the address of its backing array (every slice here
starts at the first cell of its array), its length and its capacity. -/
structure Slice where
  array : Nat
  len : Nat
  cap : Nat

/-- The backing arrays allocated so far, by address, each with the cells written so far. -/
abbrev Heap (σ : Type) := List (List (MaskKey σ))

/-- The capacity the Go runtime gives the array `append` allocates (`growslice`, below 256
elements): the capacity needed when it is more than twice the old one, else twice the old
one. -/
def growCap (oldCap needed : Nat) : Nat :=
  if 2 * oldCap < needed then needed else 2 * oldCap

/-- The backing array at an address. -/
def arrayAt {σ : Type} (h : Heap σ) (address : Nat) : List (MaskKey σ) :=
  h.getD address []

/-- The elements `s[0:len]` of a slice. -/
def Slice.cells {σ : Type} (s : Slice) (h : Heap σ) : List (MaskKey σ) :=
  (arrayAt h s.array).take s.len

/-- The array after the store `arr[i] = x`. -/
def writeCell {α : Type} (arr : List α) (i : Nat) (x : α) : List α :=
  arr.take i ++ x :: arr.drop (i + 1)

/-- The Go builtin `append(s, x)`: with spare capacity the element is stored in the backing
array of `s`, otherwise a larger array is allocated and the elements are copied. -/
def appendSlice {σ : Type} (h : Heap σ) (s : Slice) (x : MaskKey σ) : Slice × Heap σ :=
  if s.len < s.cap then
    (⟨s.array, s.len + 1, s.cap⟩, h.set s.array (writeCell (arrayAt h s.array) s.len x))
  else
    (⟨h.length, s.len + 1, growCap s.cap (s.len + 1)⟩, h ++ [s.cells h ++ [x]])

/-- A slice header that fits the heap: its array is allocated and holds its elements. -/
def Slice.valid {σ : Type} (s : Slice) (h : Heap σ) : Prop :=
  s.array < h.length ∧ s.len ≤ (arrayAt h s.array).length

namespace slices

/-- MapMaskConfiguration as the Go struct it is: its field `config` is a slice. -/
structure MapMaskConfiguration where
  config : Slice

/-- NewMaskConfiguration build new configuration: `MapMaskConfiguration{[]MaskKey{}}`, an empty
slice with no capacity. -/
def NewMaskConfiguration {σ : Type} (h : Heap σ) : MapMaskConfiguration × Heap σ :=
  (⟨⟨h.length, 0, 0⟩⟩, h ++ [[]])

/-- WithContextEntry on the struct: `mmc.config = append(mmc.config, MaskKey{...})` on the
receiver's copy of the slice header, which is returned.  The sub-configuration of a dotted key
is a fresh configuration. -/
def MapMaskConfiguration.WithContextEntry {σ : Type} (mmc : MapMaskConfiguration) (key : String)
    (engine : MaskContextEngine σ) (h : Heap σ) : MapMaskConfiguration × Heap σ :=
  match SplitN key with
  | [first, rest] =>
    match appendSlice h mmc.config
      ⟨(PIMO.MapMaskConfiguration.WithContextEntry PIMO.NewMaskConfiguration rest
        engine).AsContextEngine, first⟩ with
    | (config, h') => (⟨config⟩, h')
  | _ =>
    match appendSlice h mmc.config ⟨engine, key⟩ with
    | (config, h') => (⟨config⟩, h')

/-- WithEntry on the struct. -/
def MapMaskConfiguration.WithEntry {σ : Type} (mmc : MapMaskConfiguration) (key : String)
    (engine : MaskEngine σ) (h : Heap σ) : MapMaskConfiguration × Heap σ :=
  mmc.WithContextEntry key (ContextWrapper.MaskContext ⟨engine⟩) h

/-- Entries list every mask in mmc in order: the elements of the slice. -/
def MapMaskConfiguration.Entries {σ : Type} (mmc : MapMaskConfiguration) (h : Heap σ) :
    List (MaskKey σ) :=
  mmc.config.cells h

/-- The configuration `NewMaskConfiguration().WithEntry("a", s).WithEntry("b", s)
.WithEntry("c", s)` and the heap it lives in. -/
def threeEntries {σ : Type} (s : MaskEngine σ) : MapMaskConfiguration × Heap σ :=
  match NewMaskConfiguration [] with
  | (c0, h0) =>
    match c0.WithEntry "a" s h0 with
    | (c1, h1) =>
      match c1.WithEntry "b" s h1 with
      | (c2, h2) => c2.WithEntry "c" s h2

end slices

/-- The dotted path of a list of segments. -/
def joinPath : List String → String
  | [] => ""
  | [k] => k
  | k :: k' :: ks => k ++ "." ++ joinPath (k' :: ks)

/-- The value at the end of a path of record fields, when every field before the last holds a
record. -/
def valueAt : Dictionary → List String → Option Entry
  | _, [] => none
  | d, [k] => lookup d k
  | d, k :: k' :: ks =>
    match lookup d k with
    | some (Entry.dict d') => valueAt d' (k' :: ks)
    | _ => none

/-- The record with the value at the end of a path of record fields set to `x`. -/
def setAt : Dictionary → List String → Entry → Dictionary
  | d, [], _ => d
  | d, [k], x => set d k x
  | d, k :: k' :: ks, x =>
    match lookup d k with
    | some (Entry.dict d') => set d k (Entry.dict (setAt d' (k' :: ks) x))
    | _ => d

/-- The records along a path of record fields hold each key once. -/
def uniqueAlong : Dictionary → List String → Prop
  | d, [] => nodupKeys d
  | d, [_] => nodupKeys d
  | d, k :: k' :: ks =>
    nodupKeys d ∧ ∀ d', lookup d k = some (Entry.dict d') → uniqueAlong d' (k' :: ks)

/-- The binding of a path given by its segments, built segment by segment: the strategy
wrapped for the last segment, and for each segment before it the wrapped nested driver of the
rest of the path. -/
def pathBinding {σ : Type} (s : MaskEngine σ) : List String → MaskKey σ
  | [] => ⟨ContextWrapper.MaskContext ⟨s⟩, ""⟩
  | [k] => ⟨ContextWrapper.MaskContext ⟨s⟩, k⟩
  | k :: k' :: ks =>
    ⟨ContextWrapper.MaskContext ⟨MaskingEngineFactory ⟨[pathBinding s (k' :: ks)]⟩ false⟩, k⟩

/-- The element of a list of records after the call on its value at a path: the record with
the result at the path when the call succeeded, the record itself when it failed. -/
def keepOrSetAt (path : List String) (d : Dictionary) (res : Entry × Option Err) : Dictionary :=
  match res.2 with
  | some _ => d
  | none => setAt d path res.1

/-- The value at the end of a path of record fields, nil when there is none. -/
def valueOrNil (path : List String) (d : Dictionary) : Entry :=
  match valueAt d path with
  | some v => v
  | none => Entry.nil

/-- Two listings of the same Go value: equal scalars, lists that agree element by element, and
records that hold each key once, have the same keys and hold under each key the same value,
whatever the order in which the fields of each record, at any depth, are listed. -/
inductive sameValue : Entry → Entry → Prop
  | nil : sameValue Entry.nil Entry.nil
  | str (s : String) : sameValue (Entry.str s) (Entry.str s)
  | num (n : Int) : sameValue (Entry.num n) (Entry.num n)
  | bool (b : Bool) : sameValue (Entry.bool b) (Entry.bool b)
  | list (l l' : List Entry) : l.length = l'.length →
      (∀ a b, (a, b) ∈ l.zip l' → sameValue a b) → sameValue (Entry.list l) (Entry.list l')
  | dicts (l l' : List Dictionary) : l.length = l'.length →
      (∀ a b, (a, b) ∈ l.zip l' → sameValue (Entry.dict a) (Entry.dict b)) →
      sameValue (Entry.dicts l) (Entry.dicts l')
  | dict (d d' : Dictionary) : nodupKeys d → nodupKeys d' →
      (∀ k, lookup d k = none ↔ lookup d' k = none) →
      (∀ k v v', lookup d k = some v → lookup d' k = some v' → sameValue v v') →
      sameValue (Entry.dict d) (Entry.dict d')

/-- Two listings of the same record. -/
def sameRecord (d d' : Dictionary) : Prop := sameValue (Entry.dict d) (Entry.dict d')

/-- Two lists of context records that list the same records. -/
def sameContexts (c c' : List Dictionary) : Prop := List.Forall₂ sameRecord c c'

/-- Two results of a call that are the same for the caller: both calls abort, or they return
results related by `R`, the same outcome and the same state. -/
def sameOutcome {α σ : Type} (R : α → α → Prop) (x y : Option ((α × Option Err) × σ)) : Prop :=
  match x, y with
  | none, none => True
  | some ((a, e), s), some ((a', e'), s') => R a a' ∧ e = e' ∧ s = s'
  | _, _ => False

/-- A strategy that is a function of the value and the context records as Go values: on two
listings of the same value and of the same context records, from the same state, it aborts on
both, or returns two listings of the same value, the same outcome and the same state. -/
def respectsMaps {σ : Type} (engine : MaskEngine σ) : Prop :=
  ∀ (v v' : Entry) (c c' : List Dictionary) (st : σ), sameValue v v' → sameContexts c c' →
    sameOutcome sameValue (engine v c st) (engine v' c' st)

/-- The same for a record-aware strategy. -/
def bindingRespectsMaps {σ : Type} (b : MaskKey σ) : Prop :=
  ∀ (o o' : Dictionary) (k : String) (c c' : List Dictionary) (st : σ), sameRecord o o' →
    sameContexts c c' → sameOutcome sameRecord (b.maskCont o k c st) (b.maskCont o' k c' st)

/-- The keyed-select strategy of the end-to-end scenario of the spec, with the length of the
text as hash. -/
def hashOfNames : MaskEngine Unit :=
  hash.MaskEngine.Mask textLength
    ⟨[Entry.str "Michel", Entry.str "Marc", Entry.str "Matthias", Entry.str "Youen",
      Entry.str "Alexis"]⟩

/-! ## Dictionaries -/

theorem lookup_set (d : Dictionary) (k k' : String) (v : Entry) :
    lookup (set d k v) k' = if k' = k then some v else lookup d k' := by
  induction d with
  | nil =>
    by_cases h : k' = k
    · simp [set, lookup, h]
    · have h' : ¬ k = k' := fun e => h e.symm
      simp [set, lookup, h, h']
  | cons kv rest ih =>
    obtain ⟨k0, v0⟩ := kv
    by_cases h0 : k0 = k
    · subst h0
      by_cases h : k' = k0
      · simp [set, lookup, h]
      · have h' : ¬ k0 = k' := fun e => h e.symm
        simp [set, lookup, h, h']
    · by_cases h : k0 = k'
      · subst h
        simp [set, lookup, h0]
      · simp [set, lookup, h0, h, ih]

theorem lookup_delete (d : Dictionary) (k k' : String) :
    lookup (delete d k) k' = if k' = k then none else lookup d k' := by
  induction d with
  | nil => simp [delete, lookup]
  | cons kv rest ih =>
    obtain ⟨k0, v0⟩ := kv
    by_cases h0 : k0 = k
    · subst h0
      by_cases h : k' = k0
      · subst h
        simpa [delete, lookup] using ih
      · have h' : ¬ k0 = k' := fun e => h e.symm
        simp [delete, lookup, ih, h, h']
    · by_cases h : k0 = k'
      · subst h
        simp [delete, lookup, h0]
      · simp [delete, lookup, h0, h, ih]

theorem lookup_eq_none_iff (d : Dictionary) (k : String) :
    lookup d k = none ↔ k ∉ keys d := by
  induction d with
  | nil => simp [lookup, keys]
  | cons kv rest ih =>
    obtain ⟨k0, v0⟩ := kv
    by_cases h : k0 = k
    · simp [lookup, keys, h]
    · have h' : ¬ k = k0 := fun e => h e.symm
      simp only [keys] at ih
      simp [lookup, keys, h, h', ih]

theorem set_of_not_mem (d : Dictionary) (k : String) (v : Entry) (h : k ∉ keys d) :
    set d k v = d ++ [(k, v)] := by
  induction d with
  | nil => simp [set]
  | cons kv rest ih =>
    obtain ⟨k0, v0⟩ := kv
    simp only [keys, List.map_cons, List.mem_cons, not_or] at h
    have h' : ¬ k0 = k := fun e => h.1 e.symm
    simp [set, h', ih (by simpa [keys] using h.2)]

theorem keys_set_of_mem (d : Dictionary) (k : String) (v : Entry) (h : k ∈ keys d) :
    keys (set d k v) = keys d := by
  induction d with
  | nil => simp [keys] at h
  | cons kv rest ih =>
    obtain ⟨k0, v0⟩ := kv
    by_cases h0 : k0 = k
    · simp [set, keys, h0]
    · have hr : k ∈ keys rest := by
        simp only [keys, List.map_cons, List.mem_cons] at h
        rcases h with h | h
        · exact absurd h.symm h0
        · exact h
      have := ih hr
      simp only [keys] at this
      simp [set, keys, h0, this]

theorem keys_delete_sublist (d : Dictionary) (k : String) :
    (keys (delete d k)).Sublist (keys d) := by
  induction d with
  | nil => simp [delete, keys]
  | cons kv rest ih =>
    obtain ⟨k0, v0⟩ := kv
    unfold keys at ih ⊢
    by_cases h0 : k0 = k
    · simpa [delete, h0] using ih.trans (List.sublist_cons_self _ _)
    · simpa [delete, h0] using ih

theorem nodupKeys_delete (d : Dictionary) (k : String) (h : nodupKeys d) :
    nodupKeys (delete d k) :=
  List.Nodup.sublist (keys_delete_sublist d k) h

theorem nodupKeys_set (d : Dictionary) (k : String) (v : Entry) (h : nodupKeys d) :
    nodupKeys (set d k v) := by
  unfold nodupKeys at h ⊢
  by_cases hk : k ∈ keys d
  · rw [keys_set_of_mem d k v hk]; exact h
  · rw [set_of_not_mem d k v hk]
    simp only [keys, List.map_append, List.map_cons, List.map_nil]
    rw [List.nodup_append]
    refine ⟨h, by simp, ?_⟩
    intro a ha hb
    simp at hb
    subst hb
    exact hk ha

theorem delete_of_not_mem (d : Dictionary) (k : String) (h : k ∉ keys d) : delete d k = d := by
  induction d with
  | nil => simp [delete]
  | cons kv rest ih =>
    obtain ⟨k0, v0⟩ := kv
    simp only [keys, List.map_cons, List.mem_cons, not_or] at h
    have h' : ¬ k0 = k := fun e => h.1 e.symm
    simp [delete, h', ih (by simpa [keys] using h.2)]

theorem copyLoop_eq (d acc : Dictionary) (h : (keys acc ++ keys d).Nodup) :
    d.foldl (fun output kv => set output kv.1 kv.2) acc = acc ++ d := by
  induction d generalizing acc with
  | nil => simp
  | cons kv rest ih =>
    obtain ⟨k0, v0⟩ := kv
    have hk : k0 ∉ keys acc := by
      intro hm
      rw [List.nodup_append] at h
      exact h.2.2 hm (by simp [keys])
    simp only [List.foldl_cons]
    rw [set_of_not_mem acc k0 v0 hk, ih]
    · simp
    · simpa [keys, List.append_assoc] using h

theorem copyDictionary_eq (d : Dictionary) (h : nodupKeys d) : copyDictionary d = d := by
  unfold copyDictionary
  rw [copyLoop_eq d [] (by simpa [keys] using h)]
  simp

/-! ## The record-aware adapter -/

theorem maskContextLoop_skip {σ : Type} (engine : MaskEngine σ) (context : Dictionary)
    (key : String)
    (contexts : List Dictionary) (tl : List (String × Entry)) (err : Option Err) (st : σ) :
    ∀ (pre result : Dictionary), key ∉ keys pre → (keys result ++ keys pre).Nodup →
      maskContextLoop engine context key contexts (pre ++ tl) result err st =
        maskContextLoop engine context key contexts tl (result ++ pre) err st := by
  intro pre
  induction pre with
  | nil => intro result _ _; simp
  | cons kv pre ih =>
    intro result hk hn
    obtain ⟨k0, v0⟩ := kv
    simp only [keys, List.map_cons, List.mem_cons, not_or] at hk
    have h0 : ¬ k0 = key := fun e => hk.1 e.symm
    have hr : k0 ∉ keys result := by
      intro hm
      rw [List.nodup_append] at hn
      exact hn.2.2 hm (by simp [keys])
    have hn' : (keys (result ++ [(k0, v0)]) ++ keys pre).Nodup := by
      simpa [keys, List.append_assoc] using hn
    rw [List.cons_append]
    simp only [maskContextLoop, h0, if_false]
    rw [set_of_not_mem result k0 v0 hr, ih (result ++ [(k0, v0)]) (by simpa [keys] using hk.2) hn']
    simp

theorem maskContextLoop_all {σ : Type} (engine : MaskEngine σ) (context : Dictionary) (key : String)
    (contexts : List Dictionary) (err : Option Err) (st : σ) (pre result : Dictionary)
    (hk : key ∉ keys pre) (hn : (keys result ++ keys pre).Nodup) :
    maskContextLoop engine context key contexts pre result err st =
      some ((result ++ pre, err), st) := by
  have := maskContextLoop_skip engine context key contexts [] err st pre result hk hn
  simpa [maskContextLoop] using this

theorem lookup_split (c : Dictionary) (key : String) (v : Entry) (h : lookup c key = some v)
    (hn : nodupKeys c) :
    ∃ pre post, c = pre ++ (key, v) :: post ∧ key ∉ keys pre ∧ key ∉ keys post := by
  induction c with
  | nil => simp [lookup] at h
  | cons kv rest ih =>
    obtain ⟨k0, v0⟩ := kv
    have hn0 : k0 ∉ keys rest ∧ nodupKeys rest := by
      simpa [nodupKeys, keys] using hn
    by_cases h0 : k0 = key
    · subst h0
      simp only [lookup, if_true, Option.some.injEq] at h
      subst h
      exact ⟨[], rest, by simp, by simp [keys], hn0.1⟩
    · simp only [lookup, h0, if_false] at h
      obtain ⟨pre, post, hc, h1, h2⟩ := ih h hn0.2
      refine ⟨(k0, v0) :: pre, post, by simp [hc], ?_, h2⟩
      have h0' : ¬ key = k0 := fun e => h0 e.symm
      simpa [keys, h0'] using h1

theorem set_split (pre post : Dictionary) (key : String) (v x : Entry) (h : key ∉ keys pre) :
    set (pre ++ (key, v) :: post) key x = pre ++ (key, x) :: post := by
  induction pre with
  | nil => simp [set]
  | cons kv pre ih =>
    obtain ⟨k0, v0⟩ := kv
    simp only [keys, List.map_cons, List.mem_cons, not_or] at h
    have h0 : ¬ k0 = key := fun e => h.1 e.symm
    simp [set, h0, ih (by simpa [keys] using h.2)]

theorem delete_split (pre post : Dictionary) (key : String) (v : Entry) (h : key ∉ keys pre)
    (h' : key ∉ keys post) : delete (pre ++ (key, v) :: post) key = pre ++ post := by
  induction pre with
  | nil => simp [delete, delete_of_not_mem post key h']
  | cons kv pre ih =>
    obtain ⟨k0, v0⟩ := kv
    simp only [keys, List.map_cons, List.mem_cons, not_or] at h
    have h0 : ¬ k0 = key := fun e => h.1 e.symm
    simp [delete, h0, ih (by simpa [keys] using h.2)]

theorem get_of_lookup (c : Dictionary) (key : String) (v : Entry) (h : lookup c key = some v) :
    get c key = v := by
  simp [get, h]

/-- On a record with unique keys the adapter's loop computes `maskField`. -/
theorem maskContext_eq_maskField {σ : Type} (cw : ContextWrapper σ) (context : Dictionary)
    (key : String)
    (contexts : List Dictionary) (st : σ) (hn : nodupKeys context) :
    cw.MaskContext context key contexts st = maskField cw.engine context key contexts st := by
  unfold ContextWrapper.MaskContext maskField
  cases hl : lookup context key with
  | none =>
    have hk : key ∉ keys context := (lookup_eq_none_iff context key).1 hl
    rw [maskContextLoop_all cw.engine context key contexts none st context [] hk
      (by simpa [keys] using hn)]
    simp
  | some v =>
    obtain ⟨pre, post, hc, h1, h2⟩ := lookup_split context key v hl hn
    have hg : get context key = v := get_of_lookup context key v hl
    have hnn : (keys pre ++ keys ((key, v) :: post)).Nodup := by
      have := hn
      rw [hc] at this
      simpa [nodupKeys, keys] using this
    have hpp : (keys pre ++ keys post).Nodup := by
      have := hnn
      simp only [keys, List.map_cons] at this ⊢
      exact (List.nodup_append.1 this).1.append ((List.nodup_cons.1 (List.nodup_append.1 this).2.1).2)
        (fun a ha hb => (List.nodup_append.1 this).2.2 ha (List.mem_cons_of_mem _ hb))
    have hskip := maskContextLoop_skip cw.engine context key contexts ((key, v) :: post) none st
      pre [] h1 (by simpa [keys] using (List.nodup_append.1 hnn).1)
    have hinner : maskContextLoop cw.engine context key contexts context [] none st =
        maskContextLoop cw.engine context key contexts ((key, v) :: post) pre none st := by
      have : context = pre ++ (key, v) :: post := hc
      calc maskContextLoop cw.engine context key contexts context [] none st
          = maskContextLoop cw.engine context key contexts (pre ++ (key, v) :: post) [] none st := by
            rw [← this]
        _ = _ := by rw [hskip]; simp
    rw [hinner]
    have hpost : ∀ (x : Entry) (e : Option Err) (s : σ),
        maskContextLoop cw.engine context key contexts post (set pre key x) e s =
          some ((set context key x, e), s) := by
      intro x e s
      rw [set_of_not_mem pre key x h1]
      rw [maskContextLoop_all cw.engine context key contexts e s post (pre ++ [(key, x)]) h2
        (by
          have := hnn
          simp only [keys, List.map_cons, List.map_append, List.map_nil] at this ⊢
          simpa [List.append_assoc] using this)]
      rw [hc, set_split pre post key v x h1]
      simp
    have hdel : maskContextLoop cw.engine context key contexts post pre none st =
        some ((delete context key, none), st) := by
      rw [maskContextLoop_all cw.engine context key contexts none st post pre h2 hpp]
      rw [hc, delete_split pre post key v h1 h2]
    have hkeep : set context key v = context := by
      rw [hc, set_split pre post key v v h1]
    cases v with
    | nil => simp only [maskContextLoop, if_true, hg]; exact hdel
    | dicts j =>
      simp only [maskContextLoop, if_true, hg]
      cases hm : maskDictionaries cw.engine contexts j [] none st with
      | none => rfl
      | some r => obtain ⟨⟨tab, e⟩, s⟩ := r; simp only [hpost]
    | list j =>
      simp only [maskContextLoop, if_true, hg]
      cases hm : maskEntries cw.engine contexts j [] none st with
      | none => rfl
      | some r => obtain ⟨⟨tab, e⟩, s⟩ := r; simp only [hpost]
    | str s0 =>
      simp only [maskContextLoop, if_true, hg]
      cases hm : cw.engine (Entry.str s0) contexts st with
      | none => rfl
      | some r =>
        obtain ⟨⟨x, e⟩, s⟩ := r
        cases e with
        | none => simp only [hpost]
        | some er => simp only [hpost, hkeep]
    | num s0 =>
      simp only [maskContextLoop, if_true, hg]
      cases hm : cw.engine (Entry.num s0) contexts st with
      | none => rfl
      | some r =>
        obtain ⟨⟨x, e⟩, s⟩ := r
        cases e with
        | none => simp only [hpost]
        | some er => simp only [hpost, hkeep]
    | bool s0 =>
      simp only [maskContextLoop, if_true, hg]
      cases hm : cw.engine (Entry.bool s0) contexts st with
      | none => rfl
      | some r =>
        obtain ⟨⟨x, e⟩, s⟩ := r
        cases e with
        | none => simp only [hpost]
        | some er => simp only [hpost, hkeep]
    | dict s0 =>
      simp only [maskContextLoop, if_true, hg]
      cases hm : cw.engine (Entry.dict s0) contexts st with
      | none => rfl
      | some r =>
        obtain ⟨⟨x, e⟩, s⟩ := r
        cases e with
        | none => simp only [hpost]
        | some er => simp only [hpost, hkeep]

theorem maskField_props {σ : Type} (engine : MaskEngine σ) (c : Dictionary) (key : String)
    (contexts : List Dictionary) (st st' : σ) (res : Dictionary) (e : Option Err)
    (hn : nodupKeys c) (h : maskField engine c key contexts st = some ((res, e), st')) :
    nodupKeys res ∧ (∀ k, k ≠ key → lookup res k = lookup c k) ∧
      (∀ k, lookup c k = none → lookup res k = none) := by
  have hset : ∀ x, lookup c key ≠ none →
      nodupKeys (set c key x) ∧ (∀ k, k ≠ key → lookup (set c key x) k = lookup c k) ∧
        (∀ k, lookup c k = none → lookup (set c key x) k = none) := by
    intro x hx
    refine ⟨nodupKeys_set c key x hn, ?_, ?_⟩
    · intro k hk; rw [lookup_set]; simp [hk]
    · intro k hk
      have : k ≠ key := by rintro rfl; exact hx hk
      rw [lookup_set]; simp [this, hk]
  have hdel : nodupKeys (delete c key) ∧ (∀ k, k ≠ key → lookup (delete c key) k = lookup c k) ∧
        (∀ k, lookup c k = none → lookup (delete c key) k = none) := by
    refine ⟨nodupKeys_delete c key hn, ?_, ?_⟩
    · intro k hk; rw [lookup_delete]; simp [hk]
    · intro k hk; rw [lookup_delete]; simp [hk]
  have hid : nodupKeys c ∧ (∀ k, k ≠ key → lookup c k = lookup c k) ∧
        (∀ k, lookup c k = none → lookup c k = none) := ⟨hn, fun _ _ => rfl, fun _ h => h⟩
  unfold maskField at h
  cases hl : lookup c key with
  | none =>
    simp only [hl, Option.some.injEq, Prod.mk.injEq] at h
    obtain ⟨⟨rfl, -⟩, -⟩ := h
    exact hid
  | some v =>
    have hne : lookup c key ≠ none := by simp [hl]
    rw [hl] at h
    cases v with
    | nil =>
      simp only [Option.some.injEq, Prod.mk.injEq] at h
      obtain ⟨⟨rfl, -⟩, -⟩ := h
      exact hdel
    | dicts j =>
      simp only at h
      cases hm : maskDictionaries engine contexts j [] none st with
      | none => simp [hm] at h
      | some r =>
        obtain ⟨⟨tab, e1⟩, s1⟩ := r
        simp only [hm, Option.some.injEq, Prod.mk.injEq] at h
        obtain ⟨⟨rfl, -⟩, -⟩ := h
        exact hset _ hne
    | list j =>
      simp only at h
      cases hm : maskEntries engine contexts j [] none st with
      | none => simp [hm] at h
      | some r =>
        obtain ⟨⟨tab, e1⟩, s1⟩ := r
        simp only [hm, Option.some.injEq, Prod.mk.injEq] at h
        obtain ⟨⟨rfl, -⟩, -⟩ := h
        exact hset _ hne
    | str s0 =>
      simp only at h
      cases hm : engine (Entry.str s0) contexts st with
      | none => simp [hm] at h
      | some r =>
        obtain ⟨⟨x, e1⟩, s1⟩ := r
        cases e1 with
        | none =>
          simp only [hm, Option.some.injEq, Prod.mk.injEq] at h
          obtain ⟨⟨rfl, -⟩, -⟩ := h
          exact hset _ hne
        | some er =>
          simp only [hm, Option.some.injEq, Prod.mk.injEq] at h
          obtain ⟨⟨rfl, -⟩, -⟩ := h
          exact hid
    | num s0 =>
      simp only at h
      cases hm : engine (Entry.num s0) contexts st with
      | none => simp [hm] at h
      | some r =>
        obtain ⟨⟨x, e1⟩, s1⟩ := r
        cases e1 with
        | none =>
          simp only [hm, Option.some.injEq, Prod.mk.injEq] at h
          obtain ⟨⟨rfl, -⟩, -⟩ := h
          exact hset _ hne
        | some er =>
          simp only [hm, Option.some.injEq, Prod.mk.injEq] at h
          obtain ⟨⟨rfl, -⟩, -⟩ := h
          exact hid
    | bool s0 =>
      simp only at h
      cases hm : engine (Entry.bool s0) contexts st with
      | none => simp [hm] at h
      | some r =>
        obtain ⟨⟨x, e1⟩, s1⟩ := r
        cases e1 with
        | none =>
          simp only [hm, Option.some.injEq, Prod.mk.injEq] at h
          obtain ⟨⟨rfl, -⟩, -⟩ := h
          exact hset _ hne
        | some er =>
          simp only [hm, Option.some.injEq, Prod.mk.injEq] at h
          obtain ⟨⟨rfl, -⟩, -⟩ := h
          exact hid
    | dict s0 =>
      simp only at h
      cases hm : engine (Entry.dict s0) contexts st with
      | none => simp [hm] at h
      | some r =>
        obtain ⟨⟨x, e1⟩, s1⟩ := r
        cases e1 with
        | none =>
          simp only [hm, Option.some.injEq, Prod.mk.injEq] at h
          obtain ⟨⟨rfl, -⟩, -⟩ := h
          exact hset _ hne
        | some er =>
          simp only [hm, Option.some.injEq, Prod.mk.injEq] at h
          obtain ⟨⟨rfl, -⟩, -⟩ := h
          exact hid

/-- The value branch of `maskField`, for a field in the last case of the type switch. -/
theorem maskField_single {σ : Type} (engine : MaskEngine σ) (c : Dictionary) (key : String)
    (contexts : List Dictionary) (st : σ) (v : Entry) (hl : lookup c key = some v)
    (hv : v.isSingle = true) :
    maskField engine c key contexts st =
      match engine v contexts st with
      | none => none
      | some ((_, some erreur), st') => some ((c, some erreur), st')
      | some ((e, none), st') => some ((set c key e, none), st') := by
  unfold maskField
  rw [hl]
  cases v <;> first | rfl | simp [Entry.isSingle] at hv

/-! ## Configurations -/

theorem SplitN_cases (key : String) :
    (SplitN key = [key] ∧ firstSegment key = key) ∨
      ∃ rest, SplitN key = [firstSegment key, rest] := by
  unfold SplitN firstSegment
  cases breakDot key.data with
  | none => left; exact ⟨rfl, rfl⟩
  | some p => obtain ⟨a, b⟩ := p; right; exact ⟨String.mk b, rfl⟩

theorem WithContextEntry_dotted {σ : Type} (mmc : MapMaskConfiguration σ) (key first rest : String)
    (engine : MaskContextEngine σ) (h : SplitN key = [first, rest]) :
    mmc.WithContextEntry key engine =
      ⟨mmc.config ++
        [⟨(MapMaskConfiguration.WithContextEntry NewMaskConfiguration rest engine).AsContextEngine,
          first⟩]⟩ := by
  rw [MapMaskConfiguration.WithContextEntry]
  split
  · rename_i f r h'
    rw [h] at h'
    simp only [List.cons.injEq, and_true] at h'
    obtain ⟨rfl, rfl⟩ := h'
    rfl
  · rename_i h'
    exact absurd h (h' first rest)

theorem WithContextEntry_plain {σ : Type} (mmc : MapMaskConfiguration σ) (key : String)
    (engine : MaskContextEngine σ) (h : SplitN key = [key]) :
    mmc.WithContextEntry key engine = ⟨mmc.config ++ [⟨engine, key⟩]⟩ := by
  rw [MapMaskConfiguration.WithContextEntry]
  split
  · rename_i f r h'
    rw [h] at h'
    simp at h'
  · rfl

theorem WithEntry_config {σ : Type} (key : String) (engine : MaskEngine σ) :
    ∃ b : MaskKey σ, (∀ m : MapMaskConfiguration σ, (m.WithEntry key engine).config = m.config ++ [b]) ∧
      b.Key = firstSegment key ∧ isWrapper b := by
  rcases SplitN_cases key with ⟨h, hf⟩ | ⟨rest, h⟩
  · refine ⟨⟨ContextWrapper.MaskContext ⟨engine⟩, key⟩, ?_, hf.symm, ⟨⟨engine⟩, rfl⟩⟩
    intro m
    unfold MapMaskConfiguration.WithEntry
    rw [WithContextEntry_plain m key _ h]
  · refine ⟨⟨(MapMaskConfiguration.WithContextEntry NewMaskConfiguration rest
        (ContextWrapper.MaskContext ⟨engine⟩)).AsContextEngine, firstSegment key⟩, ?_, rfl,
        ⟨⟨(MapMaskConfiguration.WithContextEntry NewMaskConfiguration rest
        (ContextWrapper.MaskContext ⟨engine⟩)).AsEngine⟩, rfl⟩⟩
    intro m
    unfold MapMaskConfiguration.WithEntry
    rw [WithContextEntry_dotted m key _ rest _ h]

theorem buildConfig_snoc {σ : Type} (es : List (String × MaskEngine σ))
    (e : String × MaskEngine σ) :
    buildConfig (es ++ [e]) = (buildConfig es).WithEntry e.1 e.2 := by
  simp [buildConfig, List.foldl_append]

theorem buildConfig_append {σ : Type} (xs ys : List (String × MaskEngine σ)) :
    (buildConfig (xs ++ ys)).config = (buildConfig xs).config ++ (buildConfig ys).config := by
  induction ys using List.reverseRecOn with
  | nil => simp [buildConfig, NewMaskConfiguration]
  | append_singleton ys e ih =>
    obtain ⟨b, hb, -, -⟩ := WithEntry_config e.1 e.2
    rw [← List.append_assoc, buildConfig_snoc, buildConfig_snoc, hb, hb, ih, List.append_assoc]

theorem buildConfig_single {σ : Type} (key : String) (engine : MaskEngine σ) :
    ∃ b : MaskKey σ, (buildConfig [(key, engine)]).config = [b] ∧ b.Key = firstSegment key ∧
      isWrapper b := by
  obtain ⟨b, hb, hk, hw⟩ := WithEntry_config key engine
  refine ⟨b, ?_, hk, hw⟩
  have := hb NewMaskConfiguration
  simpa [buildConfig, NewMaskConfiguration] using this

theorem buildConfig_props {σ : Type} (es : List (String × MaskEngine σ)) :
    (buildConfig es).config.map (fun b => b.Key) = es.map (fun e => firstSegment e.1) ∧
      ∀ b ∈ (buildConfig es).config, isWrapper b := by
  induction es with
  | nil => simp [buildConfig, NewMaskConfiguration]
  | cons e es ih =>
    obtain ⟨b, hb, hk, hw⟩ := buildConfig_single e.1 e.2
    have : (buildConfig (e :: es)).config = b :: (buildConfig es).config := by
      have := buildConfig_append [e] es
      rw [List.singleton_append] at this
      rw [this, hb]; rfl
    rw [this]
    refine ⟨by simp [hk, ih.1], ?_⟩
    intro b' hb'
    rcases List.mem_cons.1 hb' with rfl | h
    · exact hw
    · exact ih.2 b' h

theorem buildConfig_nil {σ : Type} : (buildConfig ([] : List
    (String × MaskEngine σ))).config = [] :=
  rfl

theorem buildConfig_cons_plain {σ : Type} (k : String) (s : MaskEngine σ)
    (es : List (String × MaskEngine σ)) (h : SplitN k = [k]) :
    (buildConfig ((k, s) :: es)).config =
      ⟨ContextWrapper.MaskContext ⟨s⟩, k⟩ :: (buildConfig es).config := by
  have := buildConfig_append [(k, s)] es
  rw [List.singleton_append] at this
  rw [this]
  simp only [buildConfig, List.foldl, MapMaskConfiguration.WithEntry]
  rw [WithContextEntry_plain _ k _ h]
  rfl

theorem buildConfig_cons_dotted {σ : Type} (p a b : String) (s : MaskEngine σ)
    (es : List (String × MaskEngine σ)) (h : SplitN p = [a, b]) (hb : SplitN b = [b]) :
    (buildConfig ((p, s) :: es)).config =
      ⟨ContextWrapper.MaskContext
        ⟨MaskingEngineFactory ⟨[⟨ContextWrapper.MaskContext ⟨s⟩, b⟩]⟩ false⟩, a⟩ ::
        (buildConfig es).config := by
  have := buildConfig_append [(p, s)] es
  rw [List.singleton_append] at this
  rw [this]
  simp only [buildConfig, List.foldl, MapMaskConfiguration.WithEntry]
  rw [WithContextEntry_dotted _ p a b _ h, WithContextEntry_plain _ b _ hb]
  rfl

theorem breakDot_append (a b : List Char) (ha : '.' ∉ a) :
    breakDot (a ++ '.' :: b) = some (a, b) := by
  induction a with
  | nil => simp [breakDot]
  | cons c a ih =>
    simp only [List.mem_cons, not_or] at ha
    have hc : ¬ c = '.' := fun e => ha.1 e.symm
    simp [breakDot, hc, ih ha.2]

theorem breakDot_none (a : List Char) (ha : '.' ∉ a) : breakDot a = none := by
  induction a with
  | nil => simp [breakDot]
  | cons c a ih =>
    simp only [List.mem_cons, not_or] at ha
    have hc : ¬ c = '.' := fun e => ha.1 e.symm
    simp [breakDot, hc, ih ha.2]

theorem SplitN_plain (k : String) (hk : '.' ∉ k.data) : SplitN k = [k] := by
  simp [SplitN, breakDot_none k.data hk]

theorem SplitN_dotted (a b : String) (ha : '.' ∉ a.data) : SplitN (a ++ "." ++ b) = [a, b] := by
  have : (a ++ "." ++ b).data = a.data ++ '.' :: b.data := by
    simp [String.data_append]
  simp [SplitN, this, breakDot_append a.data b.data ha]

/-! ## The driver's loop -/

theorem applyBindings_append {σ : Type} (root : Bool) (contexts : List Dictionary) (xs ys : List
    (MaskKey σ)) :
    ∀ (output : Dictionary) (errMask : Option Err) (st : σ),
      applyBindings root contexts (xs ++ ys) output errMask st =
        match applyBindings root contexts xs output errMask st with
        | none => none
        | some ((o, e), s) => applyBindings root contexts ys o e s := by
  induction xs with
  | nil => intro output errMask st; simp [applyBindings]
  | cons b xs ih =>
    intro output errMask st
    rw [List.cons_append]
    simp only [applyBindings]
    cases hc : (if root = true then b.maskCont output b.Key [output]
        else b.maskCont output b.Key contexts) st with
    | none => rfl
    | some r =>
      obtain ⟨⟨o, e⟩, s⟩ := r
      cases e with
      | none => simp only [ih]
      | some er => simp only [ih]

theorem applyBindings_err {σ : Type} (root : Bool) (contexts : List Dictionary) (bs : List
    (MaskKey σ)) :
    ∀ (output : Dictionary) (e0 : Err) (st st' : σ) (out : Dictionary) (e : Option Err),
      applyBindings root contexts bs output (some e0) st = some ((out, e), st') → e ≠ none := by
  induction bs with
  | nil =>
    intro output e0 st st' out e h
    simp only [applyBindings, Option.some.injEq, Prod.mk.injEq] at h
    rw [← h.1.2]; simp
  | cons b bs ih =>
    intro output e0 st st' out e h
    simp only [applyBindings] at h
    cases hc : (if root = true then b.maskCont output b.Key [output]
        else b.maskCont output b.Key contexts) st with
    | none => simp [hc] at h
    | some r =>
      obtain ⟨⟨o, e1⟩, s⟩ := r
      rw [hc] at h
      cases e1 with
      | none => exact ih _ _ _ _ _ _ h
      | some er => exact ih _ _ _ _ _ _ h

/-- One call of the driver's loop on a ContextWrapper binding keeps the keys unique, leaves the
other fields alone and adds no field. -/
theorem wrapper_call_props {σ : Type} (b : MaskKey σ) (hw : isWrapper b) (output : Dictionary)
    (contexts : List Dictionary) (st st' : σ) (res : Dictionary) (e : Option Err)
    (hn : nodupKeys output) (h : b.maskCont output b.Key contexts st = some ((res, e), st')) :
    nodupKeys res ∧ (∀ k, k ≠ b.Key → lookup res k = lookup output k) ∧
      (∀ k, lookup output k = none → lookup res k = none) := by
  obtain ⟨cw, hcw⟩ := hw
  rw [hcw, maskContext_eq_maskField cw output b.Key contexts st hn] at h
  exact maskField_props cw.engine output b.Key contexts st st' res e hn h

theorem applyBindings_props {σ : Type} (root : Bool) (contexts : List Dictionary) (bs : List
    (MaskKey σ)) :
    (∀ b ∈ bs, isWrapper b) →
    ∀ (output : Dictionary) (errMask : Option Err) (st st' : σ) (out : Dictionary)
      (e : Option Err), nodupKeys output →
      applyBindings root contexts bs output errMask st = some ((out, e), st') →
      nodupKeys out ∧ (∀ k, k ∉ bs.map (fun b => b.Key) → lookup out k = lookup output k) ∧
        (∀ k, lookup output k = none → lookup out k = none) := by
  induction bs with
  | nil =>
    intro _ output errMask st st' out e hn h
    simp only [applyBindings, Option.some.injEq, Prod.mk.injEq] at h
    obtain ⟨⟨rfl, -⟩, -⟩ := h
    exact ⟨hn, fun _ _ => rfl, fun _ h => h⟩
  | cons b bs ih =>
    intro hw output errMask st st' out e hn h
    have hwb : isWrapper b := hw b (List.mem_cons_self _ _)
    have hws : ∀ b' ∈ bs, isWrapper b' := fun b' hb' => hw b' (List.mem_cons_of_mem _ hb')
    simp only [applyBindings] at h
    cases hc : (if root = true then b.maskCont output b.Key [output]
        else b.maskCont output b.Key contexts) st with
    | none => simp [hc] at h
    | some r =>
      obtain ⟨⟨o, e1⟩, s⟩ := r
      rw [hc] at h
      have hcall : nodupKeys o ∧ (∀ k, k ≠ b.Key → lookup o k = lookup output k) ∧
          (∀ k, lookup output k = none → lookup o k = none) := by
        cases root with
        | true => exact wrapper_call_props b hwb output [output] st s o e1 hn (by simpa using hc)
        | false => exact wrapper_call_props b hwb output contexts st s o e1 hn (by simpa using hc)
      obtain ⟨hno, hfr, hnn⟩ := hcall
      cases e1 with
      | none =>
        obtain ⟨h1, h2, h3⟩ := ih hws o errMask s st' out e hno h
        refine ⟨h1, ?_, fun k hk => h3 k (hnn k hk)⟩
        intro k hk
        simp only [List.map_cons, List.mem_cons, not_or] at hk
        rw [h2 k hk.2, hfr k hk.1]
      | some er =>
        obtain ⟨h1, h2, h3⟩ := ih hws (delete o b.Key) (some er) s st' out e
          (nodupKeys_delete o b.Key hno) h
        refine ⟨h1, ?_, ?_⟩
        · intro k hk
          simp only [List.map_cons, List.mem_cons, not_or] at hk
          rw [h2 k hk.2, lookup_delete, if_neg hk.1, hfr k hk.1]
        · intro k hk
          apply h3
          rw [lookup_delete]
          by_cases hkk : k = b.Key
          · simp [hkk]
          · simp [hkk, hnn k hk]

theorem lastFailure_nil : lastFailure [] = none := rfl

theorem lastFailure_cons_none (errs : List (Option Err)) :
    lastFailure (none :: errs) = lastFailure errs := by
  simp [lastFailure]

theorem lastFailure_cons_some (e : Err) (errs : List (Option Err)) :
    lastFailure (some e :: errs) = some ((lastFailure errs).getD e) := by
  simp only [lastFailure, List.filterMap_cons, id]
  cases h : List.filterMap id errs with
  | nil => simp
  | cons a l =>
    rw [List.getLast?_cons_cons, List.getLast?_eq_getLast _ (List.cons_ne_nil a l)]
    rfl

theorem lastFailure_eq_none (errs : List (Option Err)) :
    lastFailure errs = none ↔ ∀ o ∈ errs, o = none := by
  induction errs with
  | nil => simp [lastFailure]
  | cons o errs ih =>
    cases o with
    | none => simp [lastFailure_cons_none, ih]
    | some e => simp [lastFailure_cons_some]

theorem lastFailure_eq_some (errs : List (Option Err)) (e : Err) :
    lastFailure errs = some e ↔
      ∃ pre post, errs = pre ++ some e :: post ∧ ∀ o ∈ post, o = none := by
  induction errs with
  | nil => simp [lastFailure]
  | cons o errs ih =>
    constructor
    · intro h
      cases o with
      | none =>
        rw [lastFailure_cons_none] at h
        obtain ⟨pre, post, hp, hq⟩ := ih.1 h
        exact ⟨none :: pre, post, by simp [hp], hq⟩
      | some e0 =>
        rw [lastFailure_cons_some] at h
        cases hl : lastFailure errs with
        | none =>
          simp only [hl, Option.getD_none, Option.some.injEq] at h
          subst h
          exact ⟨[], errs, rfl, (lastFailure_eq_none errs).1 hl⟩
        | some e1 =>
          simp only [hl, Option.getD_some, Option.some.injEq] at h
          subst h
          obtain ⟨pre, post, hp, hq⟩ := ih.1 hl
          exact ⟨some e0 :: pre, post, by simp [hp], hq⟩
    · rintro ⟨pre, post, hp, hq⟩
      cases pre with
      | nil =>
        simp only [List.nil_append, List.cons.injEq] at hp
        obtain ⟨rfl, rfl⟩ := hp
        rw [lastFailure_cons_some, (lastFailure_eq_none _).2 hq]
        rfl
      | cons p pre =>
        simp only [List.cons_append, List.cons.injEq] at hp
        obtain ⟨rfl, hp⟩ := hp
        have := ih.2 ⟨pre, post, hp, hq⟩
        cases o with
        | none => rw [lastFailure_cons_none, this]
        | some e0 => rw [lastFailure_cons_some, this]; rfl

/-- The failure the loop returns is the last failure of its calls, or the failure it started
with when no call failed; the loop aborts exactly when a call aborts. -/
theorem applyBindings_outcomes {σ : Type} (root : Bool) (contexts : List Dictionary) (bs : List
    (MaskKey σ)) :
    ∀ (output : Dictionary) (errMask : Option Err) (st : σ),
      (applyBindings root contexts bs output errMask st).map (fun x => x.1.2) =
        (bindingOutcomes root contexts bs output st).map
          (fun errs => match lastFailure errs with
            | some e => some e
            | none => errMask) := by
  induction bs with
  | nil => intro output errMask st; simp [applyBindings, bindingOutcomes, lastFailure]
  | cons b bs ih =>
    intro output errMask st
    simp only [applyBindings, bindingOutcomes]
    cases hc : (if root = true then b.maskCont output b.Key [output]
        else b.maskCont output b.Key contexts) st with
    | none => rfl
    | some r =>
      obtain ⟨⟨o, e1⟩, s⟩ := r
      cases e1 with
      | none =>
        simp only [ih, Option.map_map]
        congr 1
      | some er =>
        simp only [ih, Option.map_map]
        congr 1
        funext errs
        simp only [Function.comp, lastFailure_cons_some]
        cases lastFailure errs <;> rfl

theorem applyBindings_returns {σ : Type} (root : Bool) (contexts : List Dictionary)
    (bs : List (MaskKey σ)) (output : Dictionary) (errMask : Option Err) (st : σ)
    (outs : List (Option Err)) (h : bindingOutcomes root contexts bs output st = some outs) :
    ∃ o err st', applyBindings root contexts bs output errMask st = some ((o, err), st') := by
  have := applyBindings_outcomes root contexts bs output errMask st
  rw [h] at this
  cases ha : applyBindings root contexts bs output errMask st with
  | none => simp [ha] at this
  | some x => obtain ⟨⟨o, e⟩, s⟩ := x; exact ⟨o, e, s, rfl⟩

theorem applyBindings_failed {σ : Type} (root : Bool) (contexts : List Dictionary)
    (bs : List (MaskKey σ)) :
    (∀ b ∈ bs, isWrapper b) →
    ∀ (output : Dictionary) (errMask : Option Err) (st : σ) (outs : List (Option Err)) (i : Nat)
      (e : Err) (b : MaskKey σ), nodupKeys output →
      bindingOutcomes root contexts bs output st = some outs →
      outs[i]? = some (some e) → bs[i]? = some b →
      ∃ o err st', applyBindings root contexts bs output errMask st = some ((o, err), st') ∧
        err ≠ none ∧ lookup o b.Key = none := by
  induction bs with
  | nil => intro _ output errMask st outs i e b _ _ _ hb; simp at hb
  | cons b0 bs ih =>
    intro hw output errMask st outs i e b hn houts hi hb
    have hwb : isWrapper b0 := hw b0 (List.mem_cons_self _ _)
    have hws : ∀ b' ∈ bs, isWrapper b' := fun b' hb' => hw b' (List.mem_cons_of_mem _ hb')
    simp only [bindingOutcomes] at houts
    simp only [applyBindings]
    cases hc : (if root = true then b0.maskCont output b0.Key [output]
        else b0.maskCont output b0.Key contexts) st with
    | none => simp [hc] at houts
    | some x =>
      obtain ⟨⟨o1, e1⟩, s1⟩ := x
      rw [hc] at houts
      have hcall : nodupKeys o1 := by
        cases root with
        | true =>
          exact (wrapper_call_props b0 hwb output [output] st s1 o1 e1 hn (by simpa using hc)).1
        | false =>
          exact (wrapper_call_props b0 hwb output contexts st s1 o1 e1 hn (by simpa using hc)).1
      cases e1 with
      | none =>
        simp only [Option.map_eq_some'] at houts
        obtain ⟨outs', ho', rfl⟩ := houts
        cases i with
        | zero => simp at hi
        | succ j =>
          simp only [List.getElem?_cons_succ] at hi hb
          exact ih hws o1 errMask s1 outs' j e b hcall ho' hi hb
      | some er =>
        simp only [Option.map_eq_some'] at houts
        obtain ⟨outs', ho', rfl⟩ := houts
        have hnd := nodupKeys_delete o1 b0.Key hcall
        cases i with
        | zero =>
          simp only [List.getElem?_cons_zero, Option.some.injEq] at hi hb
          subst hb
          obtain ⟨o, err, st', ha⟩ := applyBindings_returns root contexts bs (delete o1 b0.Key)
            (some er) s1 outs' ho'
          refine ⟨o, err, st', ha, applyBindings_err root contexts bs _ _ _ _ _ _ ha, ?_⟩
          apply (applyBindings_props root contexts bs hws _ _ _ _ _ _ hnd ha).2.2
          rw [lookup_delete]; simp
        | succ j =>
          simp only [List.getElem?_cons_succ] at hi hb
          exact ih hws (delete o1 b0.Key) (some er) s1 outs' j e b hnd ho' hi hb

/-- The adapter on a field in the last case of the type switch: one call of the strategy. -/
theorem plain_call {σ : Type} (s : MaskEngine σ) (o : Dictionary) (k : String)
    (contexts : List Dictionary) (st : σ) (v : Entry) (hn : nodupKeys o)
    (hv : lookup o k = some v) (hs : v.isSingle = true) :
    ContextWrapper.MaskContext ⟨s⟩ o k contexts st =
      match s v contexts st with
      | none => none
      | some ((_, some erreur), st') => some ((o, some erreur), st')
      | some ((e, none), st') => some ((set o k e, none), st') := by
  rw [maskContext_eq_maskField _ _ _ _ _ hn]
  exact maskField_single _ _ _ _ _ v hv hs

/-- The binding of a two-segment path `a.b` on a record whose field `a` is a record holding,
under `b`, a value in the last case of the type switch. -/
theorem dotted_call {σ : Type} (s : MaskEngine σ) (o : Dictionary) (a b : String)
    (contexts : List Dictionary) (st : σ) (d : Dictionary) (v0 : Entry) (hn : nodupKeys o)
    (ha : lookup o a = some (Entry.dict d)) (hd : nodupKeys d) (hb : lookup d b = some v0)
    (hs : v0.isSingle = true) :
    ContextWrapper.MaskContext
        ⟨MaskingEngineFactory ⟨[⟨ContextWrapper.MaskContext ⟨s⟩, b⟩]⟩ false⟩ o a contexts st =
      match s v0 contexts st with
      | none => none
      | some ((_, some erreur), st') => some ((o, some erreur), st')
      | some ((e, none), st') => some ((set o a (Entry.dict (set d b e)), none), st') := by
  rw [plain_call _ o a contexts st (Entry.dict d) hn ha rfl]
  simp only [MaskingEngineFactory, MapMaskConfiguration.Entries, applyBindings,
    copyDictionary_eq d hd, Bool.false_eq_true, if_false]
  rw [plain_call s d b contexts st v0 hd hb hs]
  cases hc : s v0 contexts st with
  | none => rfl
  | some x =>
    obtain ⟨⟨e, er⟩, st'⟩ := x
    cases er with
    | none => rfl
    | some erreur => rfl

/-- The driver on a configuration built with WithEntry: the loop over the first bindings, then
the loop over the rest. -/
theorem driver_split {σ : Type} (pre post : List (String × MaskEngine σ)) (root : Bool)
    (r : Dictionary) (contexts : List Dictionary) (st s1 : σ) (o : Dictionary) (e1 : Option Err)
    (hpre : applyBindings root contexts (buildConfig pre).Entries (copyDictionary r) none st =
      some ((o, e1), s1)) :
    MaskingEngineFactory (buildConfig (pre ++ post)) root (Entry.dict r) contexts st =
      (applyBindings root contexts (buildConfig post).Entries o e1 s1).map
        (fun x => ((Entry.dict x.1.1, x.1.2), x.2)) := by
  simp only [MapMaskConfiguration.Entries] at hpre
  simp only [MaskingEngineFactory, MapMaskConfiguration.Entries]
  rw [buildConfig_append, applyBindings_append, hpre]
  cases hp : applyBindings root contexts (buildConfig post).config o e1 s1 with
  | none => simp only [hp, Option.map_none']
  | some x => simp only [hp, Option.map_some']

theorem maskEntries_indep {σ : Type} (engine : MaskEngine σ) (c1 c2 : List Dictionary)
    (h : ∀ v st, engine v c1 st = engine v c2 st) (j : List Entry) :
    ∀ (tab : List Entry) (err : Option Err) (st : σ),
      maskEntries engine c1 j tab err st = maskEntries engine c2 j tab err st := by
  induction j with
  | nil => intro tab err st; rfl
  | cons x j ih =>
    intro tab err st
    simp only [maskEntries, h, ih]

theorem maskDictionaries_indep {σ : Type} (engine : MaskEngine σ) (c1 c2 : List Dictionary)
    (h : ∀ v st, engine v c1 st = engine v c2 st) (j : List Dictionary) :
    ∀ (tab : List Dictionary) (err : Option Err) (st : σ),
      maskDictionaries engine c1 j tab err st = maskDictionaries engine c2 j tab err st := by
  induction j with
  | nil => intro tab err st; rfl
  | cons x j ih =>
    intro tab err st
    simp only [maskDictionaries, h, ih]

theorem maskContextLoop_indep {σ : Type} (engine : MaskEngine σ) (c1 c2 : List Dictionary)
    (h : ∀ v st, engine v c1 st = engine v c2 st) (context : Dictionary) (key : String)
    (l : List (String × Entry)) :
    ∀ (result : Dictionary) (err : Option Err) (st : σ),
      maskContextLoop engine context key c1 l result err st =
        maskContextLoop engine context key c2 l result err st := by
  induction l with
  | nil => intro result err st; rfl
  | cons kv l ih =>
    intro result err st
    obtain ⟨k, v⟩ := kv
    simp only [maskContextLoop, h, ih, maskEntries_indep engine c1 c2 h,
      maskDictionaries_indep engine c1 c2 h]

/-- A ContextWrapper around a strategy that ignores its contexts ignores its contexts. -/
theorem maskContext_indep {σ : Type} (engine : MaskEngine σ)
    (h : ∀ v c1 c2 st, engine v c1 st = engine v c2 st) (o : Dictionary) (k : String)
    (c1 c2 : List Dictionary) (st : σ) :
    ContextWrapper.MaskContext ⟨engine⟩ o k c1 st = ContextWrapper.MaskContext ⟨engine⟩ o k c2 st :=
  maskContextLoop_indep engine c1 c2 (fun v st => h v c1 c2 st) o k o [] none st

theorem applyBindings_indep {σ : Type} (bs : List (MaskKey σ)) (contexts : List Dictionary)
    (h : ∀ b ∈ bs, ∀ o k c1 c2 st, b.maskCont o k c1 st = b.maskCont o k c2 st) :
    ∀ (output : Dictionary) (errMask : Option Err) (st : σ),
      applyBindings false contexts bs output errMask st =
        applyBindings true contexts bs output errMask st := by
  induction bs with
  | nil => intro output errMask st; rfl
  | cons b bs ih =>
    intro output errMask st
    have hb := h b (List.mem_cons_self _ _) output b.Key contexts [output] st
    have ih' := ih (fun b' hb' => h b' (List.mem_cons_of_mem _ hb'))
    simp only [applyBindings, Bool.false_eq_true, if_false, if_true, hb, ih']

/-! ## Claims -/

/-- C1 (frame): for a configuration built only with WithEntry and a record `r`, the record
returned by the driver, root or not, agrees with `r` on every top-level key `k` that is not the
first segment of a registered path: `k` is present in the output iff it is present in `r`, with
the same value. -/
theorem unconfigured_fields_untouched {σ : Type} (entries : List (String × MaskEngine σ))
    (root : Bool) (r : Dictionary) (contexts : List Dictionary) (st st' : σ) (out : Entry)
    (err : Option Err) (k : String) (hr : nodupKeys r)
    (hk : ∀ e ∈ entries, firstSegment e.1 ≠ k)
    (h : MaskingEngineFactory (buildConfig entries) root (Entry.dict r) contexts st =
      some ((out, err), st')) :
    ∃ o, out = Entry.dict o ∧ lookup o k = lookup r k := by
  simp only [MaskingEngineFactory, MapMaskConfiguration.Entries] at h
  cases ha : applyBindings root contexts (buildConfig entries).config (copyDictionary r) none st with
  | none => simp [ha] at h
  | some x =>
    obtain ⟨⟨o, e⟩, s⟩ := x
    simp only [ha, Option.some.injEq, Prod.mk.injEq] at h
    obtain ⟨⟨rfl, -⟩, -⟩ := h
    refine ⟨o, rfl, ?_⟩
    rw [copyDictionary_eq r hr] at ha
    obtain ⟨hkeys, hwr⟩ := buildConfig_props entries
    have := (applyBindings_props root contexts _ hwr r none st s o e hr ha).2.1 k
    apply this
    rw [hkeys]
    simp only [List.mem_map, not_exists, not_and]
    intro e' he' hf
    exact hk e' he' hf

theorem unconfigured_fields_untouched_witness :
    nodupKeys [("a", Entry.dict [("b", Entry.str "x"), ("c", Entry.str "y")]), ("z", Entry.num 1)] ∧
    (∀ e ∈ [("a.b", constantMask (Entry.str "M"))], firstSegment e.1 ≠ "z") ∧
    MaskingEngineFactory (buildConfig [("a.b", constantMask (Entry.str "M"))]) true
      (Entry.dict [("a", Entry.dict [("b", Entry.str "x"), ("c", Entry.str "y")]),
        ("z", Entry.num 1)]) [] () =
      some ((Entry.dict [("a", Entry.dict [("b", Entry.str "M"), ("c", Entry.str "y")]),
        ("z", Entry.num 1)], none), ()) ∧
    ∃ o, Entry.dict [("a", Entry.dict [("b", Entry.str "M"), ("c", Entry.str "y")]),
        ("z", Entry.num 1)] = Entry.dict o ∧
      lookup o "z" = lookup [("a", Entry.dict [("b", Entry.str "x"), ("c", Entry.str "y")]),
        ("z", Entry.num 1)] "z" := by
  have h1 : nodupKeys [("a", Entry.dict [("b", Entry.str "x"), ("c", Entry.str "y")]),
      ("z", Entry.num 1)] := by simp [nodupKeys, keys]
  have h2 : ∀ e ∈ [("a.b", constantMask (Entry.str "M"))], firstSegment e.1 ≠ "z" := by
    intro e he
    simp only [List.mem_singleton] at he
    subst he
    decide
  have h3 : MaskingEngineFactory (buildConfig [("a.b", constantMask (Entry.str "M"))]) true
      (Entry.dict [("a", Entry.dict [("b", Entry.str "x"), ("c", Entry.str "y")]),
        ("z", Entry.num 1)]) [] () =
      some ((Entry.dict [("a", Entry.dict [("b", Entry.str "M"), ("c", Entry.str "y")]),
        ("z", Entry.num 1)], none), ()) := by
    simp only [MaskingEngineFactory, MapMaskConfiguration.Entries]
    rw [buildConfig_cons_dotted "a.b" "a" "b" _ _ (by decide) (by decide), buildConfig_nil]
    rfl
  exact ⟨h1, h2, h3, unconfigured_fields_untouched _ true _ [] () () _ none "z" h1 h2 h3⟩

/-- C2 (fail-closed deletion): for a configuration built with WithEntry and a record `r`, when
the calls of the driver's loop have the outcomes `outs` and the call of the `i`-th binding `b`
failed, the driver returns a non-nil outcome and a record with no entry under `b.Key`, whatever
bindings come before or after. -/
theorem fail_closed_deletion {σ : Type} (entries : List (String × MaskEngine σ)) (root : Bool)
    (r : Dictionary) (contexts : List Dictionary) (st : σ) (outs : List (Option Err)) (i : Nat)
    (e : Err) (b : MaskKey σ) (hr : nodupKeys r)
    (houts : bindingOutcomes root contexts (buildConfig entries).Entries (copyDictionary r) st =
      some outs)
    (hi : outs[i]? = some (some e)) (hb : (buildConfig entries).Entries[i]? = some b) :
    ∃ o err st', MaskingEngineFactory (buildConfig entries) root (Entry.dict r) contexts st =
        some ((Entry.dict o, err), st') ∧ err ≠ none ∧ lookup o b.Key = none := by
  have hn : nodupKeys (copyDictionary r) := by rw [copyDictionary_eq r hr]; exact hr
  obtain ⟨o, err, st', ha, he, hl⟩ := applyBindings_failed root contexts
    (buildConfig entries).Entries (buildConfig_props entries).2 (copyDictionary r) none st outs i e
    b hn houts hi hb
  exact ⟨o, err, st', by simp only [MaskingEngineFactory, ha], he, hl⟩

theorem fail_closed_deletion_witness :
    nodupKeys [("a", Entry.str "x"), ("b", Entry.str "y")] ∧
    bindingOutcomes true []
      (buildConfig [("a", failingMask "boom"), ("b", constantMask (Entry.str "M"))]).Entries
      (copyDictionary [("a", Entry.str "x"), ("b", Entry.str "y")]) () =
      some [some "boom", none] ∧
    [some "boom", (none : Option Err)][0]? = some (some "boom") ∧
    (buildConfig [("a", failingMask "boom"), ("b", constantMask (Entry.str "M"))]).Entries[0]? =
      some ⟨ContextWrapper.MaskContext ⟨failingMask "boom"⟩, "a"⟩ ∧
    ∃ o err st', MaskingEngineFactory
        (buildConfig [("a", failingMask "boom"), ("b", constantMask (Entry.str "M"))]) true
        (Entry.dict [("a", Entry.str "x"), ("b", Entry.str "y")]) [] () =
        some ((Entry.dict o, err), st') ∧ err ≠ none ∧ lookup o "a" = none := by
  have hc : (buildConfig [("a", failingMask "boom"), ("b", constantMask (Entry.str "M"))]).config =
      [⟨ContextWrapper.MaskContext ⟨failingMask "boom"⟩, "a"⟩,
        ⟨ContextWrapper.MaskContext ⟨constantMask (Entry.str "M")⟩, "b"⟩] := by
    rw [buildConfig_cons_plain "a" _ _ (by decide), buildConfig_cons_plain "b" _ _ (by decide),
      buildConfig_nil]
  have h1 : nodupKeys [("a", Entry.str "x"), ("b", Entry.str "y")] := by simp [nodupKeys, keys]
  have h2 : bindingOutcomes true []
      (buildConfig [("a", failingMask "boom"), ("b", constantMask (Entry.str "M"))]).Entries
      (copyDictionary [("a", Entry.str "x"), ("b", Entry.str "y")]) () =
      some [some "boom", none] := by
    simp only [MapMaskConfiguration.Entries]
    rw [hc]
    rfl
  have h3 : [some "boom", (none : Option Err)][0]? = some (some "boom") := rfl
  have h4 : (buildConfig [("a", failingMask "boom"),
      ("b", constantMask (Entry.str "M"))]).Entries[0]? =
      some ⟨ContextWrapper.MaskContext ⟨failingMask "boom"⟩, "a"⟩ := by
    simp only [MapMaskConfiguration.Entries]
    rw [hc]
    rfl
  exact ⟨h1, h2, h3, h4, fail_closed_deletion _ true _ [] () _ 0 "boom" _ h1 h2 h3 h4⟩

/-- C3 (last failure wins): for every configuration and record, the driver aborts exactly when
one of its bindings' calls aborts, and otherwise the outcome it returns is `lastFailure` of the
outcomes of its bindings' calls: nil iff no call failed, and else the failure of the last
binding, in configuration order, whose call failed. -/
theorem last_failure_wins {σ : Type} (config : MapMaskConfiguration σ) (root : Bool)
    (r : Dictionary) (contexts : List Dictionary) (st : σ) :
    (MaskingEngineFactory config root (Entry.dict r) contexts st).map (fun x => x.1.2) =
        (bindingOutcomes root contexts config.Entries (copyDictionary r) st).map lastFailure ∧
      (∀ errs : List (Option Err), lastFailure errs = none ↔ ∀ o ∈ errs, o = none) ∧
      (∀ (errs : List (Option Err)) (e : Err), lastFailure errs = some e ↔
        ∃ pre post, errs = pre ++ some e :: post ∧ ∀ o ∈ post, o = none) := by
  refine ⟨?_, lastFailure_eq_none, lastFailure_eq_some⟩
  have : (applyBindings root contexts config.Entries (copyDictionary r) none st).map
      (fun x => x.1.2) =
      (bindingOutcomes root contexts config.Entries (copyDictionary r) st).map lastFailure := by
    rw [applyBindings_outcomes]
    congr 1
    funext errs
    cases lastFailure errs <;> rfl
  rw [← this]
  simp only [MaskingEngineFactory]
  cases applyBindings root contexts config.Entries (copyDictionary r) none st with
  | none => rfl
  | some x => rfl

/-- C4 (root context propagation): in the root driver, when the working output after the
bindings registered before the plain key `k` is `o` (failed keys deleted), the adapter of the
strategy `s` registered under `k` is called on `o` with exactly one context record, `o` itself
and not the input `r`; on a field `o[k]` that is neither nil nor a list this is one call of `s`
on `o[k]` with the contexts `[o]`.  The loop then goes on with `k` deleted when the call
failed. -/
theorem root_context_is_working_output {σ : Type} (pre post : List (String × MaskEngine σ))
    (k : String) (s : MaskEngine σ) (r : Dictionary) (contexts : List Dictionary) (st s1 : σ)
    (o : Dictionary) (e1 : Option Err) (hk : SplitN k = [k]) (hr : nodupKeys r)
    (hpre : applyBindings true contexts (buildConfig pre).Entries (copyDictionary r) none st =
      some ((o, e1), s1)) :
    MaskingEngineFactory (buildConfig (pre ++ (k, s) :: post)) true (Entry.dict r) contexts st =
        (match ContextWrapper.MaskContext ⟨s⟩ o k [o] s1 with
          | none => none
          | some ((o', some err), s2) =>
            applyBindings true contexts (buildConfig post).Entries (delete o' k) (some err) s2
          | some ((o', none), s2) =>
            applyBindings true contexts (buildConfig post).Entries o' e1 s2).map
          (fun x : (Dictionary × Option Err) × σ => ((Entry.dict x.1.1, x.1.2), x.2)) ∧
      ∀ v : Entry, lookup o k = some v → v.isSingle = true →
        MaskingEngineFactory (buildConfig (pre ++ (k, s) :: post)) true (Entry.dict r) contexts
            st =
          (match s v [o] s1 with
            | none => none
            | some ((_, some err), s2) =>
              applyBindings true contexts (buildConfig post).Entries (delete o k) (some err) s2
            | some ((e, none), s2) =>
              applyBindings true contexts (buildConfig post).Entries (set o k e) e1 s2).map
            (fun x : (Dictionary × Option Err) × σ => ((Entry.dict x.1.1, x.1.2), x.2)) := by
  have hno : nodupKeys o := by
    have hn : nodupKeys (copyDictionary r) := by rw [copyDictionary_eq r hr]; exact hr
    exact (applyBindings_props true contexts _ (buildConfig_props pre).2 _ _ _ _ _ _ hn hpre).1
  have hA : MaskingEngineFactory (buildConfig (pre ++ (k, s) :: post)) true (Entry.dict r)
      contexts st =
        (match ContextWrapper.MaskContext ⟨s⟩ o k [o] s1 with
          | none => none
          | some ((o', some err), s2) =>
            applyBindings true contexts (buildConfig post).Entries (delete o' k) (some err) s2
          | some ((o', none), s2) =>
            applyBindings true contexts (buildConfig post).Entries o' e1 s2).map
          (fun x : (Dictionary × Option Err) × σ => ((Entry.dict x.1.1, x.1.2), x.2)) := by
    rw [driver_split pre ((k, s) :: post) true r contexts st s1 o e1 hpre]
    simp only [MapMaskConfiguration.Entries]
    rw [buildConfig_cons_plain k s post hk]
    simp only [applyBindings, if_true]
  refine ⟨hA, ?_⟩
  intro v hv hs
  rw [hA, plain_call s o k [o] s1 v hno hv hs]
  cases hc : s v [o] s1 with
  | none => rfl
  | some x =>
    obtain ⟨⟨e, er⟩, s2⟩ := x
    cases er with
    | none => rfl
    | some err => rfl

theorem root_context_is_working_output_witness :
    SplitN "b" = ["b"] ∧
    nodupKeys [("a", Entry.str "x"), ("b", Entry.str "y")] ∧
    applyBindings true [] (buildConfig [("a", constantMask (Entry.str "M"))]).Entries
      (copyDictionary [("a", Entry.str "x"), ("b", Entry.str "y")]) none () =
      some (([("a", Entry.str "M"), ("b", Entry.str "y")], none), ()) ∧
    lookup [("a", Entry.str "M"), ("b", Entry.str "y")] "b" = some (Entry.str "y") ∧
    (Entry.str "y").isSingle = true ∧
    MaskingEngineFactory
      (buildConfig [("a", constantMask (Entry.str "M")),
        ("b", replacement.MaskEngine.Mask (replacement.NewMask "a"))]) true
      (Entry.dict [("a", Entry.str "x"), ("b", Entry.str "y")]) [] () =
      some ((Entry.dict [("a", Entry.str "M"), ("b", Entry.str "M")], none), ()) ∧
    MaskingEngineFactory
      (buildConfig [("b", replacement.MaskEngine.Mask (replacement.NewMask "a")),
        ("a", constantMask (Entry.str "M"))]) true
      (Entry.dict [("a", Entry.str "x"), ("b", Entry.str "y")]) [] () =
      some ((Entry.dict [("a", Entry.str "M"), ("b", Entry.str "x")], none), ()) := by
  have hk : SplitN "b" = ["b"] := by decide
  have hr : nodupKeys [("a", Entry.str "x"), ("b", Entry.str "y")] := by simp [nodupKeys, keys]
  have hpre : applyBindings true [] (buildConfig [("a", constantMask (Entry.str "M"))]).Entries
      (copyDictionary [("a", Entry.str "x"), ("b", Entry.str "y")]) none () =
      some (([("a", Entry.str "M"), ("b", Entry.str "y")], none), ()) := by
    simp only [MapMaskConfiguration.Entries]
    rw [buildConfig_cons_plain "a" _ _ (by decide), buildConfig_nil]
    rfl
  have hpre' : applyBindings true [] (buildConfig ([] : List (String × MaskEngine Unit))).Entries
      (copyDictionary [("a", Entry.str "x"), ("b", Entry.str "y")]) none () =
      some (([("a", Entry.str "x"), ("b", Entry.str "y")], none), ()) := rfl
  have hpost : (buildConfig [("a", constantMask (Entry.str "M"))]).Entries =
      [⟨ContextWrapper.MaskContext ⟨constantMask (Entry.str "M")⟩, "a"⟩] := by
    simp only [MapMaskConfiguration.Entries]
    rw [buildConfig_cons_plain "a" _ _ (by decide), buildConfig_nil]
  refine ⟨hk, hr, hpre, rfl, rfl, ?_, ?_⟩
  · have h := (root_context_is_working_output [("a", constantMask (Entry.str "M"))] [] "b"
      (replacement.MaskEngine.Mask (replacement.NewMask "a")) _ [] () () _ none
      hk hr hpre).2 (Entry.str "y") rfl rfl
    rw [List.singleton_append] at h
    rw [h]
    rfl
  · have h := (root_context_is_working_output [] [("a", constantMask (Entry.str "M"))] "b"
      (replacement.MaskEngine.Mask (replacement.NewMask "a")) _ [] () () _ none
      hk hr hpre').2 (Entry.str "y") rfl rfl
    rw [List.nil_append] at h
    rw [h, hpost]
    rfl

/-- C5 as stated fails: with the field-copy of `a` bound to `b`, `AsEngine` called with no
explicit context hands the strategy no context at all, and the call aborts on `context[0]`,
while the root driver hands it the working record and returns `b` set to the value of `a`. -/
theorem AsEngine_is_root_driver_counterexample :
    (buildConfig [("b", replacement.MaskEngine.Mask (replacement.NewMask "a"))]).AsEngine
        (Entry.dict [("a", Entry.str "x"), ("b", Entry.str "y")]) [] () = none ∧
      MaskingEngineFactory
        (buildConfig [("b", replacement.MaskEngine.Mask (replacement.NewMask "a"))]) true
        (Entry.dict [("a", Entry.str "x"), ("b", Entry.str "y")]) [] () =
        some ((Entry.dict [("a", Entry.str "x"), ("b", Entry.str "x")], none), ()) := by
  have hc : (buildConfig [("b", (replacement.MaskEngine.Mask (replacement.NewMask "a") :
      MaskEngine Unit))]).config =
      [⟨ContextWrapper.MaskContext ⟨replacement.MaskEngine.Mask (replacement.NewMask "a")⟩,
        "b"⟩] := by
    rw [buildConfig_cons_plain "b" _ _ (by decide), buildConfig_nil]
  constructor
  · simp only [MapMaskConfiguration.AsEngine, MaskingEngineFactory, MapMaskConfiguration.Entries]
    rw [hc]
    rfl
  · simp only [MaskingEngineFactory, MapMaskConfiguration.Entries]
    rw [hc]
    rfl

/-- C5, amended: the engine returned by AsEngine is the nested (non-root) driver.  It behaves
exactly like `MaskingEngineFactory c false`: called on a record with no explicit context it runs
every binding with an empty context list; it coincides with the root driver
`MaskingEngineFactory c true` when every binding's result is independent of the contexts. -/
theorem AsEngine_is_nested_driver {σ : Type} (c : MapMaskConfiguration σ) (input : Entry)
    (contexts : List Dictionary) (st : σ) :
    c.AsEngine input contexts st = MaskingEngineFactory c false input contexts st ∧
      (∀ r : Dictionary, c.AsEngine (Entry.dict r) [] st =
        (applyBindings false [] c.Entries (copyDictionary r) none st).map
          (fun x : (Dictionary × Option Err) × σ => ((Entry.dict x.1.1, x.1.2), x.2))) ∧
      ((∀ b ∈ c.Entries, ∀ o k c1 c2 s, b.maskCont o k c1 s = b.maskCont o k c2 s) →
        c.AsEngine input contexts st = MaskingEngineFactory c true input contexts st) := by
  refine ⟨rfl, ?_, ?_⟩
  · intro r
    simp only [MapMaskConfiguration.AsEngine, MaskingEngineFactory]
    cases applyBindings false [] c.Entries (copyDictionary r) none st with
    | none => rfl
    | some x => rfl
  · intro h
    cases input with
    | dict r =>
      simp only [MapMaskConfiguration.AsEngine, MaskingEngineFactory,
        applyBindings_indep c.Entries contexts h]
    | _ => rfl

theorem AsEngine_is_nested_driver_witness :
    (∀ b ∈ (buildConfig [("a", constantMask (Entry.str "M"))]).Entries,
      ∀ o k c1 c2 s, b.maskCont o k c1 s = b.maskCont o k c2 s) ∧
    (buildConfig [("a", constantMask (Entry.str "M"))]).AsEngine
        (Entry.dict [("a", Entry.str "x")]) [] () =
      MaskingEngineFactory (buildConfig [("a", constantMask (Entry.str "M"))]) true
        (Entry.dict [("a", Entry.str "x")]) [] () ∧
    MaskingEngineFactory (buildConfig [("a", constantMask (Entry.str "M"))]) true
        (Entry.dict [("a", Entry.str "x")]) [] () =
      some ((Entry.dict [("a", Entry.str "M")], none), ()) := by
  have hc : (buildConfig [("a", constantMask (Entry.str "M"))]).config =
      [⟨ContextWrapper.MaskContext ⟨constantMask (Entry.str "M")⟩, "a"⟩] := by
    rw [buildConfig_cons_plain "a" _ _ (by decide), buildConfig_nil]
  have h : ∀ b ∈ (buildConfig [("a", constantMask (Entry.str "M"))]).Entries,
      ∀ o k c1 c2 s, b.maskCont o k c1 s = b.maskCont o k c2 s := by
    intro b hb o k c1 c2 s
    simp only [MapMaskConfiguration.Entries, hc, List.mem_singleton] at hb
    subst hb
    exact maskContext_indep (constantMask (Entry.str "M")) (fun _ _ _ _ => rfl) o k c1 c2 s
  refine ⟨h, (AsEngine_is_nested_driver _ _ [] ()).2.2 h, ?_⟩
  simp only [MaskingEngineFactory, MapMaskConfiguration.Entries]
  rw [hc]
  rfl

/-- C6 as stated fails when `d[b]` is a list or nil: with `s` succeeding on `d[b]` with result
`"M"`, a list under `a.b` becomes the list of the elements' results, not `"M"`, and a nil under
`a.b` is dropped from the output. -/
theorem dotted_path_isolation_counterexample :
    (constantMask (Entry.str "M") (Entry.list [Entry.str "x", Entry.str "y"])
        [[("a", Entry.dict [("b", Entry.list [Entry.str "x", Entry.str "y"]),
          ("c", Entry.str "y")])]] () = some ((Entry.str "M", none), ()) ∧
      MaskingEngineFactory (NewMaskConfiguration.WithEntry "a.b" (constantMask (Entry.str "M")))
        true (Entry.dict [("a", Entry.dict [("b", Entry.list [Entry.str "x", Entry.str "y"]),
          ("c", Entry.str "y")])]) [] () =
        some ((Entry.dict [("a", Entry.dict [("b", Entry.list [Entry.str "M", Entry.str "M"]),
          ("c", Entry.str "y")])], none), ()) ∧
      Entry.list [Entry.str "M", Entry.str "M"] ≠ Entry.str "M") ∧
    (constantMask (Entry.str "M") Entry.nil
        [[("a", Entry.dict [("b", Entry.nil), ("c", Entry.str "y")])]] () =
        some ((Entry.str "M", none), ()) ∧
      MaskingEngineFactory (NewMaskConfiguration.WithEntry "a.b" (constantMask (Entry.str "M")))
        true (Entry.dict [("a", Entry.dict [("b", Entry.nil), ("c", Entry.str "y")])]) [] () =
        some ((Entry.dict [("a", Entry.dict [("c", Entry.str "y")])], none), ()) ∧
      lookup [("c", Entry.str "y")] "b" = none) := by
  have hcfg : (NewMaskConfiguration.WithEntry "a.b" (constantMask (Entry.str "M"))).config =
      [⟨ContextWrapper.MaskContext ⟨MaskingEngineFactory
        ⟨[⟨ContextWrapper.MaskContext ⟨constantMask (Entry.str "M")⟩, "b"⟩]⟩ false⟩, "a"⟩] := by
    have := buildConfig_cons_dotted "a.b" "a" "b" (constantMask (Entry.str "M")) []
      (by decide) (by decide)
    rw [buildConfig_nil] at this
    exact this
  refine ⟨⟨rfl, ?_, by simp⟩, ⟨rfl, ?_, rfl⟩⟩
  · simp only [MaskingEngineFactory, MapMaskConfiguration.Entries]
    rw [hcfg]
    rfl
  · simp only [MaskingEngineFactory, MapMaskConfiguration.Entries]
    rw [hcfg]
    rfl

/-- C6, amended (dotted-path isolation): for the configuration holding the single entry
WithEntry("a.b", s) and a record `r` whose field `a` is a record `d` holding under `b` a value
that is neither nil nor a list, if `s` succeeds on `d[b]` with result `v` then the driver returns
no failure and `r` with `a.b` set to `v`: the other fields of `d` and of `r` are unchanged. -/
theorem dotted_path_isolation {σ : Type} (a b : String) (s : MaskEngine σ) (root : Bool)
    (r d : Dictionary) (contexts : List Dictionary) (st st' : σ) (v0 v : Entry)
    (ha : '.' ∉ a.data) (hb : '.' ∉ b.data) (hr : nodupKeys r)
    (hd : lookup r a = some (Entry.dict d)) (hnd : nodupKeys d) (hv : lookup d b = some v0)
    (hs : v0.isSingle = true)
    (hm : s v0 (if root then [r] else contexts) st = some ((v, none), st')) :
    MaskingEngineFactory (NewMaskConfiguration.WithEntry (a ++ "." ++ b) s) root (Entry.dict r)
        contexts st =
      some ((Entry.dict (set r a (Entry.dict (set d b v))), none), st') := by
  have hcfg : (NewMaskConfiguration.WithEntry (a ++ "." ++ b) s).config =
      [⟨ContextWrapper.MaskContext
        ⟨MaskingEngineFactory ⟨[⟨ContextWrapper.MaskContext ⟨s⟩, b⟩]⟩ false⟩, a⟩] := by
    have := buildConfig_cons_dotted (a ++ "." ++ b) a b s [] (SplitN_dotted a b ha)
      (SplitN_plain b hb)
    rw [buildConfig_nil] at this
    exact this
  simp only [MaskingEngineFactory, MapMaskConfiguration.Entries]
  rw [hcfg, copyDictionary_eq r hr]
  cases root with
  | true =>
    simp only [applyBindings, if_true]
    rw [dotted_call s r a b [r] st d v0 hr hd hnd hv hs]
    simp only [if_true] at hm
    rw [hm]
  | false =>
    simp only [applyBindings, Bool.false_eq_true, if_false]
    rw [dotted_call s r a b contexts st d v0 hr hd hnd hv hs]
    simp only [Bool.false_eq_true, if_false] at hm
    rw [hm]

theorem dotted_path_isolation_witness :
    '.' ∉ "a".data ∧ '.' ∉ "b".data ∧ "a" ++ "." ++ "b" = "a.b" ∧
    nodupKeys [("a", Entry.dict [("b", Entry.str "x"), ("c", Entry.str "y")])] ∧
    lookup [("a", Entry.dict [("b", Entry.str "x"), ("c", Entry.str "y")])] "a" =
      some (Entry.dict [("b", Entry.str "x"), ("c", Entry.str "y")]) ∧
    nodupKeys [("b", Entry.str "x"), ("c", Entry.str "y")] ∧
    lookup [("b", Entry.str "x"), ("c", Entry.str "y")] "b" = some (Entry.str "x") ∧
    (Entry.str "x").isSingle = true ∧
    constantMask (Entry.str "M") (Entry.str "x")
      (if true = true then [[("a", Entry.dict [("b", Entry.str "x"), ("c", Entry.str "y")])]]
        else []) () = some ((Entry.str "M", none), ()) ∧
    MaskingEngineFactory (NewMaskConfiguration.WithEntry ("a" ++ "." ++ "b")
        (constantMask (Entry.str "M"))) true
        (Entry.dict [("a", Entry.dict [("b", Entry.str "x"), ("c", Entry.str "y")])]) [] () =
      some ((Entry.dict (set [("a", Entry.dict [("b", Entry.str "x"), ("c", Entry.str "y")])] "a"
        (Entry.dict (set [("b", Entry.str "x"), ("c", Entry.str "y")] "b" (Entry.str "M")))),
        none), ()) ∧
    set [("a", Entry.dict [("b", Entry.str "x"), ("c", Entry.str "y")])] "a"
        (Entry.dict (set [("b", Entry.str "x"), ("c", Entry.str "y")] "b" (Entry.str "M"))) =
      [("a", Entry.dict [("b", Entry.str "M"), ("c", Entry.str "y")])] := by
  have ha : '.' ∉ "a".data := by decide
  have hb : '.' ∉ "b".data := by decide
  have hr : nodupKeys [("a", Entry.dict [("b", Entry.str "x"), ("c", Entry.str "y")])] := by
    simp [nodupKeys, keys]
  have hnd : nodupKeys [("b", Entry.str "x"), ("c", Entry.str "y")] := by
    simp [nodupKeys, keys]
  exact ⟨ha, hb, by decide, hr, rfl, hnd, rfl, rfl, rfl,
    dotted_path_isolation "a" "b" (constantMask (Entry.str "M")) true _ _ [] () () _ _ ha hb hr
      rfl hnd rfl rfl rfl, rfl⟩

/-- C8 (field-copy correctness): for every field name `f`, input value `e` and non-empty
context list `ctx`, the field-copy strategy returns `ctx[0][f]` with no failure, whatever `e` and
the rest of `ctx` are. -/
theorem field_copy_correct {σ : Type} (f : String) (e : Entry) (ctx : List Dictionary) (st : σ)
    (h : ctx ≠ []) :
    replacement.MaskEngine.Mask (replacement.NewMask f) e ctx st =
      some ((get (ctx.head h) f, none), st) := by
  cases ctx with
  | nil => exact absurd rfl h
  | cons c0 rest => rfl

theorem field_copy_correct_witness :
    [[("a", Entry.str "x")], ([] : Dictionary)] ≠ [] ∧
    replacement.MaskEngine.Mask (replacement.NewMask "a") (Entry.str "y")
        [[("a", Entry.str "x")], []] () =
      some ((get ([[("a", Entry.str "x")], ([] : Dictionary)].head (by simp)) "a", none), ()) ∧
    get ([[("a", Entry.str "x")], ([] : Dictionary)].head (by simp)) "a" = Entry.str "x" :=
  ⟨by simp, field_copy_correct "a" (Entry.str "y") [[("a", Entry.str "x")], []] () (by simp), rfl⟩

/-- C9 fails on the code: called with no context at all, the field-copy strategy aborts on
`context[0]` instead of returning a failure or the absent value (it does return the absent
value, with no failure, when `context[0]` lacks the field); the abort is reached through
`AsEngine`, which passes no context. -/
theorem field_copy_without_context_aborts {σ : Type} (f : String) (e : Entry) (st : σ) :
    replacement.MaskEngine.Mask (replacement.NewMask f) e [] st = none ∧
      (∀ (c0 : Dictionary) (rest : List Dictionary), lookup c0 f = none →
        replacement.MaskEngine.Mask (replacement.NewMask f) e (c0 :: rest) st =
          some ((Entry.nil, none), st)) ∧
      (NewMaskConfiguration.WithEntry "b"
          (replacement.MaskEngine.Mask (replacement.NewMask "a"))).AsEngine
        (Entry.dict [("a", Entry.str "x"), ("b", Entry.str "y")]) [] () = none := by
  refine ⟨rfl, ?_, ?_⟩
  · intro c0 rest h
    simp [replacement.MaskEngine.Mask, replacement.NewMask, get, h]
  · have hc : (NewMaskConfiguration.WithEntry "b" (replacement.MaskEngine.Mask
        (replacement.NewMask "a") : MaskEngine Unit)).config =
        [⟨ContextWrapper.MaskContext ⟨replacement.MaskEngine.Mask (replacement.NewMask "a")⟩,
          "b"⟩] := by
      have := buildConfig_cons_plain "b" (replacement.MaskEngine.Mask
        (replacement.NewMask "a") : MaskEngine Unit) [] (by decide)
      rw [buildConfig_nil] at this
      exact this
    simp only [MapMaskConfiguration.AsEngine, MaskingEngineFactory, MapMaskConfiguration.Entries]
    rw [hc]
    rfl

/-- C10 fails on the code: with a strategy that always returns the text `"M"` bound to `k`
and a record whose field `k` is a list of records, the adapter aborts, in the root and in the
nested driver, at the conversion `e.(Dictionary)` of the masked element. -/
theorem list_of_record_conversion_aborts :
    (∀ (v : Entry) (c : List Dictionary) (st : Unit),
      constantMask (Entry.str "M") v c st = some ((Entry.str "M", none), st)) ∧
      ∀ root : Bool,
        MaskingEngineFactory (NewMaskConfiguration.WithEntry "k" (constantMask (Entry.str "M")))
          root (Entry.dict [("k", Entry.dicts [[("x", Entry.num 1)]])]) [] () = none := by
  have hc : (NewMaskConfiguration.WithEntry "k" (constantMask (Entry.str "M"))).config =
      [⟨ContextWrapper.MaskContext ⟨constantMask (Entry.str "M")⟩, "k"⟩] := by
    have := buildConfig_cons_plain "k" (constantMask (Entry.str "M")) [] (by decide)
    rw [buildConfig_nil] at this
    exact this
  refine ⟨fun _ _ _ => rfl, ?_⟩
  intro root
  simp only [MaskingEngineFactory, MapMaskConfiguration.Entries]
  rw [hc]
  cases root <;> rfl

/-- C11 (empty-rule non-claim): for every rule whose Regex descriptor is empty the regex probe
returns no configuration, claimed = false and no error, and for every rule whose Replacement
descriptor is empty the replacement probe does, whatever the selector, the seed, the supplied
configuration, the generator library and the other descriptor fields are. -/
theorem empty_rule_not_claimed {σ : Type} (NewGenerator : regex.GeneratorFactory σ)
    (conf : Masking) (config : MapMaskConfiguration σ) (seed : Int) :
    (conf.Mask.Regex = "" →
      regex.RegistryMaskToConfiguration NewGenerator conf config seed = (none, false, none)) ∧
    (conf.Mask.Replacement = "" →
      replacement.RegistryMaskToConfiguration conf config seed = (none, false, none)) := by
  have h0 : len "" = 0 := by decide
  constructor
  · intro h
    simp [regex.RegistryMaskToConfiguration, h, h0]
  · intro h
    simp [replacement.RegistryMaskToConfiguration, h, h0]

theorem empty_rule_not_claimed_witness :
    (⟨⟨"name"⟩, { MaskType.zero with Template := "x", Hash := [Entry.str "Marc"] }, "c"⟩ :
      Masking).Mask.Regex = "" ∧
    (⟨⟨"name"⟩, { MaskType.zero with Template := "x", Hash := [Entry.str "Marc"] }, "c"⟩ :
      Masking).Mask.Replacement = "" ∧
    regex.RegistryMaskToConfiguration
      (fun _ _ => ((fun st => ("", st)), some "bad pattern") : regex.GeneratorFactory Unit)
      ⟨⟨"name"⟩, { MaskType.zero with Template := "x", Hash := [Entry.str "Marc"] }, "c"⟩
      (buildConfig [("a", constantMask (Entry.str "M"))]) 42 = (none, false, none) ∧
    replacement.RegistryMaskToConfiguration
      ⟨⟨"name"⟩, { MaskType.zero with Template := "x", Hash := [Entry.str "Marc"] }, "c"⟩
      (buildConfig [("a", constantMask (Entry.str "M"))]) 42 = (none, false, none) :=
  ⟨rfl, rfl,
    (empty_rule_not_claimed _ _ _ 42).1 rfl,
    (empty_rule_not_claimed (fun _ _ => ((fun st => ("", st)), none)) _ _ 42).2 rfl⟩

theorem elementCalls_length {σ : Type} (engine : MaskEngine σ) (contexts : List Dictionary)
    (l : List Entry) :
    ∀ (st st' : σ) (rs : List (Entry × Option Err)),
      elementCalls engine contexts l st = some (rs, st') → rs.length = l.length := by
  induction l with
  | nil =>
    intro st st' rs h
    simp only [elementCalls, Option.some.injEq, Prod.mk.injEq] at h
    rw [← h.1]
    rfl
  | cons x l ih =>
    intro st st' rs h
    simp only [elementCalls] at h
    cases hc : engine x contexts st with
    | none => simp [hc] at h
    | some r =>
      obtain ⟨res, s1⟩ := r
      rw [hc] at h
      cases hr : elementCalls engine contexts l s1 with
      | none => simp [hr] at h
      | some q =>
        obtain ⟨rs', s2⟩ := q
        simp only [hr, Option.some.injEq, Prod.mk.injEq] at h
        rw [← h.1]
        simp [ih s1 s2 rs' hr]

/-- The `[]Entry` loop of the adapter in terms of the calls on the elements. -/
theorem maskEntries_eq {σ : Type} (engine : MaskEngine σ) (contexts : List Dictionary)
    (l : List Entry) :
    ∀ (tab : List Entry) (err : Option Err) (st : σ),
      maskEntries engine contexts l tab err st =
        match elementCalls engine contexts l st with
        | none => none
        | some (rs, st') =>
          some ((tab ++ List.zipWith keepOrReplace l rs,
            (lastFailure (rs.map Prod.snd)).orElse (fun _ => err)), st') := by
  induction l with
  | nil => intro tab err st; simp [maskEntries, elementCalls, lastFailure]
  | cons x l ih =>
    intro tab err st
    simp only [maskEntries, elementCalls]
    cases hc : engine x contexts st with
    | none => rfl
    | some r =>
      obtain ⟨⟨v, e⟩, s1⟩ := r
      cases e with
      | none =>
        simp only [ih]
        cases hr : elementCalls engine contexts l s1 with
        | none => rfl
        | some q =>
          obtain ⟨rs, s2⟩ := q
          simp [keepOrReplace, lastFailure_cons_none]
      | some er =>
        simp only [ih]
        cases hr : elementCalls engine contexts l s1 with
        | none => rfl
        | some q =>
          obtain ⟨rs, s2⟩ := q
          simp only [List.map_cons, lastFailure_cons_some, List.zipWith_cons_cons, keepOrReplace,
            List.append_assoc, List.singleton_append]
          cases lastFailure (List.map Prod.snd rs) <;> rfl

/-- The `[]Dictionary` loop of the adapter in terms of the calls on the elements, when every
successful call returns a record. -/
theorem maskDictionaries_eq {σ : Type} (engine : MaskEngine σ) (contexts : List Dictionary)
    (l : List Dictionary) :
    ∀ (tab : List Dictionary) (err : Option Err) (st st' : σ) (rs : List (Entry × Option Err)),
      elementCalls engine contexts (l.map Entry.dict) st = some (rs, st') →
      (∀ res ∈ rs, res.2 = none → ∃ d, res.1 = Entry.dict d) →
      maskDictionaries engine contexts l tab err st =
        some ((tab ++ List.zipWith keepOrReplaceRecord l rs,
          (lastFailure (rs.map Prod.snd)).orElse (fun _ => err)), st') := by
  induction l with
  | nil =>
    intro tab err st st' rs h _
    simp only [List.map_nil, elementCalls, Option.some.injEq, Prod.mk.injEq] at h
    obtain ⟨rfl, rfl⟩ := h
    simp [maskDictionaries, lastFailure]
  | cons x l ih =>
    intro tab err st st' rs h hd
    simp only [List.map_cons, elementCalls] at h
    simp only [maskDictionaries]
    cases hc : engine (Entry.dict x) contexts st with
    | none => simp [hc] at h
    | some r =>
      obtain ⟨⟨v, e⟩, s1⟩ := r
      rw [hc] at h
      cases hr : elementCalls engine contexts (l.map Entry.dict) s1 with
      | none => simp [hr] at h
      | some q =>
        obtain ⟨rs', s2⟩ := q
        simp only [hr, Option.some.injEq, Prod.mk.injEq] at h
        obtain ⟨rfl, rfl⟩ := h
        have hd' : ∀ res ∈ rs', res.2 = none → ∃ d, res.1 = Entry.dict d :=
          fun res hres => hd res (List.mem_cons_of_mem _ hres)
        cases e with
        | none =>
          obtain ⟨d, hdv⟩ := hd (v, none) (List.mem_cons_self _ _) rfl
          simp only at hdv
          subst hdv
          simp only [ih _ _ _ _ _ hr hd']
          simp [keepOrReplaceRecord, lastFailure_cons_none]
        | some er =>
          simp only [ih _ _ _ _ _ hr hd']
          simp only [List.map_cons, lastFailure_cons_some, List.zipWith_cons_cons,
            keepOrReplaceRecord, List.append_assoc, List.singleton_append]
          cases lastFailure (List.map Prod.snd rs') <;> rfl

/-- C12 (adapter scalar policy): for a record `c` holding under `k` a value `v` that is neither
nil nor a list, the adapter of `s` is one call of `s` on `v` with the contexts `ctx`: when `s`
succeeds with `v'` the result is `c` with `k` set to `v'` and no failure, when `s` fails with
`e` the result is `c` unchanged and the failure `e`; setting `k` keeps the key set and every
other field. -/
theorem adapter_scalar_policy {σ : Type} (s : MaskEngine σ) (c : Dictionary) (k : String)
    (ctx : List Dictionary) (st : σ) (v : Entry) (hn : nodupKeys c) (hv : lookup c k = some v)
    (hs : v.isSingle = true) :
    ContextWrapper.MaskContext ⟨s⟩ c k ctx st =
        (match s v ctx st with
          | none => none
          | some ((_, some e), st') => some ((c, some e), st')
          | some ((v', none), st') => some ((set c k v', none), st')) ∧
      ∀ v' : Entry, lookup (set c k v') k = some v' ∧ keys (set c k v') = keys c ∧
        ∀ k', k' ≠ k → lookup (set c k v') k' = lookup c k' := by
  refine ⟨plain_call s c k ctx st v hn hv hs, ?_⟩
  intro v'
  have hk : k ∈ keys c := by
    by_contra hk
    rw [(lookup_eq_none_iff c k).2 hk] at hv
    simp at hv
  refine ⟨by rw [lookup_set]; simp, keys_set_of_mem c k v' hk, ?_⟩
  intro k' hk'
  rw [lookup_set]; simp [hk']

theorem adapter_scalar_policy_witness :
    nodupKeys [("a", Entry.str "x"), ("b", Entry.str "y")] ∧
    lookup [("a", Entry.str "x"), ("b", Entry.str "y")] "a" = some (Entry.str "x") ∧
    (Entry.str "x").isSingle = true ∧
    ContextWrapper.MaskContext ⟨failingMask "boom"⟩ [("a", Entry.str "x"), ("b", Entry.str "y")]
      "a" [] () = some (([("a", Entry.str "x"), ("b", Entry.str "y")], some "boom"), ()) ∧
    ContextWrapper.MaskContext ⟨constantMask (Entry.str "M")⟩
      [("a", Entry.str "x"), ("b", Entry.str "y")] "a" [] () =
      some (([("a", Entry.str "M"), ("b", Entry.str "y")], none), ()) := by
  have hn : nodupKeys [("a", Entry.str "x"), ("b", Entry.str "y")] := by simp [nodupKeys, keys]
  refine ⟨hn, rfl, rfl, ?_, ?_⟩
  · rw [(adapter_scalar_policy (failingMask "boom") _ "a" [] () (Entry.str "x") hn rfl rfl).1]
    rfl
  · rw [(adapter_scalar_policy (constantMask (Entry.str "M")) _ "a" [] () (Entry.str "x") hn rfl
      rfl).1]
    rfl

/-- The adapter on a field holding a `[]Entry`. -/
theorem list_call {σ : Type} (s : MaskEngine σ) (c : Dictionary) (k : String)
    (ctx : List Dictionary) (st : σ) (l : List Entry) (hn : nodupKeys c)
    (hv : lookup c k = some (Entry.list l)) :
    ContextWrapper.MaskContext ⟨s⟩ c k ctx st =
      match elementCalls s ctx l st with
      | none => none
      | some (rs, st') =>
        some ((set c k (Entry.list (List.zipWith keepOrReplace l rs)),
          lastFailure (rs.map Prod.snd)), st') := by
  rw [maskContext_eq_maskField _ _ _ _ _ hn]
  simp only [maskField, hv, maskEntries_eq]
  cases elementCalls s ctx l st with
  | none => rfl
  | some q =>
    obtain ⟨rs, s2⟩ := q
    simp only [List.nil_append]
    cases lastFailure (List.map Prod.snd rs) <;> rfl

/-- The adapter on a field holding a `[]Dictionary`, when every successful call returns a
record. -/
theorem records_call {σ : Type} (s : MaskEngine σ) (c : Dictionary) (k : String)
    (ctx : List Dictionary) (st st' : σ) (l : List Dictionary) (rs : List (Entry × Option Err))
    (hn : nodupKeys c) (hv : lookup c k = some (Entry.dicts l))
    (hc : elementCalls s ctx (l.map Entry.dict) st = some (rs, st'))
    (hd : ∀ res ∈ rs, res.2 = none → ∃ d, res.1 = Entry.dict d) :
    ContextWrapper.MaskContext ⟨s⟩ c k ctx st =
      some ((set c k (Entry.dicts (List.zipWith keepOrReplaceRecord l rs)),
        lastFailure (rs.map Prod.snd)), st') := by
  rw [maskContext_eq_maskField _ _ _ _ _ hn]
  simp only [maskField, hv, maskDictionaries_eq s ctx l [] none st st' rs hc hd]
  simp only [List.nil_append]
  cases lastFailure (List.map Prod.snd rs) <;> rfl

/-- C13 (adapter list policy) holds for a `[]Entry`, and for a `[]Dictionary` when every
successful call returns a record: the adapter calls `s` on each element in list order, going on
past failures, and returns under `k` a list of the same length holding the result of each call
that succeeded and the original element of each call that failed, with the last failure of the
calls as outcome.  It fails on the code for a `[]Dictionary` when `s` returns something else
than a record: with a strategy that returns the text `"M"`, the adapter aborts at the
conversion `e.(Dictionary)` instead of returning a list. -/
theorem adapter_list_policy :
    (∀ (σ : Type) (s : MaskEngine σ) (c : Dictionary) (k : String) (ctx : List Dictionary)
      (st : σ) (l : List Entry), nodupKeys c → lookup c k = some (Entry.list l) →
      ContextWrapper.MaskContext ⟨s⟩ c k ctx st =
        (match elementCalls s ctx l st with
          | none => none
          | some (rs, st') =>
            some ((set c k (Entry.list (List.zipWith keepOrReplace l rs)),
              lastFailure (rs.map Prod.snd)), st')) ∧
        ∀ rs st', elementCalls s ctx l st = some (rs, st') →
          rs.length = l.length ∧ (List.zipWith keepOrReplace l rs).length = l.length) ∧
    (∀ (σ : Type) (s : MaskEngine σ) (c : Dictionary) (k : String) (ctx : List Dictionary)
      (st st' : σ) (l : List Dictionary) (rs : List (Entry × Option Err)), nodupKeys c →
      lookup c k = some (Entry.dicts l) →
      elementCalls s ctx (l.map Entry.dict) st = some (rs, st') →
      (∀ res ∈ rs, res.2 = none → ∃ d, res.1 = Entry.dict d) →
      ContextWrapper.MaskContext ⟨s⟩ c k ctx st =
        some ((set c k (Entry.dicts (List.zipWith keepOrReplaceRecord l rs)),
          lastFailure (rs.map Prod.snd)), st') ∧
        (List.zipWith keepOrReplaceRecord l rs).length = l.length) ∧
    (elementCalls (constantMask (Entry.str "M")) [] [Entry.dict [("x", Entry.num 1)]] () =
        some ([(Entry.str "M", none)], ()) ∧
      ContextWrapper.MaskContext ⟨constantMask (Entry.str "M")⟩
        [("k", Entry.dicts [[("x", Entry.num 1)]])] "k" [] () = none) := by
  refine ⟨?_, ?_, rfl, rfl⟩
  · intro σ s c k ctx st l hn hv
    refine ⟨list_call s c k ctx st l hn hv, ?_⟩
    intro rs st' h
    have := elementCalls_length s ctx l st st' rs h
    exact ⟨this, by simp [this]⟩
  · intro σ s c k ctx st st' l rs hn hv hc hd
    refine ⟨records_call s c k ctx st st' l rs hn hv hc hd, ?_⟩
    have := elementCalls_length s ctx _ st st' rs hc
    simp at this
    simp [this]

/-- C18 (key set of the adapter's result): on a record `c`, when `k` is missing the adapter
returns `c` unchanged with no failure and without calling `s`; when `c` holds nil under `k` it
returns `c` without `k`, with no failure and without calling `s`; in every other case a returned
record has exactly the keys of `c`. -/
theorem adapter_key_set {σ : Type} (s : MaskEngine σ) (c : Dictionary) (k : String)
    (ctx : List Dictionary) (st : σ) (hn : nodupKeys c) :
    (lookup c k = none → ContextWrapper.MaskContext ⟨s⟩ c k ctx st = some ((c, none), st)) ∧
    (lookup c k = some Entry.nil →
      ContextWrapper.MaskContext ⟨s⟩ c k ctx st = some ((delete c k, none), st) ∧
        ∀ k', k' ∈ keys (delete c k) ↔ k' ∈ keys c ∧ k' ≠ k) ∧
    (lookup c k ≠ some Entry.nil → ∀ res e st',
      ContextWrapper.MaskContext ⟨s⟩ c k ctx st = some ((res, e), st') → keys res = keys c) := by
  have hmem : ∀ (d : Dictionary) (x : String), x ∈ keys d ↔ lookup d x ≠ none := by
    intro d x
    rw [Ne, lookup_eq_none_iff]; simp
  refine ⟨?_, ?_, ?_⟩
  · intro h
    rw [maskContext_eq_maskField _ _ _ _ _ hn]
    simp only [maskField, h]
  · intro h
    refine ⟨?_, ?_⟩
    · rw [maskContext_eq_maskField _ _ _ _ _ hn]
      simp only [maskField, h]
    · intro k'
      rw [hmem, hmem, lookup_delete]
      by_cases hk : k' = k
      · simp [hk]
      · simp [hk]
  · intro h res e st' hr
    rw [maskContext_eq_maskField _ _ _ _ _ hn] at hr
    have hset : ∀ x, lookup c k ≠ none → keys (set c k x) = keys c := by
      intro x hx
      exact keys_set_of_mem c k x ((hmem c k).2 hx)
    unfold maskField at hr
    cases hl : lookup c k with
    | none =>
      simp only [hl, Option.some.injEq, Prod.mk.injEq] at hr
      rw [← hr.1.1]
    | some v =>
      have hne : lookup c k ≠ none := by simp [hl]
      rw [hl] at hr h
      cases v with
      | nil => exact absurd rfl h
      | dicts j =>
        simp only at hr
        cases hm : maskDictionaries s ctx j [] none st with
        | none => simp [hm] at hr
        | some r =>
          obtain ⟨⟨tab, e1⟩, s1⟩ := r
          simp only [hm, Option.some.injEq, Prod.mk.injEq] at hr
          rw [← hr.1.1]; exact hset _ hne
      | list j =>
        simp only at hr
        cases hm : maskEntries s ctx j [] none st with
        | none => simp [hm] at hr
        | some r =>
          obtain ⟨⟨tab, e1⟩, s1⟩ := r
          simp only [hm, Option.some.injEq, Prod.mk.injEq] at hr
          rw [← hr.1.1]; exact hset _ hne
      | str s0 =>
        simp only at hr
        cases hm : s (Entry.str s0) ctx st with
        | none => simp [hm] at hr
        | some r =>
          obtain ⟨⟨x, e1⟩, s1⟩ := r
          cases e1 with
          | none =>
            simp only [hm, Option.some.injEq, Prod.mk.injEq] at hr
            rw [← hr.1.1]; exact hset _ hne
          | some er =>
            simp only [hm, Option.some.injEq, Prod.mk.injEq] at hr
            rw [← hr.1.1]
      | num s0 =>
        simp only at hr
        cases hm : s (Entry.num s0) ctx st with
        | none => simp [hm] at hr
        | some r =>
          obtain ⟨⟨x, e1⟩, s1⟩ := r
          cases e1 with
          | none =>
            simp only [hm, Option.some.injEq, Prod.mk.injEq] at hr
            rw [← hr.1.1]; exact hset _ hne
          | some er =>
            simp only [hm, Option.some.injEq, Prod.mk.injEq] at hr
            rw [← hr.1.1]
      | bool s0 =>
        simp only at hr
        cases hm : s (Entry.bool s0) ctx st with
        | none => simp [hm] at hr
        | some r =>
          obtain ⟨⟨x, e1⟩, s1⟩ := r
          cases e1 with
          | none =>
            simp only [hm, Option.some.injEq, Prod.mk.injEq] at hr
            rw [← hr.1.1]; exact hset _ hne
          | some er =>
            simp only [hm, Option.some.injEq, Prod.mk.injEq] at hr
            rw [← hr.1.1]
      | dict s0 =>
        simp only at hr
        cases hm : s (Entry.dict s0) ctx st with
        | none => simp [hm] at hr
        | some r =>
          obtain ⟨⟨x, e1⟩, s1⟩ := r
          cases e1 with
          | none =>
            simp only [hm, Option.some.injEq, Prod.mk.injEq] at hr
            rw [← hr.1.1]; exact hset _ hne
          | some er =>
            simp only [hm, Option.some.injEq, Prod.mk.injEq] at hr
            rw [← hr.1.1]

theorem adapter_key_set_witness :
    nodupKeys [("a", Entry.nil), ("b", Entry.str "y")] ∧
    ContextWrapper.MaskContext ⟨constantMask (Entry.str "M")⟩
      [("a", Entry.nil), ("b", Entry.str "y")] "z" [] () =
      some (([("a", Entry.nil), ("b", Entry.str "y")], none), ()) ∧
    ContextWrapper.MaskContext ⟨constantMask (Entry.str "M")⟩
      [("a", Entry.nil), ("b", Entry.str "y")] "a" [] () =
      some (([("b", Entry.str "y")], none), ()) ∧
    keys [("a", Entry.nil), ("b", Entry.str "M")] = keys [("a", Entry.nil), ("b", Entry.str "y")] := by
  have hn : nodupKeys [("a", Entry.nil), ("b", Entry.str "y")] := by simp [nodupKeys, keys]
  have h := adapter_key_set (constantMask (Entry.str "M")) [("a", Entry.nil), ("b", Entry.str "y")]
  refine ⟨hn, (h "z" [] () hn).1 rfl, ((h "a" [] () hn).2.1 rfl).1,
    (h "b" [] () hn).2.2 (by simp [lookup]) _ none () rfl⟩

theorem breakDot_some (cs a b : List Char) (h : breakDot cs = some (a, b)) :
    cs = a ++ '.' :: b ∧ '.' ∉ a := by
  induction cs generalizing a with
  | nil => simp [breakDot] at h
  | cons c cs ih =>
    unfold breakDot at h
    split at h
    · rename_i hc
      simp only [Option.some.injEq, Prod.mk.injEq] at h
      obtain ⟨rfl, rfl⟩ := h
      simp [hc]
    · rename_i hc
      split at h
      · simp at h
      · rename_i a' b' hb
        simp only [Option.some.injEq, Prod.mk.injEq] at h
        obtain ⟨rfl, rfl⟩ := h
        obtain ⟨h1, h2⟩ := ih a' hb
        refine ⟨by rw [h1]; simp, ?_⟩
        simp only [List.mem_cons, not_or]
        exact ⟨fun e => hc e.symm, h2⟩

theorem breakDot_eq_none (cs : List Char) (h : breakDot cs = none) : '.' ∉ cs := by
  induction cs with
  | nil => simp
  | cons c cs ih =>
    unfold breakDot at h
    split at h
    · simp at h
    · rename_i hc
      split at h
      · rename_i hb
        simp only [List.mem_cons, not_or]
        exact ⟨fun e => hc e.symm, ih hb⟩
      · simp at h

/-- The first segment holds no `.`, and the path is it, or it followed by `.` and a rest. -/
theorem firstSegment_spec (p : String) :
    '.' ∉ (firstSegment p).data ∧
      (p = firstSegment p ∨ ∃ rest : String, p = firstSegment p ++ "." ++ rest) := by
  unfold firstSegment
  cases h : breakDot p.data with
  | none => exact ⟨breakDot_eq_none _ h, Or.inl rfl⟩
  | some q =>
    obtain ⟨a, b⟩ := q
    obtain ⟨h1, h2⟩ := breakDot_some _ _ _ h
    refine ⟨h2, Or.inr ⟨String.mk b, ?_⟩⟩
    apply String.ext
    simp [String.data_append, h1]

theorem WithContextEntry_config {σ : Type} (key : String) (engine : MaskContextEngine σ) :
    ∃ b : MaskKey σ, b.Key = firstSegment key ∧
      ∀ m : MapMaskConfiguration σ, (m.WithContextEntry key engine).config = m.config ++ [b] := by
  rcases SplitN_cases key with ⟨h, hf⟩ | ⟨rest, h⟩
  · refine ⟨⟨engine, key⟩, hf.symm, ?_⟩
    intro m
    rw [WithContextEntry_plain m key _ h]
  · refine ⟨⟨(MapMaskConfiguration.WithContextEntry NewMaskConfiguration rest
        engine).AsContextEngine, firstSegment key⟩, rfl, ?_⟩
    intro m
    rw [WithContextEntry_dotted m key _ rest _ h]

/-- In the list model of a configuration, the entries of `c.WithContextEntry p e` and of
`c.WithEntry p s` are the entries of `c` followed by exactly one new binding, whose Key is the
first segment of `p`; registering the same path twice yields two bindings, in registration
order. -/
theorem list_model_append_only {σ : Type} (c : MapMaskConfiguration σ) (p : String) :
    (∀ engine : MaskContextEngine σ, ∃ b : MaskKey σ, b.Key = firstSegment p ∧
      (c.WithContextEntry p engine).Entries = c.Entries ++ [b]) ∧
    (∀ s : MaskEngine σ, ∃ b : MaskKey σ, b.Key = firstSegment p ∧
      (c.WithEntry p s).Entries = c.Entries ++ [b]) ∧
    (∀ s s' : MaskEngine σ, ∃ b b' : MaskKey σ, b.Key = firstSegment p ∧
      b'.Key = firstSegment p ∧
      ((c.WithEntry p s).WithEntry p s').Entries = c.Entries ++ [b, b']) ∧
    ('.' ∉ (firstSegment p).data ∧
      (p = firstSegment p ∨ ∃ rest : String, p = firstSegment p ++ "." ++ rest)) := by
  refine ⟨?_, ?_, ?_, firstSegment_spec p⟩
  · intro engine
    obtain ⟨b, hk, hb⟩ := WithContextEntry_config p engine
    exact ⟨b, hk, hb c⟩
  · intro s
    obtain ⟨b, hk, hb⟩ := WithContextEntry_config p (ContextWrapper.MaskContext ⟨s⟩)
    exact ⟨b, hk, hb c⟩
  · intro s s'
    obtain ⟨b, hk, hb⟩ := WithContextEntry_config p (ContextWrapper.MaskContext ⟨s⟩)
    obtain ⟨b', hk', hb'⟩ := WithContextEntry_config p (ContextWrapper.MaskContext ⟨s'⟩)
    refine ⟨b, b', hk, hk', ?_⟩
    show ((c.WithContextEntry p _).WithContextEntry p _).config = _
    rw [hb', hb]
    simp [MapMaskConfiguration.Entries]

theorem GetMaskingEngine_go_none {σ : Type} (key : String) (l : List (MaskKey σ)) :
    MapMaskConfiguration.GetMaskingEngine.go key l = none ↔ ∀ b ∈ l, b.Key ≠ key := by
  induction l with
  | nil => simp [MapMaskConfiguration.GetMaskingEngine.go]
  | cons b l ih =>
    by_cases h : b.Key = key
    · simp [MapMaskConfiguration.GetMaskingEngine.go, h]
    · simp [MapMaskConfiguration.GetMaskingEngine.go, h, ih]

theorem GetMaskingEngine_go_some {σ : Type} (key : String) (l : List (MaskKey σ))
    (engine : MaskContextEngine σ)
    (h : MapMaskConfiguration.GetMaskingEngine.go key l = some engine) :
    ∃ pre b post, l = pre ++ b :: post ∧ b.Key = key ∧ (∀ x ∈ pre, x.Key ≠ key) ∧
      engine = b.maskCont := by
  induction l with
  | nil => simp [MapMaskConfiguration.GetMaskingEngine.go] at h
  | cons b l ih =>
    by_cases hb : b.Key = key
    · simp only [MapMaskConfiguration.GetMaskingEngine.go, hb, if_true, Option.some.injEq] at h
      exact ⟨[], b, l, rfl, hb, by simp, h.symm⟩
    · simp only [MapMaskConfiguration.GetMaskingEngine.go, hb, if_false] at h
      obtain ⟨pre, b', post, h1, h2, h3, h4⟩ := ih h
      refine ⟨b :: pre, b', post, by simp [h1], h2, ?_, h4⟩
      intro x hx
      rcases List.mem_cons.1 hx with rfl | hx
      · exact hb
      · exact h3 x hx

/-- C16 (lookup is an exact first-segment match): GetMaskingEngine finds `k` iff some binding
of `c` has Key exactly `k`, and then returns the strategy of the earliest such binding; after
registering only the dotted path `a.b` on an empty configuration, `a` is found while `a.b` and
`b` are not. -/
theorem lookup_is_exact_first_segment_match {σ : Type} (c : MapMaskConfiguration σ)
    (k : String) :
    ((c.GetMaskingEngine k).isSome = true ↔ ∃ b ∈ c.Entries, b.Key = k) ∧
    (∀ engine, c.GetMaskingEngine k = some engine →
      ∃ pre b post, c.Entries = pre ++ b :: post ∧ b.Key = k ∧ (∀ x ∈ pre, x.Key ≠ k) ∧
        engine = b.maskCont) ∧
    (∀ s : MaskEngine σ,
      ((NewMaskConfiguration.WithEntry "a.b" s).GetMaskingEngine "a").isSome = true ∧
      (NewMaskConfiguration.WithEntry "a.b" s).GetMaskingEngine "a.b" = none ∧
      (NewMaskConfiguration.WithEntry "a.b" s).GetMaskingEngine "b" = none) := by
  refine ⟨?_, ?_, ?_⟩
  · unfold MapMaskConfiguration.GetMaskingEngine MapMaskConfiguration.Entries
    cases h : MapMaskConfiguration.GetMaskingEngine.go k c.config with
    | none =>
      have := (GetMaskingEngine_go_none k c.config).1 h
      simp only [Option.isSome_none, Bool.false_eq_true, false_iff, not_exists, not_and]
      exact this
    | some engine =>
      obtain ⟨pre, b, post, h1, h2, -, -⟩ := GetMaskingEngine_go_some k c.config engine h
      simp only [Option.isSome_some, true_iff]
      exact ⟨b, by rw [h1]; simp, h2⟩
  · intro engine h
    exact GetMaskingEngine_go_some k c.config engine h
  · intro s
    have hcfg : (NewMaskConfiguration.WithEntry "a.b" s).config =
        [⟨ContextWrapper.MaskContext
          ⟨MaskingEngineFactory ⟨[⟨ContextWrapper.MaskContext ⟨s⟩, "b"⟩]⟩ false⟩, "a"⟩] := by
      have := buildConfig_cons_dotted "a.b" "a" "b" s [] (by decide) (by decide)
      rw [buildConfig_nil] at this
      exact this
    unfold MapMaskConfiguration.GetMaskingEngine
    rw [hcfg]
    refine ⟨rfl, ?_, ?_⟩
    · rw [GetMaskingEngine_go_none]
      intro b hb
      simp only [List.mem_singleton] at hb
      subst hb
      show "a" ≠ _
      decide
    · rw [GetMaskingEngine_go_none]
      intro b hb
      simp only [List.mem_singleton] at hb
      subst hb
      show "a" ≠ _
      decide

/-- C20 (non-record input is passed through): for every configuration, the driver returns an
input that is not a record as it is, with no failure and with the strategies' state untouched;
hence the dotted path `a.b` on a record whose field `a` holds a scalar returns the record
unchanged, with no failure and without calling the strategy. -/
theorem non_record_input_passes_through {σ : Type} (config : MapMaskConfiguration σ)
    (root : Bool) (contexts : List Dictionary) (st : σ) :
    (∀ input : Entry, (∀ d, input ≠ Entry.dict d) →
      MaskingEngineFactory config root input contexts st = some ((input, none), st)) ∧
    (∀ (a b : String) (s : MaskEngine σ) (r : Dictionary) (v : Entry), '.' ∉ a.data →
      '.' ∉ b.data → nodupKeys r → lookup r a = some v → v.isScalar = true →
      MaskingEngineFactory (NewMaskConfiguration.WithEntry (a ++ "." ++ b) s) root
        (Entry.dict r) contexts st = some ((Entry.dict r, none), st)) := by
  constructor
  · intro input h
    cases input with
    | dict d => exact absurd rfl (h d)
    | _ => rfl
  · intro a b s r v ha hb hr hv hs
    have hcfg : (NewMaskConfiguration.WithEntry (a ++ "." ++ b) s).config =
        [⟨ContextWrapper.MaskContext
          ⟨MaskingEngineFactory ⟨[⟨ContextWrapper.MaskContext ⟨s⟩, b⟩]⟩ false⟩, a⟩] := by
      have := buildConfig_cons_dotted (a ++ "." ++ b) a b s [] (SplitN_dotted a b ha)
        (SplitN_plain b hb)
      rw [buildConfig_nil] at this
      exact this
    have hsingle : v.isSingle = true := by cases v <;> simp_all [Entry.isScalar, Entry.isSingle]
    have hkeep : set r a v = r := by
      obtain ⟨pre, post, hc, h1, -⟩ := lookup_split r a v hv hr
      rw [hc, set_split pre post a v v h1]
    have hnested : ∀ ctx : List Dictionary,
        MaskingEngineFactory ⟨[⟨ContextWrapper.MaskContext ⟨s⟩, b⟩]⟩ false v ctx st =
          some ((v, none), st) := by
      intro ctx
      cases v <;> first | rfl | simp [Entry.isScalar] at hs
    simp only [MaskingEngineFactory, MapMaskConfiguration.Entries]
    rw [hcfg, copyDictionary_eq r hr]
    cases root with
    | true =>
      simp only [applyBindings, if_true]
      rw [plain_call _ r a [r] st v hr hv hsingle, hnested [r]]
      simp only [hkeep]
    | false =>
      simp only [applyBindings, Bool.false_eq_true, if_false]
      rw [plain_call _ r a contexts st v hr hv hsingle, hnested contexts]
      simp only [hkeep]

theorem non_record_input_passes_through_witness :
    (∀ d, Entry.list [Entry.str "x"] ≠ Entry.dict d) ∧
    MaskingEngineFactory (buildConfig [("a", failingMask "boom")]) true
      (Entry.list [Entry.str "x"]) [] () = some ((Entry.list [Entry.str "x"], none), ()) ∧
    '.' ∉ "a".data ∧ '.' ∉ "b".data ∧ "a" ++ "." ++ "b" = "a.b" ∧
    nodupKeys [("a", Entry.str "x"), ("c", Entry.num 2)] ∧
    lookup [("a", Entry.str "x"), ("c", Entry.num 2)] "a" = some (Entry.str "x") ∧
    (Entry.str "x").isScalar = true ∧
    MaskingEngineFactory (NewMaskConfiguration.WithEntry ("a" ++ "." ++ "b") (failingMask "boom"))
      true (Entry.dict [("a", Entry.str "x"), ("c", Entry.num 2)]) [] () =
      some ((Entry.dict [("a", Entry.str "x"), ("c", Entry.num 2)], none), ()) := by
  have h1 : ∀ d, Entry.list [Entry.str "x"] ≠ Entry.dict d := by intro d; simp
  have ha : '.' ∉ "a".data := by decide
  have hb : '.' ∉ "b".data := by decide
  have hr : nodupKeys [("a", Entry.str "x"), ("c", Entry.num 2)] := by simp [nodupKeys, keys]
  exact ⟨h1, (non_record_input_passes_through _ true [] ()).1 _ h1, ha, hb, by decide, hr, rfl,
    rfl, (non_record_input_passes_through (buildConfig []) true [] ()).2 "a" "b"
      (failingMask "boom") _ (Entry.str "x") ha hb hr rfl rfl⟩

/-- C17 as stated fails: with a failing binding for `k1` and, for `k2`, a strategy that
succeeds with `"M"` on every input and context, the output does not hold `"M"` under `k2` when
`r[k2]` is nil (the key is dropped), when `r[k2]` is a list (the elements are masked one by one),
or when the configuration holds a second binding for `k2` that fails (the key is deleted). -/
theorem processing_continues_after_failure_counterexample :
    (constantMask (Entry.str "M") Entry.nil [] () = some ((Entry.str "M", none), ()) ∧
      MaskingEngineFactory
        (buildConfig [("k1", failingMask "boom"), ("k2", constantMask (Entry.str "M"))]) true
        (Entry.dict [("k1", Entry.str "x"), ("k2", Entry.nil)]) [] () =
        some ((Entry.dict [], some "boom"), ()) ∧
      lookup [] "k2" = none) ∧
    (constantMask (Entry.str "M") (Entry.list [Entry.str "y"]) [] () =
        some ((Entry.str "M", none), ()) ∧
      MaskingEngineFactory
        (buildConfig [("k1", failingMask "boom"), ("k2", constantMask (Entry.str "M"))]) true
        (Entry.dict [("k1", Entry.str "x"), ("k2", Entry.list [Entry.str "y"])]) [] () =
        some ((Entry.dict [("k2", Entry.list [Entry.str "M"])], some "boom"), ()) ∧
      Entry.list [Entry.str "M"] ≠ Entry.str "M") ∧
    (constantMask (Entry.str "M") (Entry.str "y") [] () = some ((Entry.str "M", none), ()) ∧
      MaskingEngineFactory
        (buildConfig [("k1", failingMask "boom"), ("k2", constantMask (Entry.str "M")),
          ("k2", failingMask "late")]) true
        (Entry.dict [("k1", Entry.str "x"), ("k2", Entry.str "y")]) [] () =
        some ((Entry.dict [], some "late"), ()) ∧
      lookup [] "k2" = none) := by
  have hc : (buildConfig [("k1", failingMask "boom"),
      ("k2", constantMask (Entry.str "M"))]).config =
      [⟨ContextWrapper.MaskContext ⟨failingMask "boom"⟩, "k1"⟩,
        ⟨ContextWrapper.MaskContext ⟨constantMask (Entry.str "M")⟩, "k2"⟩] := by
    rw [buildConfig_cons_plain "k1" _ _ (by decide), buildConfig_cons_plain "k2" _ _ (by decide),
      buildConfig_nil]
  have hc' : (buildConfig [("k1", failingMask "boom"), ("k2", constantMask (Entry.str "M")),
      ("k2", failingMask "late")]).config =
      [⟨ContextWrapper.MaskContext ⟨failingMask "boom"⟩, "k1"⟩,
        ⟨ContextWrapper.MaskContext ⟨constantMask (Entry.str "M")⟩, "k2"⟩,
        ⟨ContextWrapper.MaskContext ⟨failingMask "late"⟩, "k2"⟩] := by
    rw [buildConfig_cons_plain "k1" _ _ (by decide), buildConfig_cons_plain "k2" _ _ (by decide),
      buildConfig_cons_plain "k2" _ _ (by decide), buildConfig_nil]
  refine ⟨⟨rfl, ?_, rfl⟩, ⟨rfl, ?_, by simp⟩, ⟨rfl, ?_, rfl⟩⟩
  · simp only [MaskingEngineFactory, MapMaskConfiguration.Entries]
    rw [hc]
    rfl
  · simp only [MaskingEngineFactory, MapMaskConfiguration.Entries]
    rw [hc]
    rfl
  · simp only [MaskingEngineFactory, MapMaskConfiguration.Entries]
    rw [hc']
    rfl

/-- C17, amended (processing continues after a failure): for a configuration built with
WithEntry that holds exactly one binding with key `k2`, registered under the plain key `k2` with
a strategy `s2` that succeeds on `r[k2]` independently of context (it returns a result and no
failure whatever its state and whatever context the driver hands it), and a record `r` holding
under `k2` a value that is neither nil nor a list, the output the driver returns holds under
`k2` the result `s2` gives for `r[k2]` when its binding runs, whatever the other bindings are,
failing ones before or after the binding of `k2` included. -/
theorem processing_continues_after_failure {σ : Type}
    (pre post : List (String × MaskEngine σ))
    (k2 : String) (s2 : MaskEngine σ) (root : Bool) (r : Dictionary) (contexts : List Dictionary)
    (st st' : σ) (v2 out : Entry) (err : Option Err) (hk2 : SplitN k2 = [k2])
    (hother : ∀ e ∈ pre ++ post, firstSegment e.1 ≠ k2) (hr : nodupKeys r)
    (hv : lookup r k2 = some v2) (hsingle : v2.isSingle = true)
    (hs2 : ∀ (s : σ) (o1 : Dictionary), ∃ x s',
      s2 v2 (if root then [o1] else contexts) s = some ((x, none), s'))
    (h : MaskingEngineFactory (buildConfig (pre ++ (k2, s2) :: post)) root (Entry.dict r)
      contexts st = some ((out, err), st')) :
    ∃ o o1 e1 s1 x s1', out = Entry.dict o ∧
      applyBindings root contexts (buildConfig pre).Entries (copyDictionary r) none st =
        some ((o1, e1), s1) ∧
      s2 v2 (if root then [o1] else contexts) s1 = some ((x, none), s1') ∧
      lookup o k2 = some x := by
  have hkeys : ∀ es : List (String × MaskEngine σ), (∀ e ∈ es, firstSegment e.1 ≠ k2) →
      k2 ∉ (buildConfig es).config.map (fun b => b.Key) := by
    intro es hes
    rw [(buildConfig_props es).1]
    simp only [List.mem_map, not_exists, not_and]
    intro e he hf
    exact hes e he hf
  simp only [MaskingEngineFactory, MapMaskConfiguration.Entries] at h
  rw [buildConfig_append, buildConfig_cons_plain k2 s2 post hk2, applyBindings_append,
    copyDictionary_eq r hr] at h
  cases hp : applyBindings root contexts (buildConfig pre).config r none st with
  | none => simp [hp] at h
  | some x0 =>
    obtain ⟨⟨o, e1⟩, s1⟩ := x0
    rw [hp] at h
    obtain ⟨hno, hfr, -⟩ := applyBindings_props root contexts _ (buildConfig_props pre).2 r none
      st s1 o e1 hr hp
    have hvo : lookup o k2 = some v2 := by
      rw [hfr k2 (hkeys pre (fun e he => hother e (List.mem_append_left _ he)))]
      exact hv
    obtain ⟨x, s', hx⟩ := hs2 s1 o
    have hcall : ContextWrapper.MaskContext ⟨s2⟩ o k2 (if root then [o] else contexts) s1 =
        some ((set o k2 x, none), s') := by
      rw [plain_call s2 o k2 _ s1 v2 hno hvo hsingle, hx]
    have hrest : (match applyBindings root contexts (buildConfig post).config
        (set o k2 x) e1 s' with
        | none => none
        | some ((output, errMask), st') => some ((Entry.dict output, errMask), st')) =
        some ((out, err), st') → ∃ o, out = Entry.dict o ∧ lookup o k2 = some x := by
      intro hfin
      cases hq : applyBindings root contexts (buildConfig post).config (set o k2 x) e1 s' with
      | none => simp [hq] at hfin
      | some y =>
        obtain ⟨⟨o2, e2⟩, s2'⟩ := y
        simp only [hq, Option.some.injEq, Prod.mk.injEq] at hfin
        refine ⟨o2, hfin.1.1.symm, ?_⟩
        have := (applyBindings_props root contexts _ (buildConfig_props post).2 _ e1 s' s2' o2
          e2 (nodupKeys_set o k2 x hno) hq).2.1 k2
          (hkeys post (fun e he => hother e (List.mem_append_right _ he)))
        rw [this, lookup_set]
        simp
    have hfinal : ∃ o2, out = Entry.dict o2 ∧ lookup o2 k2 = some x := by
      cases root with
      | true =>
        simp only [if_true] at hcall
        simp only [applyBindings, if_true, hcall] at h
        exact hrest h
      | false =>
        simp only [Bool.false_eq_true, if_false] at hcall
        simp only [applyBindings, Bool.false_eq_true, if_false, hcall] at h
        exact hrest h
    obtain ⟨o2, ho2, hl2⟩ := hfinal
    refine ⟨o2, o, e1, s1, x, s', ho2, ?_, hx, hl2⟩
    simp only [MapMaskConfiguration.Entries]
    rw [copyDictionary_eq r hr]
    exact hp

theorem processing_continues_after_failure_witness :
    SplitN "k2" = ["k2"] ∧
    (∀ e ∈ [("k1", (failWith "boom" : MaskEngine Nat))] ++ [("k3", failWith "late")],
      firstSegment e.1 ≠ "k2") ∧
    nodupKeys [("k1", Entry.str "x"), ("k2", Entry.str "y"), ("k3", Entry.str "z")] ∧
    lookup [("k1", Entry.str "x"), ("k2", Entry.str "y"), ("k3", Entry.str "z")] "k2" =
      some (Entry.str "y") ∧
    (Entry.str "y").isSingle = true ∧
    (∀ (s : Nat) (o1 : Dictionary), ∃ x s',
      regex.MaskEngine.Mask ⟨countingGenerator⟩ (Entry.str "y") (if true then [o1] else []) s =
        some ((x, none), s')) ∧
    MaskingEngineFactory
      (buildConfig ([("k1", failWith "boom")] ++
        ("k2", regex.MaskEngine.Mask ⟨countingGenerator⟩) :: [("k3", failWith "late")])) true
      (Entry.dict [("k1", Entry.str "x"), ("k2", Entry.str "y"), ("k3", Entry.str "z")]) [] 0 =
      some ((Entry.dict [("k2", Entry.str "first")], some "late"), 1) ∧
    MaskingEngineFactory
      (buildConfig ([("k1", failWith "boom")] ++
        ("k2", regex.MaskEngine.Mask ⟨countingGenerator⟩) :: [("k3", failWith "late")])) true
      (Entry.dict [("k1", Entry.str "x"), ("k2", Entry.str "y"), ("k3", Entry.str "z")]) [] 1 =
      some ((Entry.dict [("k2", Entry.str "later")], some "late"), 2) ∧
    ∃ o o1 e1 s1 x s1', Entry.dict [("k2", Entry.str "first")] = Entry.dict o ∧
      applyBindings true [] (buildConfig [("k1", (failWith "boom" : MaskEngine Nat))]).Entries
        (copyDictionary [("k1", Entry.str "x"), ("k2", Entry.str "y"), ("k3", Entry.str "z")])
        none 0 = some ((o1, e1), s1) ∧
      regex.MaskEngine.Mask ⟨countingGenerator⟩ (Entry.str "y") (if true then [o1] else []) s1 =
        some ((x, none), s1') ∧
      lookup o "k2" = some x := by
  have hk : SplitN "k2" = ["k2"] := by decide
  have ho : ∀ e ∈ [("k1", (failWith "boom" : MaskEngine Nat))] ++ [("k3", failWith "late")],
      firstSegment e.1 ≠ "k2" := by
    intro e he
    simp only [List.singleton_append, List.mem_cons, List.mem_singleton, List.not_mem_nil,
      or_false] at he
    rcases he with rfl | rfl <;> decide
  have hr : nodupKeys [("k1", Entry.str "x"), ("k2", Entry.str "y"), ("k3", Entry.str "z")] := by
    simp [nodupKeys, keys]
  have hs : ∀ (s : Nat) (o1 : Dictionary), ∃ x s',
      regex.MaskEngine.Mask ⟨countingGenerator⟩ (Entry.str "y") (if true then [o1] else []) s =
        some ((x, none), s') :=
    fun s _ => ⟨Entry.str (if s = 0 then "first" else "later"), s + 1, rfl⟩
  have hcfg : (buildConfig ([("k1", (failWith "boom" : MaskEngine Nat))] ++
      ("k2", regex.MaskEngine.Mask ⟨countingGenerator⟩) :: [("k3", failWith "late")])).config =
      [⟨ContextWrapper.MaskContext ⟨failWith "boom"⟩, "k1"⟩,
        ⟨ContextWrapper.MaskContext ⟨regex.MaskEngine.Mask ⟨countingGenerator⟩⟩, "k2"⟩,
        ⟨ContextWrapper.MaskContext ⟨failWith "late"⟩, "k3"⟩] := by
    rw [List.singleton_append, buildConfig_cons_plain "k1" _ _ (by decide),
      buildConfig_cons_plain "k2" _ _ (by decide), buildConfig_cons_plain "k3" _ _ (by decide),
      buildConfig_nil]
  have hd : MaskingEngineFactory
      (buildConfig ([("k1", failWith "boom")] ++
        ("k2", regex.MaskEngine.Mask ⟨countingGenerator⟩) :: [("k3", failWith "late")])) true
      (Entry.dict [("k1", Entry.str "x"), ("k2", Entry.str "y"), ("k3", Entry.str "z")]) [] 0 =
      some ((Entry.dict [("k2", Entry.str "first")], some "late"), 1) := by
    simp only [MaskingEngineFactory, MapMaskConfiguration.Entries]
    rw [hcfg]
    rfl
  have hd' : MaskingEngineFactory
      (buildConfig ([("k1", failWith "boom")] ++
        ("k2", regex.MaskEngine.Mask ⟨countingGenerator⟩) :: [("k3", failWith "late")])) true
      (Entry.dict [("k1", Entry.str "x"), ("k2", Entry.str "y"), ("k3", Entry.str "z")]) [] 1 =
      some ((Entry.dict [("k2", Entry.str "later")], some "late"), 2) := by
    simp only [MaskingEngineFactory, MapMaskConfiguration.Entries]
    rw [hcfg]
    rfl
  exact ⟨hk, ho, hr, rfl, rfl, hs, hd, hd',
    processing_continues_after_failure _ _ "k2" _ true _ [] 0 1 (Entry.str "y") _ _ hk ho hr
      rfl rfl hs hd⟩

/-- The driver returns a record for a record. -/
theorem driver_returns_record {σ : Type} (config : MapMaskConfiguration σ) (root : Bool)
    (d : Dictionary) (contexts : List Dictionary) (st st' : σ) (v : Entry) (e : Option Err)
    (h : MaskingEngineFactory config root (Entry.dict d) contexts st = some ((v, e), st')) :
    ∃ d', v = Entry.dict d' := by
  simp only [MaskingEngineFactory] at h
  cases ha : applyBindings root contexts config.Entries (copyDictionary d) none st with
  | none => simp [ha] at h
  | some x =>
    obtain ⟨⟨o, e1⟩, s1⟩ := x
    simp only [ha, Option.some.injEq, Prod.mk.injEq] at h
    exact ⟨o, h.1.1.symm⟩

theorem elementCalls_mem {σ : Type} (engine : MaskEngine σ) (contexts : List Dictionary)
    (l : List Entry) :
    ∀ (st st' : σ) (rs : List (Entry × Option Err)),
      elementCalls engine contexts l st = some (rs, st') →
      ∀ res ∈ rs, ∃ x ∈ l, ∃ s s', engine x contexts s = some (res, s') := by
  induction l with
  | nil =>
    intro st st' rs h
    simp only [elementCalls, Option.some.injEq, Prod.mk.injEq] at h
    rw [← h.1]
    simp
  | cons x l ih =>
    intro st st' rs h
    simp only [elementCalls] at h
    cases hc : engine x contexts st with
    | none => simp [hc] at h
    | some r =>
      obtain ⟨res, s1⟩ := r
      rw [hc] at h
      cases hr : elementCalls engine contexts l s1 with
      | none => simp [hr] at h
      | some q =>
        obtain ⟨rs', s2⟩ := q
        simp only [hr, Option.some.injEq, Prod.mk.injEq] at h
        rw [← h.1]
        intro res' hres
        rcases List.mem_cons.1 hres with rfl | hres
        · exact ⟨x, List.mem_cons_self _ _, st, s1, hc⟩
        · obtain ⟨y, hy, s, s', hs⟩ := ih s1 s2 rs' hr res' hres
          exact ⟨y, List.mem_cons_of_mem _ hy, s, s', hs⟩

/-- The engine of the sub-configuration of a two-segment path on a record: the adapter of the
strategy on the second segment, and the deletion of that key when it fails. -/
theorem nested_engine_eq {σ : Type} (s : MaskEngine σ) (b : String) (hb : '.' ∉ b.data)
    (d : Dictionary) (contexts : List Dictionary) (st : σ) (hd : nodupKeys d) :
    (NewMaskConfiguration.WithEntry b s).AsEngine (Entry.dict d) contexts st =
      match ContextWrapper.MaskContext ⟨s⟩ d b contexts st with
      | none => none
      | some ((d', some err), st') => some ((Entry.dict (delete d' b), some err), st')
      | some ((d', none), st') => some ((Entry.dict d', none), st') := by
  have hcfg : (NewMaskConfiguration.WithEntry b s).config =
      [⟨ContextWrapper.MaskContext ⟨s⟩, b⟩] := by
    have := buildConfig_cons_plain b s [] (SplitN_plain b hb)
    rw [buildConfig_nil] at this
    exact this
  simp only [MapMaskConfiguration.AsEngine, MaskingEngineFactory, MapMaskConfiguration.Entries]
  rw [hcfg, copyDictionary_eq d hd]
  simp only [applyBindings, Bool.false_eq_true, if_false]
  cases hc : ContextWrapper.MaskContext ⟨s⟩ d b contexts st with
  | none => rfl
  | some x =>
    obtain ⟨⟨d', e⟩, s1⟩ := x
    cases e with
    | none => rfl
    | some err => rfl

/-- The configuration holding the single plain key `b`. -/
theorem plain_config {σ : Type} (b : String) (s : MaskEngine σ) (hb : '.' ∉ b.data) :
    NewMaskConfiguration.WithEntry b s = ⟨[⟨ContextWrapper.MaskContext ⟨s⟩, b⟩]⟩ := by
  have h2 := buildConfig_cons_plain b s [] (SplitN_plain b hb)
  rw [buildConfig_nil] at h2
  have : (NewMaskConfiguration.WithEntry b s).config = [⟨ContextWrapper.MaskContext ⟨s⟩, b⟩] :=
    h2
  cases hx : NewMaskConfiguration.WithEntry b s with
  | mk cfg => rw [hx] at this; simp only at this; rw [this]

/-- The configuration holding the single two-segment path `a.b`. -/
theorem dotted_config {σ : Type} (a b : String) (s : MaskEngine σ) (ha : '.' ∉ a.data)
    (hb : '.' ∉ b.data) :
    (NewMaskConfiguration.WithEntry (a ++ "." ++ b) s).config =
      [⟨ContextWrapper.MaskContext ⟨(NewMaskConfiguration.WithEntry b s).AsEngine⟩, a⟩] := by
  have h1 := buildConfig_cons_dotted (a ++ "." ++ b) a b s [] (SplitN_dotted a b ha)
    (SplitN_plain b hb)
  rw [buildConfig_nil] at h1
  rw [plain_config b s hb]
  exact h1

/-- C19 (a failure below a dotted path removes the whole top-level field): for the
configuration WithEntry("a.b", s) the engine bound under `a` is the adapter of `s` on `b`
followed by the deletion of `b` on failure.  When the field `a` of `r` is a record on which the
adapter of `s` fails for `b`, or a list of records on which the calls of that engine end with a
failure, the root driver returns that failure and `r` without any entry under `a`: the siblings
of `b` inside `a` go with it. -/
theorem dotted_failure_removes_top_level_field {σ : Type} (a b : String) (s : MaskEngine σ)
    (r : Dictionary) (contexts : List Dictionary) (st : σ) (ha : '.' ∉ a.data)
    (hb : '.' ∉ b.data) (hr : nodupKeys r) :
    (∀ (d : Dictionary) (ctx : List Dictionary) (s0 : σ), nodupKeys d →
      (NewMaskConfiguration.WithEntry b s).AsEngine (Entry.dict d) ctx s0 =
        match ContextWrapper.MaskContext ⟨s⟩ d b ctx s0 with
        | none => none
        | some ((d', some err), st') => some ((Entry.dict (delete d' b), some err), st')
        | some ((d', none), st') => some ((Entry.dict d', none), st')) ∧
    (∀ (d d' : Dictionary) (err : Err) (st' : σ), lookup r a = some (Entry.dict d) →
      nodupKeys d → ContextWrapper.MaskContext ⟨s⟩ d b [r] st = some ((d', some err), st') →
      MaskingEngineFactory (NewMaskConfiguration.WithEntry (a ++ "." ++ b) s) true (Entry.dict r)
        contexts st = some ((Entry.dict (delete r a), some err), st')) ∧
    (∀ (ds : List Dictionary) (rs : List (Entry × Option Err)) (err : Err) (st' : σ),
      lookup r a = some (Entry.dicts ds) →
      elementCalls (NewMaskConfiguration.WithEntry b s).AsEngine [r] (ds.map Entry.dict) st =
        some (rs, st') →
      lastFailure (rs.map Prod.snd) = some err →
      MaskingEngineFactory (NewMaskConfiguration.WithEntry (a ++ "." ++ b) s) true (Entry.dict r)
        contexts st = some ((Entry.dict (delete r a), some err), st')) ∧
    (∀ (l : List Entry) (rs : List (Entry × Option Err)) (err : Err) (st' : σ),
      lookup r a = some (Entry.list l) →
      elementCalls (NewMaskConfiguration.WithEntry b s).AsEngine [r] l st = some (rs, st') →
      lastFailure (rs.map Prod.snd) = some err →
      MaskingEngineFactory (NewMaskConfiguration.WithEntry (a ++ "." ++ b) s) true (Entry.dict r)
        contexts st = some ((Entry.dict (delete r a), some err), st')) ∧
    lookup (delete r a) a = none := by
  have hdel : ∀ x, delete (set r a x) a = delete r a := by
    intro x
    by_cases hk : a ∈ keys r
    · have hl : lookup r a ≠ none := by rw [Ne, lookup_eq_none_iff]; simpa using hk
      cases hv : lookup r a with
      | none => exact absurd hv hl
      | some v =>
        obtain ⟨pre, post, hc, h1, h2⟩ := lookup_split r a v hv hr
        rw [hc, set_split pre post a v x h1, delete_split pre post a x h1 h2,
          delete_split pre post a v h1 h2]
    · rw [set_of_not_mem r a x hk, delete_of_not_mem r a hk]
      have : delete (r ++ [(a, x)]) a = r := by
        have := delete_split r [] a x hk (by simp [keys])
        simpa using this
      exact this
  refine ⟨fun d ctx s0 hd => nested_engine_eq s b hb d ctx s0 hd, ?_, ?_, ?_, ?_⟩
  · intro d d' err st' hv hd hfail
    simp only [MaskingEngineFactory, MapMaskConfiguration.Entries]
    rw [dotted_config a b s ha hb, copyDictionary_eq r hr]
    simp only [applyBindings, if_true]
    rw [plain_call _ r a [r] st (Entry.dict d) hr hv rfl, nested_engine_eq s b hb d [r] st hd,
      hfail]
  · intro ds rs err st' hv hc hlast
    have hdict : ∀ res ∈ rs, res.2 = none → ∃ d, res.1 = Entry.dict d := by
      intro res hres _
      obtain ⟨x, hx, s1, s2, hcall⟩ := elementCalls_mem _ _ _ _ _ _ hc res hres
      obtain ⟨d0, -, rfl⟩ := List.mem_map.1 hx
      obtain ⟨v, e⟩ := res
      exact driver_returns_record _ false d0 [r] s1 s2 v e hcall
    simp only [MaskingEngineFactory, MapMaskConfiguration.Entries]
    rw [dotted_config a b s ha hb, copyDictionary_eq r hr]
    simp only [applyBindings, if_true]
    rw [records_call _ r a [r] st st' ds rs hr hv hc hdict, hlast]
    simp only [applyBindings, hdel]
  · intro l rs err st' hv hc hlast
    simp only [MaskingEngineFactory, MapMaskConfiguration.Entries]
    rw [dotted_config a b s ha hb, copyDictionary_eq r hr]
    simp only [applyBindings, if_true]
    rw [list_call _ r a [r] st l hr hv, hc]
    simp only [hlast, applyBindings, hdel]
  · rw [lookup_delete]; simp

theorem dotted_failure_removes_top_level_field_witness :
    '.' ∉ "a".data ∧ '.' ∉ "b".data ∧ "a" ++ "." ++ "b" = "a.b" ∧
    nodupKeys [("a", Entry.dict [("b", Entry.str "x"), ("c", Entry.str "y")]),
      ("z", Entry.num 1)] ∧
    MaskingEngineFactory (NewMaskConfiguration.WithEntry ("a" ++ "." ++ "b") (failingMask "boom"))
      true (Entry.dict [("a", Entry.dict [("b", Entry.str "x"), ("c", Entry.str "y")]),
        ("z", Entry.num 1)]) [] () =
      some ((Entry.dict (delete [("a", Entry.dict [("b", Entry.str "x"), ("c", Entry.str "y")]),
        ("z", Entry.num 1)] "a"), some "boom"), ()) ∧
    delete [("a", Entry.dict [("b", Entry.str "x"), ("c", Entry.str "y")]), ("z", Entry.num 1)]
      "a" = [("z", Entry.num 1)] ∧
    nodupKeys [("a", Entry.dicts [[("b", Entry.str "x"), ("c", Entry.str "y")]])] ∧
    MaskingEngineFactory (NewMaskConfiguration.WithEntry ("a" ++ "." ++ "b") (failingMask "boom"))
      true (Entry.dict [("a", Entry.dicts [[("b", Entry.str "x"), ("c", Entry.str "y")]])]) []
      () =
      some ((Entry.dict (delete [("a", Entry.dicts [[("b", Entry.str "x"),
        ("c", Entry.str "y")]])] "a"), some "boom"), ()) ∧
    delete [("a", Entry.dicts [[("b", Entry.str "x"), ("c", Entry.str "y")]])] "a" = [] := by
  have ha : '.' ∉ "a".data := by decide
  have hb : '.' ∉ "b".data := by decide
  have hr : nodupKeys [("a", Entry.dict [("b", Entry.str "x"), ("c", Entry.str "y")]),
      ("z", Entry.num 1)] := by simp [nodupKeys, keys]
  have hr' : nodupKeys [("a", Entry.dicts [[("b", Entry.str "x"), ("c", Entry.str "y")]])] := by
    simp [nodupKeys, keys]
  have hd : nodupKeys [("b", Entry.str "x"), ("c", Entry.str "y")] := by simp [nodupKeys, keys]
  have hcalls : elementCalls (NewMaskConfiguration.WithEntry "b" (failingMask "boom")).AsEngine
      [[("a", Entry.dicts [[("b", Entry.str "x"), ("c", Entry.str "y")]])]]
      ([[("b", Entry.str "x"), ("c", Entry.str "y")]].map Entry.dict) () =
      some ([(Entry.dict [("c", Entry.str "y")], some "boom")], ()) := by
    rw [plain_config "b" _ hb]
    rfl
  exact ⟨ha, hb, by decide, hr,
    (dotted_failure_removes_top_level_field "a" "b" (failingMask "boom") _ [] () ha hb hr).2.1
      [("b", Entry.str "x"), ("c", Entry.str "y")] [("b", Entry.str "x"), ("c", Entry.str "y")]
      "boom" () rfl hd rfl, rfl, hr',
    (dotted_failure_removes_top_level_field "a" "b" (failingMask "boom") _ [] () ha hb hr').2.2.1
      [[("b", Entry.str "x"), ("c", Entry.str "y")]] _ "boom" () rfl hcalls rfl, rfl⟩

theorem lookup_eq_some_iff (d : Dictionary) (k : String) (v : Entry) (hn : nodupKeys d) :
    lookup d k = some v ↔ (k, v) ∈ d := by
  induction d with
  | nil => simp [lookup]
  | cons kv rest ih =>
    obtain ⟨k0, v0⟩ := kv
    have hn0 : k0 ∉ keys rest ∧ nodupKeys rest := by
      simpa [nodupKeys, keys] using hn
    by_cases h0 : k0 = k
    · subst h0
      have : ∀ w, (k0, w) ∉ rest := by
        intro w hw
        exact hn0.1 (List.mem_map_of_mem Prod.fst hw)
      simp only [lookup, if_true, Option.some.injEq, List.mem_cons, Prod.mk.injEq, true_and]
      constructor
      · intro h; exact Or.inl h.symm
      · rintro (h | h)
        · exact h.symm
        · exact absurd h (this v)
    · have h0' : ¬ k = k0 := fun e => h0 e.symm
      simp [lookup, h0, h0', ih hn0.2]

theorem nodupKeys_perm (d d' : Dictionary) (h : d.Perm d') (hn : nodupKeys d) : nodupKeys d' := by
  unfold nodupKeys keys at hn ⊢
  exact (List.Perm.nodup_iff (h.map Prod.fst)).1 hn

theorem lookup_perm (d d' : Dictionary) (k : String) (h : d.Perm d') (hn : nodupKeys d) :
    lookup d k = lookup d' k := by
  have hn' := nodupKeys_perm d d' h hn
  cases hl : lookup d k with
  | none =>
    have hk : k ∉ keys d := (lookup_eq_none_iff d k).1 hl
    have hk' : k ∉ keys d' := by
      intro hm
      exact hk ((List.Perm.mem_iff (h.map Prod.fst)).2 hm)
    exact ((lookup_eq_none_iff d' k).2 hk').symm
  | some v =>
    have := (lookup_eq_some_iff d k v hn).1 hl
    exact ((lookup_eq_some_iff d' k v hn').2 ((List.Perm.mem_iff h).1 this)).symm

theorem SplitN_length (key first rest : String) (h : SplitN key = [first, rest]) :
    rest.length < key.length := by
  unfold SplitN at h
  split at h
  · simp at h
  · rename_i a b hab
    simp only [List.cons.injEq, and_true] at h
    obtain ⟨h1, h2⟩ := breakDot_some _ _ _ hab
    rw [← h.2]
    show b.length < key.data.length
    rw [h1]
    simp
    omega

theorem maskEntries_keepsState {σ : Type} (engine : MaskEngine σ) (h : keepsState engine)
    (c : List Dictionary) (l : List Entry) :
    ∀ (tab : List Entry) (err : Option Err) (st st' : σ) (res : List Entry × Option Err),
      maskEntries engine c l tab err st = some (res, st') → st' = st := by
  induction l with
  | nil =>
    intro tab err st st' res hr
    simp only [maskEntries, Option.some.injEq, Prod.mk.injEq] at hr
    exact hr.2.symm
  | cons x l ih =>
    intro tab err st st' res hr
    simp only [maskEntries] at hr
    cases hc : engine x c st with
    | none => simp [hc] at hr
    | some q =>
      obtain ⟨⟨v, e⟩, s1⟩ := q
      have hs1 : s1 = st := h x c st s1 _ hc
      rw [hc] at hr
      cases e with
      | none => exact (ih _ _ _ _ _ hr).trans hs1
      | some er => exact (ih _ _ _ _ _ hr).trans hs1

theorem maskDictionaries_keepsState {σ : Type} (engine : MaskEngine σ) (h : keepsState engine)
    (c : List Dictionary) (l : List Dictionary) :
    ∀ (tab : List Dictionary) (err : Option Err) (st st' : σ)
      (res : List Dictionary × Option Err),
      maskDictionaries engine c l tab err st = some (res, st') → st' = st := by
  induction l with
  | nil =>
    intro tab err st st' res hr
    simp only [maskDictionaries, Option.some.injEq, Prod.mk.injEq] at hr
    exact hr.2.symm
  | cons x l ih =>
    intro tab err st st' res hr
    simp only [maskDictionaries] at hr
    cases hc : engine (Entry.dict x) c st with
    | none => simp [hc] at hr
    | some q =>
      obtain ⟨⟨v, e⟩, s1⟩ := q
      have hs1 : s1 = st := h _ c st s1 _ hc
      rw [hc] at hr
      cases e with
      | some er => cases v <;> exact (ih _ _ _ _ _ hr).trans hs1
      | none =>
        cases v with
        | dict d => exact (ih _ _ _ _ _ hr).trans hs1
        | _ => simp at hr

theorem maskContextLoop_keepsState {σ : Type} (engine : MaskEngine σ) (h : keepsState engine)
    (context : Dictionary) (key : String) (c : List Dictionary) (l : List (String × Entry)) :
    ∀ (result : Dictionary) (err : Option Err) (st st' : σ) (res : Dictionary × Option Err),
      maskContextLoop engine context key c l result err st = some (res, st') → st' = st := by
  induction l with
  | nil =>
    intro result err st st' res hr
    simp only [maskContextLoop, Option.some.injEq, Prod.mk.injEq] at hr
    exact hr.2.symm
  | cons kv l ih =>
    intro result err st st' res hr
    obtain ⟨k, v⟩ := kv
    simp only [maskContextLoop] at hr
    by_cases hk : k = key
    · simp only [hk, if_true] at hr
      have hval : ∀ w, get context key = w → w.isSingle = true →
          (match engine w c st with
            | none => none
            | some ((_, some erreur), st') =>
              maskContextLoop engine context key c l (set result key v) (some erreur) st'
            | some ((e, none), st') =>
              maskContextLoop engine context key c l (set result key e) err st') =
            some (res, st') → st' = st := by
        intro w _ _ hw
        cases hc : engine w c st with
        | none => simp [hc] at hw
        | some q =>
          obtain ⟨⟨x, e⟩, s1⟩ := q
          have hs1 : s1 = st := h _ c st s1 _ hc
          rw [hc] at hw
          cases e with
          | none => exact (ih _ _ _ _ _ hw).trans hs1
          | some er => exact (ih _ _ _ _ _ hw).trans hs1
      cases hg : get context key with
      | nil =>
        rw [hg] at hr
        exact ih _ _ _ _ _ hr
      | dicts j =>
        rw [hg] at hr
        simp only at hr
        cases hm : maskDictionaries engine c j [] err st with
        | none => simp [hm] at hr
        | some q =>
          obtain ⟨⟨tab, e⟩, s1⟩ := q
          have hs1 := maskDictionaries_keepsState engine h c j [] err st s1 _ hm
          rw [hm] at hr
          exact (ih _ _ _ _ _ hr).trans hs1
      | list j =>
        rw [hg] at hr
        simp only at hr
        cases hm : maskEntries engine c j [] err st with
        | none => simp [hm] at hr
        | some q =>
          obtain ⟨⟨tab, e⟩, s1⟩ := q
          have hs1 := maskEntries_keepsState engine h c j [] err st s1 _ hm
          rw [hm] at hr
          exact (ih _ _ _ _ _ hr).trans hs1
      | str s0 => rw [hg] at hr; exact hval _ hg rfl hr
      | num s0 => rw [hg] at hr; exact hval _ hg rfl hr
      | bool s0 => rw [hg] at hr; exact hval _ hg rfl hr
      | dict s0 => rw [hg] at hr; exact hval _ hg rfl hr
    · simp only [hk, if_false] at hr
      exact ih _ _ _ _ _ hr

theorem wrapper_keepsState {σ : Type} (engine : MaskEngine σ) (k : String)
    (h : keepsState engine) : bindingKeepsState ⟨ContextWrapper.MaskContext ⟨engine⟩, k⟩ := by
  intro o key c st st' res hr
  exact maskContextLoop_keepsState engine h o key c o [] none st st' res hr

theorem applyBindings_keepsState {σ : Type} (root : Bool) (contexts : List Dictionary)
    (bs : List (MaskKey σ)) (h : ∀ b ∈ bs, bindingKeepsState b) :
    ∀ (output : Dictionary) (errMask : Option Err) (st st' : σ)
      (res : Dictionary × Option Err),
      applyBindings root contexts bs output errMask st = some (res, st') → st' = st := by
  induction bs with
  | nil =>
    intro output errMask st st' res hr
    simp only [applyBindings, Option.some.injEq, Prod.mk.injEq] at hr
    exact hr.2.symm
  | cons b bs ih =>
    intro output errMask st st' res hr
    have hb := h b (List.mem_cons_self _ _)
    have ih' := ih (fun b' hb' => h b' (List.mem_cons_of_mem _ hb'))
    simp only [applyBindings] at hr
    cases hc : (if root = true then b.maskCont output b.Key [output]
        else b.maskCont output b.Key contexts) st with
    | none => simp [hc] at hr
    | some q =>
      obtain ⟨⟨o, e⟩, s1⟩ := q
      have hs1 : s1 = st := by
        cases root with
        | true => exact hb output b.Key [output] st s1 _ (by simpa using hc)
        | false => exact hb output b.Key contexts st s1 _ (by simpa using hc)
      rw [hc] at hr
      cases e with
      | none => exact (ih' _ _ _ _ _ hr).trans hs1
      | some er => exact (ih' _ _ _ _ _ hr).trans hs1

theorem driver_keepsState {σ : Type} (config : MapMaskConfiguration σ) (root : Bool)
    (h : ∀ b ∈ config.config, bindingKeepsState b) :
    keepsState (MaskingEngineFactory config root) := by
  intro v c st st' res hr
  cases v with
  | dict d =>
    simp only [MaskingEngineFactory, MapMaskConfiguration.Entries] at hr
    cases ha : applyBindings root c config.config (copyDictionary d) none st with
    | none => simp [ha] at hr
    | some q =>
      obtain ⟨⟨o, e⟩, s1⟩ := q
      have := applyBindings_keepsState root c config.config h _ _ _ _ _ ha
      simp only [ha, Option.some.injEq, Prod.mk.injEq] at hr
      rw [← hr.2]; exact this
  | _ =>
    simp only [MaskingEngineFactory, Option.some.injEq, Prod.mk.injEq] at hr
    exact hr.2.symm

theorem WithContextEntry_keepsState {σ : Type} (n : Nat) :
    ∀ (key : String) (engine : MaskContextEngine σ), key.length < n →
      (∀ k, bindingKeepsState ⟨engine, k⟩) →
      ∀ b ∈ (MapMaskConfiguration.WithContextEntry NewMaskConfiguration key engine).config,
        bindingKeepsState b := by
  induction n with
  | zero => intro key engine hlen; omega
  | succ n ih =>
    intro key engine hlen he b hb
    rcases SplitN_cases key with ⟨hs, -⟩ | ⟨rest, hs⟩
    · rw [WithContextEntry_plain _ key _ hs] at hb
      simp only [NewMaskConfiguration, List.nil_append, List.mem_singleton] at hb
      subst hb
      exact he key
    · rw [WithContextEntry_dotted _ key _ rest _ hs] at hb
      simp only [NewMaskConfiguration, List.nil_append, List.mem_singleton] at hb
      subst hb
      have hlt := SplitN_length key _ rest hs
      exact wrapper_keepsState _ _ (driver_keepsState _ false (ih rest engine (by omega) he))

theorem buildConfig_keepsState {σ : Type} (es : List (String × MaskEngine σ))
    (h : ∀ e ∈ es, keepsState e.2) : ∀ b ∈ (buildConfig es).config, bindingKeepsState b := by
  induction es with
  | nil => intro b hb; simp [buildConfig, NewMaskConfiguration] at hb
  | cons e es ih =>
    intro b hb
    have happ := buildConfig_append [e] es
    rw [List.singleton_append] at happ
    rw [happ] at hb
    rcases List.mem_append.1 hb with hb | hb
    · have he : keepsState e.2 := h e (List.mem_cons_self _ _)
      have hcfg : (buildConfig [e]).config =
          (MapMaskConfiguration.WithContextEntry NewMaskConfiguration e.1
            (ContextWrapper.MaskContext ⟨e.2⟩)).config := rfl
      rw [hcfg] at hb
      exact WithContextEntry_keepsState (e.1.length + 1) e.1 _ (by omega)
        (fun k => wrapper_keepsState e.2 k he) b hb
    · exact ih (fun e' he' => h e' (List.mem_cons_of_mem _ he')) b hb
theorem arrayAt_set {σ : Type} (h : Heap σ) (i : Nat) (a : List (MaskKey σ))
    (hi : i < h.length) : arrayAt (h.set i a) i = a := by
  simp [arrayAt, List.getD, hi]

theorem arrayAt_append_left {σ : Type} (h l : Heap σ) (i : Nat) (hi : i < h.length) :
    arrayAt (h ++ l) i = arrayAt h i := by
  simp [arrayAt, List.getD, List.getElem?_append_left hi]

theorem arrayAt_append_length {σ : Type} (h : Heap σ) (a : List (MaskKey σ)) :
    arrayAt (h ++ [a]) h.length = a := by
  simp [arrayAt, List.getD]

theorem cells_after_store {α : Type} (arr : List α) (n : Nat) (x : α) (h : n ≤ arr.length) :
    (writeCell arr n x).take (n + 1) = arr.take n ++ [x] ∧
      (writeCell arr n x).take n = arr.take n ∧ n + 1 ≤ (writeCell arr n x).length := by
  unfold writeCell
  have hl : (arr.take n).length = n := by simp [h]
  refine ⟨?_, ?_, ?_⟩
  · rw [List.take_append_eq_append_take, hl]
    simp [List.take_take]
  · rw [List.take_append_eq_append_take, hl]
    simp [List.take_take]
  · rw [List.length_append, hl]
    simp

/-- Appending to a valid slice: the slice returned holds the elements of the old one followed
by the new element, and the old slice still holds its elements. -/
theorem appendSlice_cells {σ : Type} (h : Heap σ) (s : Slice) (x : MaskKey σ)
    (hv : s.valid h) :
    (appendSlice h s x).1.cells (appendSlice h s x).2 = s.cells h ++ [x] ∧
      s.cells (appendSlice h s x).2 = s.cells h ∧
      (appendSlice h s x).1.valid (appendSlice h s x).2 := by
  obtain ⟨h1, h2⟩ := hv
  unfold appendSlice
  by_cases hc : s.len < s.cap
  · simp only [hc, if_true, Slice.cells, Slice.valid, arrayAt_set _ _ _ h1, List.length_set]
    obtain ⟨e1, e2, e3⟩ := cells_after_store (arrayAt h s.array) s.len x h2
    exact ⟨e1, e2, h1, e3⟩
  · have hlen : (List.take s.len (arrayAt h s.array)).length = s.len := by
      rw [List.length_take]; omega
    simp only [hc, if_false, Slice.cells, Slice.valid, arrayAt_append_length,
      arrayAt_append_left _ _ _ h1]
    refine ⟨?_, trivial, ?_, ?_⟩
    · rw [List.take_of_length_le]
      rw [List.length_append, hlen]; simp
    · rw [List.length_append]; simp
    · rw [List.length_append, hlen]; simp

/-- With spare capacity, a second append to the same slice overwrites the element the first
one stored: the slice the first append returned then ends with the second element. -/
theorem appendSlice_alias {σ : Type} (h : Heap σ) (s : Slice) (x y : MaskKey σ)
    (hv : s.valid h) (hc : s.len < s.cap) :
    (appendSlice h s x).1.cells (appendSlice (appendSlice h s x).2 s y).2 = s.cells h ++ [y] := by
  obtain ⟨h1, h2⟩ := hv
  have e1 : appendSlice h s x =
      (⟨s.array, s.len + 1, s.cap⟩, h.set s.array (writeCell (arrayAt h s.array) s.len x)) := by
    simp [appendSlice, hc]
  rw [e1]
  have h1' : s.array < (h.set s.array (writeCell (arrayAt h s.array) s.len x)).length := by
    rw [List.length_set]; exact h1
  obtain ⟨-, c2, c3⟩ := cells_after_store (arrayAt h s.array) s.len x h2
  simp only [appendSlice, hc, if_true, Slice.cells, arrayAt_set _ _ _ h1, arrayAt_set _ _ _ h1']
  rw [(cells_after_store (writeCell (arrayAt h s.array) s.len x) s.len y (by omega)).1, c2]

theorem slices_WithContextEntry_eq {σ : Type} (c : slices.MapMaskConfiguration) (p : String)
    (engine : MaskContextEngine σ) (h : Heap σ) :
    ∃ b : MaskKey σ, b.Key = firstSegment p ∧
      c.WithContextEntry p engine h = (⟨(appendSlice h c.config b).1⟩, (appendSlice h c.config b).2) := by
  unfold slices.MapMaskConfiguration.WithContextEntry
  rcases SplitN_cases p with ⟨hs, hf⟩ | ⟨rest, hs⟩
  · exact ⟨⟨engine, p⟩, hf.symm, by rw [hs]⟩
  · exact ⟨_, rfl, by rw [hs]⟩

/-- C15 fails on the code.  Right after a call, the entries of `c.WithContextEntry p e` are
the entries of `c` followed by one new binding whose Key is the first segment of `p`, and `c`
keeps its entries.  But the binding is appended in place when the slice of `c` has spare
capacity: a second configuration derived from the same `c` then replaces the binding the first
one appended.  With the base `a, b, c` (length 3, capacity 4), the configuration derived with
`d` lists `a, b, c, d` when it is returned and `a, b, c, e` once `e` is registered on the
base. -/
theorem configuration_append_aliasing :
    (∀ (σ : Type) (c : slices.MapMaskConfiguration) (p : String) (engine : MaskContextEngine σ)
      (h : Heap σ), c.config.valid h →
      ∃ b : MaskKey σ, b.Key = firstSegment p ∧
        (c.WithContextEntry p engine h).1.Entries (c.WithContextEntry p engine h).2 =
          c.Entries h ++ [b] ∧
        c.Entries (c.WithContextEntry p engine h).2 = c.Entries h ∧
        (c.WithContextEntry p engine h).1.config.valid (c.WithContextEntry p engine h).2) ∧
    (∀ (σ : Type) (c : slices.MapMaskConfiguration) (p p' : String) (s s' : MaskEngine σ)
      (h : Heap σ), c.config.valid h → c.config.len < c.config.cap →
      ∃ b' : MaskKey σ, b'.Key = firstSegment p' ∧
        (c.WithEntry p s h).1.Entries (c.WithEntry p' s' (c.WithEntry p s h).2).2 =
          c.Entries h ++ [b']) ∧
    ((slices.threeEntries (constantMask (Entry.str "M"))).1.config.len = 3 ∧
      (slices.threeEntries (constantMask (Entry.str "M"))).1.config.cap = 4 ∧
      (((slices.threeEntries (constantMask (Entry.str "M"))).1.WithEntry "d"
          (constantMask (Entry.str "M"))
          (slices.threeEntries (constantMask (Entry.str "M"))).2).1.Entries
        ((slices.threeEntries (constantMask (Entry.str "M"))).1.WithEntry "d"
          (constantMask (Entry.str "M"))
          (slices.threeEntries (constantMask (Entry.str "M"))).2).2).map (fun b => b.Key) =
        ["a", "b", "c", "d"] ∧
      (((slices.threeEntries (constantMask (Entry.str "M"))).1.WithEntry "d"
          (constantMask (Entry.str "M"))
          (slices.threeEntries (constantMask (Entry.str "M"))).2).1.Entries
        ((slices.threeEntries (constantMask (Entry.str "M"))).1.WithEntry "e"
          (constantMask (Entry.str "M"))
          ((slices.threeEntries (constantMask (Entry.str "M"))).1.WithEntry "d"
            (constantMask (Entry.str "M"))
            (slices.threeEntries (constantMask (Entry.str "M"))).2).2).2).map
          (fun b => b.Key) = ["a", "b", "c", "e"]) := by
  refine ⟨?_, ?_, rfl, rfl, rfl, rfl⟩
  · intro σ c p engine h hv
    obtain ⟨b, hk, hb⟩ := slices_WithContextEntry_eq c p engine h
    obtain ⟨e1, e2, e3⟩ := appendSlice_cells h c.config b hv
    refine ⟨b, hk, ?_, ?_, ?_⟩
    · rw [hb]; exact e1
    · rw [hb]; exact e2
    · rw [hb]; exact e3
  · intro σ c p p' s s' h hv hc
    obtain ⟨b, -, hb⟩ := slices_WithContextEntry_eq c p (ContextWrapper.MaskContext ⟨s⟩) h
    obtain ⟨b', hk', hb'⟩ := slices_WithContextEntry_eq c p' (ContextWrapper.MaskContext ⟨s'⟩)
      (appendSlice h c.config b).2
    refine ⟨b', hk', ?_⟩
    unfold slices.MapMaskConfiguration.WithEntry
    rw [hb, hb']
    exact appendSlice_alias h c.config b b' hv hc

theorem joinPath_cons (k k' : String) (ks : List String) :
    joinPath (k :: k' :: ks) = k ++ "." ++ joinPath (k' :: ks) := rfl

/-- Every path is the dotted path of a non-empty list of segments without `.`. -/
theorem joinPath_surjective (n : Nat) :
    ∀ p : String, p.length < n →
      ∃ segs : List String, segs ≠ [] ∧ (∀ k ∈ segs, '.' ∉ k.data) ∧ joinPath segs = p := by
  induction n with
  | zero => intro p hp; omega
  | succ n ih =>
    intro p hp
    cases hb : breakDot p.data with
    | none => exact ⟨[p], by simp, by simpa using breakDot_eq_none _ hb, rfl⟩
    | some q =>
      obtain ⟨a, b⟩ := q
      obtain ⟨h1, h2⟩ := breakDot_some _ _ _ hb
      have hlen : (String.mk b).length < n := by
        have : p.length = a.length + 1 + b.length := by
          show p.data.length = _
          rw [h1]; simp; omega
        show b.length < n
        omega
      obtain ⟨segs, hne, hfree, hj⟩ := ih (String.mk b) hlen
      cases segs with
      | nil => exact absurd rfl hne
      | cons k' ks =>
        refine ⟨String.mk a :: k' :: ks, by simp, ?_, ?_⟩
        · intro k hk
          rcases List.mem_cons.1 hk with rfl | hk
          · exact h2
          · exact hfree k hk
        · rw [joinPath_cons, hj]
          apply String.ext
          simp [String.data_append, h1]

/-- The configuration WithEntry builds for a dotted path is the binding built segment by
segment. -/
theorem WithEntry_joinPath {σ : Type} (s : MaskEngine σ) (segs : List String) :
    segs ≠ [] → (∀ k ∈ segs, '.' ∉ k.data) →
      NewMaskConfiguration.WithEntry (joinPath segs) s = ⟨[pathBinding s segs]⟩ := by
  induction segs with
  | nil => intro h; exact absurd rfl h
  | cons k ks ih =>
    intro _ hfree
    cases ks with
    | nil => exact plain_config k s (hfree k (List.mem_cons_self _ _))
    | cons k' ks =>
      have hk : '.' ∉ k.data := hfree k (List.mem_cons_self _ _)
      have ih' := ih (by simp) (fun x hx => hfree x (List.mem_cons_of_mem _ hx))
      unfold MapMaskConfiguration.WithEntry at ih' ⊢
      rw [joinPath_cons, WithContextEntry_dotted _ _ k (joinPath (k' :: ks)) _
        (SplitN_dotted k _ hk), ih']
      rfl

theorem pathBinding_key {σ : Type} (s : MaskEngine σ) (k : String) (ks : List String) :
    (pathBinding s (k :: ks)).Key = k := by
  cases ks <;> rfl

theorem uniqueAlong_nodup (d : Dictionary) (segs : List String) (h : uniqueAlong d segs) :
    nodupKeys d := by
  match segs, h with
  | [], h => exact h
  | [_], h => exact h
  | _ :: _ :: _, h => exact h.1

/-- The binding of a path of record fields, on a record holding at the end of the path a value
that is neither nil nor a list: one call of the strategy on that value, with the contexts the
binding was called with. -/
theorem pathBinding_call {σ : Type} (s : MaskEngine σ) (segs : List String) :
    ∀ (k : String) (ks : List String), segs = k :: ks →
    ∀ (d : Dictionary) (ctx : List Dictionary) (st : σ) (v : Entry), uniqueAlong d segs →
      valueAt d segs = some v → v.isSingle = true →
      (pathBinding s segs).maskCont d k ctx st =
        match s v ctx st with
        | none => none
        | some ((_, some err), st') => some ((d, some err), st')
        | some ((e, none), st') => some ((setAt d segs e, none), st') := by
  induction segs with
  | nil => intro k ks h; simp at h
  | cons k0 ks0 ih =>
    intro k ks hseg d ctx st v hu hv hs
    simp only [List.cons.injEq] at hseg
    obtain ⟨rfl, rfl⟩ := hseg
    cases ks0 with
    | nil =>
      exact plain_call s d k0 ctx st v hu hv hs
    | cons k' ks' =>
      obtain ⟨hn, hu'⟩ := hu
      simp only [valueAt] at hv
      cases hl : lookup d k0 with
      | none => simp [hl] at hv
      | some w =>
        cases w with
        | dict d' =>
          rw [hl] at hv
          simp only at hv
          have hud' := hu' d' hl
          have hnd' := uniqueAlong_nodup d' _ hud'
          have hinner := ih k' ks' rfl d' ctx st v hud' hv hs
          show ContextWrapper.MaskContext _ d k0 ctx st = _
          rw [plain_call _ d k0 ctx st (Entry.dict d') hn hl rfl]
          simp only [MaskingEngineFactory, MapMaskConfiguration.Entries, applyBindings,
            copyDictionary_eq d' hnd', Bool.false_eq_true, if_false, pathBinding_key, hinner]
          cases hc : s v ctx st with
          | none => rfl
          | some x =>
            obtain ⟨⟨e, er⟩, st'⟩ := x
            cases er with
            | none => simp only [setAt, hl]
            | some err => rfl
        | _ => simp [hl] at hv

theorem buildConfig_cons_path {σ : Type} (k : String) (ks : List String) (s : MaskEngine σ)
    (es : List (String × MaskEngine σ)) (hseg : ∀ x ∈ k :: ks, '.' ∉ x.data) :
    (buildConfig ((joinPath (k :: ks), s) :: es)).config =
      pathBinding s (k :: ks) :: (buildConfig es).config := by
  have := buildConfig_append [(joinPath (k :: ks), s)] es
  rw [List.singleton_append] at this
  rw [this]
  have h2 : buildConfig [(joinPath (k :: ks), s)] =
      NewMaskConfiguration.WithEntry (joinPath (k :: ks)) s := rfl
  rw [h2, WithEntry_joinPath s (k :: ks) (by simp) hseg]
  rfl

theorem delete_set (d : Dictionary) (k : String) (x : Entry) :
    delete (set d k x) k = delete d k := by
  induction d with
  | nil => simp [set, delete]
  | cons kv d ih =>
    obtain ⟨k0, v0⟩ := kv
    by_cases h : k0 = k
    · subst h; simp [set, delete]
    · simp [set, delete, h, ih]

/-- The nested driver of a path of record fields on a record holding at the end of the path a
value that is neither nil nor a list. -/
theorem pathEngine_record {σ : Type} (s : MaskEngine σ) (k : String) (ks : List String)
    (d : Dictionary) (ctx : List Dictionary) (st : σ) (v : Entry)
    (hu : uniqueAlong d (k :: ks)) (hv : valueAt d (k :: ks) = some v)
    (hs : v.isSingle = true) :
    MaskingEngineFactory ⟨[pathBinding s (k :: ks)]⟩ false (Entry.dict d) ctx st =
      match s v ctx st with
      | none => none
      | some ((_, some err), st') => some ((Entry.dict (delete d k), some err), st')
      | some ((e, none), st') => some ((Entry.dict (setAt d (k :: ks) e), none), st') := by
  have hn := uniqueAlong_nodup d _ hu
  simp only [MaskingEngineFactory, MapMaskConfiguration.Entries, applyBindings,
    copyDictionary_eq d hn, Bool.false_eq_true, if_false, pathBinding_key,
    pathBinding_call s (k :: ks) k ks rfl d ctx st v hu hv hs]
  cases hc : s v ctx st with
  | none => rfl
  | some x =>
    obtain ⟨⟨e, er⟩, st'⟩ := x
    cases er <;> rfl

/-- The `[]Dictionary` loop of the adapter around the nested driver of a path, in terms of the
calls of the strategy on the values at the path. -/
theorem maskDictionaries_path {σ : Type} (s : MaskEngine σ) (k : String) (ks : List String)
    (ctx : List Dictionary) (ds : List Dictionary) :
    (∀ d ∈ ds, uniqueAlong d (k :: ks) ∧
      ∃ v, valueAt d (k :: ks) = some v ∧ v.isSingle = true) →
    ∀ (tab : List Dictionary) (err : Option Err) (st : σ),
      maskDictionaries (MaskingEngineFactory ⟨[pathBinding s (k :: ks)]⟩ false) ctx ds tab err
          st =
        match elementCalls s ctx (ds.map (valueOrNil (k :: ks))) st with
        | none => none
        | some (rs, st') =>
          some ((tab ++ List.zipWith (keepOrSetAt (k :: ks)) ds rs,
            (lastFailure (rs.map Prod.snd)).orElse (fun _ => err)), st') := by
  induction ds with
  | nil => intro _ tab err st; simp [maskDictionaries, elementCalls, lastFailure]
  | cons d ds ih =>
    intro h tab err st
    obtain ⟨hu, v, hv, hs⟩ := h d (List.mem_cons_self _ _)
    have ih' := ih (fun d' hd' => h d' (List.mem_cons_of_mem _ hd'))
    have hvo : valueOrNil (k :: ks) d = v := by simp only [valueOrNil, hv]
    simp only [maskDictionaries, List.map_cons, elementCalls, hvo,
      pathEngine_record s k ks d ctx st v hu hv hs]
    cases hc : s v ctx st with
    | none => rfl
    | some r =>
      obtain ⟨⟨x, e⟩, s1⟩ := r
      cases e with
      | none =>
        simp only [ih']
        cases hr : elementCalls s ctx (ds.map (valueOrNil (k :: ks))) s1 with
        | none => rfl
        | some q =>
          obtain ⟨rs, s2⟩ := q
          simp [keepOrSetAt, lastFailure_cons_none]
      | some er =>
        simp only [ih']
        cases hr : elementCalls s ctx (ds.map (valueOrNil (k :: ks))) s1 with
        | none => rfl
        | some q =>
          obtain ⟨rs, s2⟩ := q
          simp only [List.map_cons, lastFailure_cons_some, List.zipWith_cons_cons, keepOrSetAt,
            List.append_assoc, List.singleton_append]
          cases lastFailure (List.map Prod.snd rs) <;> rfl

/-- The `[]Entry` loop of the adapter around the nested driver of a path, on a list of records,
in terms of the calls of the strategy on the values at the path. -/
theorem maskEntries_path {σ : Type} (s : MaskEngine σ) (k : String) (ks : List String)
    (ctx : List Dictionary) (ds : List Dictionary) :
    (∀ d ∈ ds, uniqueAlong d (k :: ks) ∧
      ∃ v, valueAt d (k :: ks) = some v ∧ v.isSingle = true) →
    ∀ (tab : List Entry) (err : Option Err) (st : σ),
      maskEntries (MaskingEngineFactory ⟨[pathBinding s (k :: ks)]⟩ false) ctx
          (ds.map Entry.dict) tab err st =
        match elementCalls s ctx (ds.map (valueOrNil (k :: ks))) st with
        | none => none
        | some (rs, st') =>
          some ((tab ++ List.zipWith (fun d res => Entry.dict (keepOrSetAt (k :: ks) d res)) ds rs,
            (lastFailure (rs.map Prod.snd)).orElse (fun _ => err)), st') := by
  induction ds with
  | nil => intro _ tab err st; simp [maskEntries, elementCalls, lastFailure]
  | cons d ds ih =>
    intro h tab err st
    obtain ⟨hu, v, hv, hs⟩ := h d (List.mem_cons_self _ _)
    have ih' := ih (fun d' hd' => h d' (List.mem_cons_of_mem _ hd'))
    have hvo : valueOrNil (k :: ks) d = v := by simp only [valueOrNil, hv]
    simp only [maskEntries, List.map_cons, elementCalls, hvo,
      pathEngine_record s k ks d ctx st v hu hv hs]
    cases hc : s v ctx st with
    | none => rfl
    | some r =>
      obtain ⟨⟨x, e⟩, s1⟩ := r
      cases e with
      | none =>
        simp only [ih']
        cases hr : elementCalls s ctx (ds.map (valueOrNil (k :: ks))) s1 with
        | none => rfl
        | some q =>
          obtain ⟨rs, s2⟩ := q
          simp [keepOrSetAt, lastFailure_cons_none]
      | some er =>
        simp only [ih']
        cases hr : elementCalls s ctx (ds.map (valueOrNil (k :: ks))) s1 with
        | none => rfl
        | some q =>
          obtain ⟨rs, s2⟩ := q
          simp only [List.map_cons, lastFailure_cons_some, List.zipWith_cons_cons, keepOrSetAt,
            List.append_assoc, List.singleton_append]
          cases lastFailure (List.map Prod.snd rs) <;> rfl

/-- The binding of a path whose first field holds a `[]Dictionary`. -/
theorem pathBinding_records {σ : Type} (s : MaskEngine σ) (k k' : String) (ks : List String)
    (o : Dictionary) (ctx : List Dictionary) (st : σ) (ds : List Dictionary)
    (hn : nodupKeys o) (hl : lookup o k = some (Entry.dicts ds))
    (hds : ∀ d ∈ ds, uniqueAlong d (k' :: ks) ∧
      ∃ v, valueAt d (k' :: ks) = some v ∧ v.isSingle = true) :
    (pathBinding s (k :: k' :: ks)).maskCont o k ctx st =
      match elementCalls s ctx (ds.map (valueOrNil (k' :: ks))) st with
      | none => none
      | some (rs, st') =>
        some ((set o k (Entry.dicts (List.zipWith (keepOrSetAt (k' :: ks)) ds rs)),
          lastFailure (rs.map Prod.snd)), st') := by
  show ContextWrapper.MaskContext _ o k ctx st = _
  rw [maskContext_eq_maskField _ _ _ _ _ hn]
  simp only [maskField, hl, maskDictionaries_path s k' ks ctx ds hds]
  cases elementCalls s ctx (ds.map (valueOrNil (k' :: ks))) st with
  | none => rfl
  | some q =>
    obtain ⟨rs, s2⟩ := q
    simp only [List.nil_append]
    cases lastFailure (List.map Prod.snd rs) <;> rfl

/-- The binding of a path whose first field holds a `[]Entry` of records. -/
theorem pathBinding_list {σ : Type} (s : MaskEngine σ) (k k' : String) (ks : List String)
    (o : Dictionary) (ctx : List Dictionary) (st : σ) (ds : List Dictionary)
    (hn : nodupKeys o) (hl : lookup o k = some (Entry.list (ds.map Entry.dict)))
    (hds : ∀ d ∈ ds, uniqueAlong d (k' :: ks) ∧
      ∃ v, valueAt d (k' :: ks) = some v ∧ v.isSingle = true) :
    (pathBinding s (k :: k' :: ks)).maskCont o k ctx st =
      match elementCalls s ctx (ds.map (valueOrNil (k' :: ks))) st with
      | none => none
      | some (rs, st') =>
        some ((set o k (Entry.list
            (List.zipWith (fun d res => Entry.dict (keepOrSetAt (k' :: ks) d res)) ds rs)),
          lastFailure (rs.map Prod.snd)), st') := by
  show ContextWrapper.MaskContext _ o k ctx st = _
  rw [maskContext_eq_maskField _ _ _ _ _ hn]
  simp only [maskField, hl, maskEntries_path s k' ks ctx ds hds]
  cases elementCalls s ctx (ds.map (valueOrNil (k' :: ks))) st with
  | none => rfl
  | some q =>
    obtain ⟨rs, s2⟩ := q
    simp only [List.nil_append]
    cases lastFailure (List.map Prod.snd rs) <;> rfl

theorem maskEntries_congr {σ : Type} (e e' : MaskEngine σ) (c : List Dictionary)
    (h : ∀ v st, e v c st = e' v c st) (j : List Entry) :
    ∀ (tab : List Entry) (err : Option Err) (st : σ),
      maskEntries e c j tab err st = maskEntries e' c j tab err st := by
  induction j with
  | nil => intro tab err st; rfl
  | cons x j ih =>
    intro tab err st
    simp only [maskEntries, h, ih]

theorem maskDictionaries_congr {σ : Type} (e e' : MaskEngine σ) (c : List Dictionary)
    (h : ∀ v st, e v c st = e' v c st) (j : List Dictionary) :
    ∀ (tab : List Dictionary) (err : Option Err) (st : σ),
      maskDictionaries e c j tab err st = maskDictionaries e' c j tab err st := by
  induction j with
  | nil => intro tab err st; rfl
  | cons x j ih =>
    intro tab err st
    simp only [maskDictionaries, h, ih]

theorem maskContextLoop_congr {σ : Type} (e e' : MaskEngine σ) (c : List Dictionary)
    (h : ∀ v st, e v c st = e' v c st) (context : Dictionary) (key : String)
    (l : List (String × Entry)) :
    ∀ (result : Dictionary) (err : Option Err) (st : σ),
      maskContextLoop e context key c l result err st =
        maskContextLoop e' context key c l result err st := by
  induction l with
  | nil => intro result err st; rfl
  | cons kv l ih =>
    intro result err st
    obtain ⟨k, v⟩ := kv
    simp only [maskContextLoop, h, ih, maskEntries_congr e e' c h,
      maskDictionaries_congr e e' c h]

/-- The binding of a path calls the strategy with the contexts it was called with, whatever the
record holds along the path: two strategies that agree on these contexts give the same
binding call. -/
theorem pathBinding_congr {σ : Type} (s s' : MaskEngine σ) (c : List Dictionary)
    (h : ∀ v st, s v c st = s' v c st) (segs : List String) :
    ∀ (o : Dictionary) (k : String) (st : σ),
      (pathBinding s segs).maskCont o k c st = (pathBinding s' segs).maskCont o k c st := by
  induction segs with
  | nil => intro o k st; exact maskContextLoop_congr s s' c h o k o [] none st
  | cons k0 ks ih =>
    cases ks with
    | nil => intro o k st; exact maskContextLoop_congr s s' c h o k o [] none st
    | cons k' ks' =>
      intro o k st
      refine maskContextLoop_congr _ _ c ?_ o k o [] none st
      intro v st0
      cases v with
      | dict d =>
        simp only [MaskingEngineFactory, MapMaskConfiguration.Entries, applyBindings,
          Bool.false_eq_true, if_false, pathBinding_key, ih]
      | _ => rfl

theorem applyBindings_congr_head {σ : Type} (root : Bool) (contexts : List Dictionary)
    (b b' : MaskKey σ) (rest : List (MaskKey σ)) (o : Dictionary) (e : Option Err) (st : σ)
    (hk : b.Key = b'.Key)
    (h : b.maskCont o b.Key (if root then [o] else contexts) st =
      b'.maskCont o b.Key (if root then [o] else contexts) st) :
    applyBindings root contexts (b :: rest) o e st =
      applyBindings root contexts (b' :: rest) o e st := by
  cases root with
  | true =>
    simp only [if_true] at h
    simp only [applyBindings, if_true, ← hk, h]
  | false =>
    simp only [Bool.false_eq_true, if_false] at h
    simp only [applyBindings, Bool.false_eq_true, if_false, ← hk, h]

/-- C7 (nested context pass-through): a strategy `s` registered under a dotted path of any
number of segments `k.k1...kn` is invoked with exactly the contexts the driver passes down:
the working record `o` for the root driver (the contexts of the caller for a nested driver),
never a sub-record.  With `o` the working output after the bindings registered before the path:
(1) when the fields along the path hold records and the last one a value `v` that is neither nil
nor a list, the driver calls `s` once, on `v` with `[o]`, and puts the result at the end of the
path (on failure it removes `k`); (2) and (3) when `o[k]` is a list of records, as a
`[]Dictionary` or as a `[]Entry`, the driver calls `s` with `[o]` on the value at the rest of
the path of each record, in list order; (4) whatever the record holds, the driver's result
depends on `s` only through its calls with the contexts `[o]`: replacing `s` by a strategy that
agrees with it on `[o]` changes nothing; (5) every path is the dotted path of such segments. -/
theorem nested_context_pass_through {σ : Type} (pre post : List (String × MaskEngine σ))
    (k : String) (ks : List String) (s : MaskEngine σ) (root : Bool) (r : Dictionary)
    (contexts : List Dictionary) (st s1 : σ) (o : Dictionary) (e1 : Option Err)
    (hseg : ∀ x ∈ k :: ks, '.' ∉ x.data) (hr : nodupKeys r)
    (hpre : applyBindings root contexts (buildConfig pre).Entries (copyDictionary r) none st =
      some ((o, e1), s1)) :
    (∀ v, uniqueAlong o (k :: ks) → valueAt o (k :: ks) = some v → v.isSingle = true →
      MaskingEngineFactory (buildConfig (pre ++ (joinPath (k :: ks), s) :: post)) root
          (Entry.dict r) contexts st =
        (match s v (if root then [o] else contexts) s1 with
          | none => none
          | some ((_, some err), s2) =>
            applyBindings root contexts (buildConfig post).Entries (delete o k) (some err) s2
          | some ((e, none), s2) =>
            applyBindings root contexts (buildConfig post).Entries (setAt o (k :: ks) e) e1
              s2).map
          (fun x : (Dictionary × Option Err) × σ => ((Entry.dict x.1.1, x.1.2), x.2))) ∧
    (∀ ds : List Dictionary, ks ≠ [] → lookup o k = some (Entry.dicts ds) →
      (∀ d ∈ ds, uniqueAlong d ks ∧ ∃ v, valueAt d ks = some v ∧ v.isSingle = true) →
      MaskingEngineFactory (buildConfig (pre ++ (joinPath (k :: ks), s) :: post)) root
          (Entry.dict r) contexts st =
        (match elementCalls s (if root then [o] else contexts) (ds.map (valueOrNil ks)) s1 with
          | none => none
          | some (rs, s2) =>
            match lastFailure (rs.map Prod.snd) with
            | some err =>
              applyBindings root contexts (buildConfig post).Entries (delete o k) (some err) s2
            | none =>
              applyBindings root contexts (buildConfig post).Entries
                (set o k (Entry.dicts (List.zipWith (keepOrSetAt ks) ds rs))) e1 s2).map
          (fun x : (Dictionary × Option Err) × σ => ((Entry.dict x.1.1, x.1.2), x.2))) ∧
    (∀ ds : List Dictionary, ks ≠ [] → lookup o k = some (Entry.list (ds.map Entry.dict)) →
      (∀ d ∈ ds, uniqueAlong d ks ∧ ∃ v, valueAt d ks = some v ∧ v.isSingle = true) →
      MaskingEngineFactory (buildConfig (pre ++ (joinPath (k :: ks), s) :: post)) root
          (Entry.dict r) contexts st =
        (match elementCalls s (if root then [o] else contexts) (ds.map (valueOrNil ks)) s1 with
          | none => none
          | some (rs, s2) =>
            match lastFailure (rs.map Prod.snd) with
            | some err =>
              applyBindings root contexts (buildConfig post).Entries (delete o k) (some err) s2
            | none =>
              applyBindings root contexts (buildConfig post).Entries
                (set o k (Entry.list
                  (List.zipWith (fun d res => Entry.dict (keepOrSetAt ks d res)) ds rs))) e1
                s2).map
          (fun x : (Dictionary × Option Err) × σ => ((Entry.dict x.1.1, x.1.2), x.2))) ∧
    (∀ s' : MaskEngine σ,
      (∀ v s0, s' v (if root then [o] else contexts) s0 =
        s v (if root then [o] else contexts) s0) →
      MaskingEngineFactory (buildConfig (pre ++ (joinPath (k :: ks), s') :: post)) root
          (Entry.dict r) contexts st =
        MaskingEngineFactory (buildConfig (pre ++ (joinPath (k :: ks), s) :: post)) root
          (Entry.dict r) contexts st) ∧
    (∀ p : String, ∃ segs : List String, segs ≠ [] ∧ (∀ x ∈ segs, '.' ∉ x.data) ∧
      joinPath segs = p) := by
  have hno : nodupKeys o := by
    have hn : nodupKeys (copyDictionary r) := by rw [copyDictionary_eq r hr]; exact hr
    exact (applyBindings_props root contexts _ (buildConfig_props pre).2 _ _ _ _ _ _ hn hpre).1
  have hsplit : ∀ s0 : MaskEngine σ,
      MaskingEngineFactory (buildConfig (pre ++ (joinPath (k :: ks), s0) :: post)) root
          (Entry.dict r) contexts st =
        (applyBindings root contexts (pathBinding s0 (k :: ks) :: (buildConfig post).config) o e1
          s1).map (fun x : (Dictionary × Option Err) × σ => ((Entry.dict x.1.1, x.1.2), x.2)) := by
    intro s0
    rw [driver_split pre ((joinPath (k :: ks), s0) :: post) root r contexts st s1 o e1 hpre]
    simp only [MapMaskConfiguration.Entries]
    rw [buildConfig_cons_path k ks s0 post hseg]
  have hcall : ∀ (b : MaskKey σ) (rest : List (MaskKey σ)), b.Key = k →
      applyBindings root contexts (b :: rest) o e1 s1 =
        match b.maskCont o k (if root then [o] else contexts) s1 with
        | none => none
        | some ((output, some err), st') =>
          applyBindings root contexts rest (delete output k) (some err) st'
        | some ((output, none), st') => applyBindings root contexts rest output e1 st' := by
    intro b rest hk
    cases root with
    | true =>
      simp only [applyBindings, if_true, hk]
    | false =>
      simp only [applyBindings, Bool.false_eq_true, if_false, hk]
  refine ⟨?_, ?_, ?_, ?_, ?_⟩
  · intro v hu hv hs
    rw [hsplit s, hcall _ _ (pathBinding_key s k ks),
      pathBinding_call s (k :: ks) k ks rfl o _ s1 v hu hv hs]
    simp only [MapMaskConfiguration.Entries]
    cases hc : s v (if root then [o] else contexts) s1 with
    | none => rfl
    | some x =>
      obtain ⟨⟨e, er⟩, s2⟩ := x
      cases er <;> rfl
  · intro ds hks hl hds
    cases ks with
    | nil => exact absurd rfl hks
    | cons k' ks' =>
      rw [hsplit s, hcall _ _ (pathBinding_key s k _),
        pathBinding_records s k k' ks' o _ s1 ds hno hl hds]
      simp only [MapMaskConfiguration.Entries]
      cases hc : elementCalls s (if root then [o] else contexts)
          (ds.map (valueOrNil (k' :: ks'))) s1 with
      | none => rfl
      | some q =>
        obtain ⟨rs, s2⟩ := q
        simp only
        cases hlf : lastFailure (rs.map Prod.snd) with
        | none => rfl
        | some err => simp only [delete_set]
  · intro ds hks hl hds
    cases ks with
    | nil => exact absurd rfl hks
    | cons k' ks' =>
      rw [hsplit s, hcall _ _ (pathBinding_key s k _),
        pathBinding_list s k k' ks' o _ s1 ds hno hl hds]
      simp only [MapMaskConfiguration.Entries]
      cases hc : elementCalls s (if root then [o] else contexts)
          (ds.map (valueOrNil (k' :: ks'))) s1 with
      | none => rfl
      | some q =>
        obtain ⟨rs, s2⟩ := q
        simp only
        cases hlf : lastFailure (rs.map Prod.snd) with
        | none => rfl
        | some err => simp only [delete_set]
  · intro s' hs'
    rw [hsplit s', hsplit s]
    congr 1
    refine applyBindings_congr_head root contexts _ _ _ o e1 s1 ?_ ?_
    · rw [pathBinding_key, pathBinding_key]
    · exact pathBinding_congr s' s _ hs' (k :: ks) o _ s1
  · intro p
    exact joinPath_surjective (p.length + 1) p (Nat.lt_succ_self _)

theorem nested_context_pass_through_witness :
    (∀ x ∈ ["a", "b"], '.' ∉ x.data) ∧ (∀ x ∈ ["a", "b", "c"], '.' ∉ x.data) ∧
    joinPath ["a", "b"] = "a.b" ∧ joinPath ["a", "b", "c"] = "a.b.c" ∧
    nodupKeys [("name", Entry.str "X"),
      ("a", Entry.dict [("name", Entry.str "Y"), ("b", Entry.str "z")])] ∧
    nodupKeys [("name", Entry.str "X"), ("a", Entry.dict [("name", Entry.str "Y"),
      ("b", Entry.dict [("name", Entry.str "W"), ("c", Entry.str "z")])])] ∧
    nodupKeys [("name", Entry.str "X"), ("a", Entry.dicts [[("name", Entry.str "Y"),
      ("b", Entry.str "z")], [("name", Entry.str "V"), ("b", Entry.str "u")]])] ∧
    MaskingEngineFactory
      (buildConfig [(joinPath ["a", "b"],
        replacement.MaskEngine.Mask (replacement.NewMask "name"))]) true
      (Entry.dict [("name", Entry.str "X"),
        ("a", Entry.dict [("name", Entry.str "Y"), ("b", Entry.str "z")])]) [] () =
      some ((Entry.dict [("name", Entry.str "X"),
        ("a", Entry.dict [("name", Entry.str "Y"), ("b", Entry.str "X")])], none), ()) ∧
    MaskingEngineFactory
      (buildConfig [(joinPath ["a", "b", "c"],
        replacement.MaskEngine.Mask (replacement.NewMask "name"))]) true
      (Entry.dict [("name", Entry.str "X"), ("a", Entry.dict [("name", Entry.str "Y"),
        ("b", Entry.dict [("name", Entry.str "W"), ("c", Entry.str "z")])])]) [] () =
      some ((Entry.dict [("name", Entry.str "X"), ("a", Entry.dict [("name", Entry.str "Y"),
        ("b", Entry.dict [("name", Entry.str "W"), ("c", Entry.str "X")])])], none), ()) ∧
    MaskingEngineFactory
      (buildConfig [(joinPath ["a", "b"],
        replacement.MaskEngine.Mask (replacement.NewMask "name"))]) true
      (Entry.dict [("name", Entry.str "X"), ("a", Entry.dicts [[("name", Entry.str "Y"),
        ("b", Entry.str "z")], [("name", Entry.str "V"), ("b", Entry.str "u")]])]) [] () =
      some ((Entry.dict [("name", Entry.str "X"), ("a", Entry.dicts [[("name", Entry.str "Y"),
        ("b", Entry.str "X")], [("name", Entry.str "V"), ("b", Entry.str "X")]])], none), ()) := by
  have h2 : ∀ x ∈ ["a", "b"], '.' ∉ x.data := by decide
  have h3 : ∀ x ∈ ["a", "b", "c"], '.' ∉ x.data := by decide
  have hr1 : nodupKeys [("name", Entry.str "X"),
      ("a", Entry.dict [("name", Entry.str "Y"), ("b", Entry.str "z")])] := by
    simp [nodupKeys, keys]
  have hr2 : nodupKeys [("name", Entry.str "X"), ("a", Entry.dict [("name", Entry.str "Y"),
      ("b", Entry.dict [("name", Entry.str "W"), ("c", Entry.str "z")])])] := by
    simp [nodupKeys, keys]
  have hr3 : nodupKeys [("name", Entry.str "X"), ("a", Entry.dicts [[("name", Entry.str "Y"),
      ("b", Entry.str "z")], [("name", Entry.str "V"), ("b", Entry.str "u")]])] := by
    simp [nodupKeys, keys]
  have hn1 : nodupKeys [("name", Entry.str "Y"), ("b", Entry.str "z")] := by
    simp [nodupKeys, keys]
  have hn2 : nodupKeys [("name", Entry.str "Y"),
      ("b", Entry.dict [("name", Entry.str "W"), ("c", Entry.str "z")])] := by
    simp [nodupKeys, keys]
  have hn3 : nodupKeys [("name", Entry.str "W"), ("c", Entry.str "z")] := by
    simp [nodupKeys, keys]
  have hn4 : nodupKeys [("name", Entry.str "V"), ("b", Entry.str "u")] := by
    simp [nodupKeys, keys]
  refine ⟨h2, h3, by decide, by decide, hr1, hr2, hr3, ?_, ?_, ?_⟩
  · have h := (nested_context_pass_through [] [] "a" ["b"]
      (replacement.MaskEngine.Mask (replacement.NewMask "name")) true _ [] () () _ none
      h2 hr1 rfl).1 (Entry.str "z") ⟨hr1, fun d' hd' => ?_⟩ rfl rfl
    · rw [List.nil_append] at h
      rw [h]
      rfl
    · have : d' = [("name", Entry.str "Y"), ("b", Entry.str "z")] := by
        replace hd' : some (Entry.dict [("name", Entry.str "Y"), ("b", Entry.str "z")]) =
            some (Entry.dict d') := hd'
        injection hd' with hd'
        injection hd' with hd'
        exact hd'.symm
      subst this
      exact hn1
  · have h := (nested_context_pass_through [] [] "a" ["b", "c"]
      (replacement.MaskEngine.Mask (replacement.NewMask "name")) true _ [] () () _ none
      h3 hr2 rfl).1 (Entry.str "z") ⟨hr2, fun d' hd' => ?_⟩ rfl rfl
    · rw [List.nil_append] at h
      rw [h]
      rfl
    · have : d' = [("name", Entry.str "Y"),
          ("b", Entry.dict [("name", Entry.str "W"), ("c", Entry.str "z")])] := by
        replace hd' : some (Entry.dict [("name", Entry.str "Y"),
            ("b", Entry.dict [("name", Entry.str "W"), ("c", Entry.str "z")])]) =
            some (Entry.dict d') := hd'
        injection hd' with hd'
        injection hd' with hd'
        exact hd'.symm
      subst this
      refine ⟨hn2, fun d'' hd'' => ?_⟩
      have : d'' = [("name", Entry.str "W"), ("c", Entry.str "z")] := by
        replace hd'' : some (Entry.dict [("name", Entry.str "W"), ("c", Entry.str "z")]) =
            some (Entry.dict d'') := hd''
        injection hd'' with hd''
        injection hd'' with hd''
        exact hd''.symm
      subst this
      exact hn3
  · have h := (nested_context_pass_through [] [] "a" ["b"]
      (replacement.MaskEngine.Mask (replacement.NewMask "name")) true _ [] () () _ none
      h2 hr3 rfl).2.1 [[("name", Entry.str "Y"), ("b", Entry.str "z")],
        [("name", Entry.str "V"), ("b", Entry.str "u")]] (by simp) rfl ?_
    · rw [List.nil_append] at h
      rw [h]
      rfl
    · intro d hd
      simp only [List.mem_cons, List.mem_singleton, List.not_mem_nil, or_false] at hd
      rcases hd with rfl | rfl
      · exact ⟨hn1, Entry.str "z", rfl, rfl⟩
      · exact ⟨hn4, Entry.str "u", rfl, rfl⟩

theorem sameValue_list_iff (l l' : List Entry) :
    sameValue (Entry.list l) (Entry.list l') ↔ List.Forall₂ sameValue l l' := by
  rw [List.forall₂_iff_zip]
  constructor
  · intro h
    cases h with
    | list _ _ hl hz => exact ⟨hl, fun {a b} hab => hz a b hab⟩
  · rintro ⟨hl, hz⟩
    exact sameValue.list l l' hl (fun a b hab => hz hab)

theorem sameValue_dicts_iff (l l' : List Dictionary) :
    sameValue (Entry.dicts l) (Entry.dicts l') ↔ List.Forall₂ sameRecord l l' := by
  rw [List.forall₂_iff_zip]
  constructor
  · intro h
    cases h with
    | dicts _ _ hl hz => exact ⟨hl, fun {a b} hab => hz a b hab⟩
  · rintro ⟨hl, hz⟩
    exact sameValue.dicts l l' hl (fun a b hab => hz hab)

theorem sameRecord_iff (d d' : Dictionary) :
    sameRecord d d' ↔ nodupKeys d ∧ nodupKeys d' ∧
      (∀ k, lookup d k = none ↔ lookup d' k = none) ∧
      ∀ k v v', lookup d k = some v → lookup d' k = some v' → sameValue v v' := by
  constructor
  · intro h
    cases h with
    | dict _ _ h1 h2 h3 h4 => exact ⟨h1, h2, h3, h4⟩
  · rintro ⟨h1, h2, h3, h4⟩
    exact sameValue.dict d d' h1 h2 h3 h4

/-- Two listings of the same record hold under each key nothing, or the same value. -/
theorem sameRecord_lookup (d d' : Dictionary) (k : String) (h : sameRecord d d') :
    (lookup d k = none ∧ lookup d' k = none) ∨
      ∃ v v', lookup d k = some v ∧ lookup d' k = some v' ∧ sameValue v v' := by
  obtain ⟨-, -, h3, h4⟩ := (sameRecord_iff d d').1 h
  cases hl : lookup d k with
  | none => exact Or.inl ⟨rfl, (h3 k).1 hl⟩
  | some v =>
    cases hl' : lookup d' k with
    | none => rw [(h3 k).2 hl'] at hl; exact absurd hl (by simp)
    | some v' => exact Or.inr ⟨v, v', rfl, rfl, h4 k v v' hl hl'⟩

theorem sameRecord_set (d d' : Dictionary) (k : String) (x x' : Entry) (h : sameRecord d d')
    (hx : sameValue x x') : sameRecord (set d k x) (set d' k x') := by
  obtain ⟨h1, h2, h3, h4⟩ := (sameRecord_iff d d').1 h
  refine (sameRecord_iff _ _).2 ⟨nodupKeys_set d k x h1, nodupKeys_set d' k x' h2, ?_, ?_⟩
  · intro k0
    rw [lookup_set, lookup_set]
    by_cases hk : k0 = k
    · simp [hk]
    · simp only [hk, if_false]; exact h3 k0
  · intro k0 v v'
    rw [lookup_set, lookup_set]
    by_cases hk : k0 = k
    · simp only [hk, if_true, Option.some.injEq]
      rintro rfl rfl
      exact hx
    · simp only [hk, if_false]; exact h4 k0 v v'

theorem sameRecord_delete (d d' : Dictionary) (k : String) (h : sameRecord d d') :
    sameRecord (delete d k) (delete d' k) := by
  obtain ⟨h1, h2, h3, h4⟩ := (sameRecord_iff d d').1 h
  refine (sameRecord_iff _ _).2 ⟨nodupKeys_delete d k h1, nodupKeys_delete d' k h2, ?_, ?_⟩
  · intro k0
    rw [lookup_delete, lookup_delete]
    by_cases hk : k0 = k
    · simp [hk]
    · simp only [hk, if_false]; exact h3 k0
  · intro k0 v v'
    rw [lookup_delete, lookup_delete]
    by_cases hk : k0 = k
    · simp [hk]
    · simp only [hk, if_false]; exact h4 k0 v v'

/-- Two listings of a record with unique keys whose fields hold the same values are two
listings of the same record. -/
theorem sameRecord_of_perm (d d' : Dictionary) (hn : nodupKeys d) (hp : d.Perm d')
    (hv : ∀ k v, lookup d k = some v → sameValue v v) : sameRecord d d' := by
  have hn' := nodupKeys_perm d d' hp hn
  refine (sameRecord_iff _ _).2 ⟨hn, hn', ?_, ?_⟩
  · intro k; rw [lookup_perm d d' k hp hn]
  · intro k v v' h1 h2
    rw [← lookup_perm d d' k hp hn, h1] at h2
    injection h2 with h2
    subst h2
    exact hv k v h1

theorem sameOutcome_none {α σ : Type} (R : α → α → Prop)
    (y : Option ((α × Option Err) × σ)) (h : sameOutcome R none y) : y = none := by
  cases y with
  | none => rfl
  | some y => exact absurd h (by simp [sameOutcome])

theorem sameOutcome_some {α σ : Type} (R : α → α → Prop) (a : α) (e : Option Err) (s : σ)
    (y : Option ((α × Option Err) × σ)) (h : sameOutcome R (some ((a, e), s)) y) :
    ∃ a', y = some ((a', e), s) ∧ R a a' := by
  cases y with
  | none => exact absurd h (by simp [sameOutcome])
  | some y =>
    obtain ⟨⟨a', e'⟩, s'⟩ := y
    obtain ⟨h1, rfl, rfl⟩ := h
    exact ⟨a', rfl, h1⟩

theorem maskEntries_rel {σ : Type} (engine : MaskEngine σ) (c c' : List Dictionary)
    (he : respectsMaps engine) (hc : sameContexts c c') (l l' : List Entry)
    (hl : List.Forall₂ sameValue l l') :
    ∀ (tab tab' : List Entry) (err : Option Err) (st : σ), List.Forall₂ sameValue tab tab' →
      sameOutcome (List.Forall₂ sameValue) (maskEntries engine c l tab err st)
        (maskEntries engine c' l' tab' err st) := by
  induction hl with
  | nil => intro tab tab' err st ht; exact ⟨ht, rfl, rfl⟩
  | @cons a b l l' hab _ ih =>
    intro tab tab' err st ht
    have hcall := he a b c c' st hab hc
    simp only [maskEntries]
    cases hx : engine a c st with
    | none =>
      rw [hx] at hcall
      rw [sameOutcome_none _ _ hcall]
      trivial
    | some x =>
      obtain ⟨⟨v, e⟩, s1⟩ := x
      rw [hx] at hcall
      obtain ⟨v', hy, hvv⟩ := sameOutcome_some _ _ _ _ _ hcall
      rw [hy]
      cases e with
      | none =>
        exact ih (tab ++ [v]) (tab' ++ [v']) err s1
          (List.rel_append ht (List.Forall₂.cons hvv List.Forall₂.nil))
      | some er =>
        exact ih (tab ++ [a]) (tab' ++ [b]) (some er) s1
          (List.rel_append ht (List.Forall₂.cons hab List.Forall₂.nil))

theorem maskDictionaries_rel {σ : Type} (engine : MaskEngine σ) (c c' : List Dictionary)
    (he : respectsMaps engine) (hc : sameContexts c c') (l l' : List Dictionary)
    (hl : List.Forall₂ sameRecord l l') :
    ∀ (tab tab' : List Dictionary) (err : Option Err) (st : σ),
      List.Forall₂ sameRecord tab tab' →
      sameOutcome (List.Forall₂ sameRecord) (maskDictionaries engine c l tab err st)
        (maskDictionaries engine c' l' tab' err st) := by
  induction hl with
  | nil => intro tab tab' err st ht; exact ⟨ht, rfl, rfl⟩
  | @cons a b l l' hab _ ih =>
    intro tab tab' err st ht
    have hcall := he (Entry.dict a) (Entry.dict b) c c' st hab hc
    simp only [maskDictionaries]
    cases hx : engine (Entry.dict a) c st with
    | none =>
      rw [hx] at hcall
      rw [sameOutcome_none _ _ hcall]
      trivial
    | some x =>
      obtain ⟨⟨v, e⟩, s1⟩ := x
      rw [hx] at hcall
      obtain ⟨v', hy, hvv⟩ := sameOutcome_some _ _ _ _ _ hcall
      rw [hy]
      cases e with
      | some er =>
        cases hvv <;> exact ih (tab ++ [a]) (tab' ++ [b]) (some er) s1
          (List.rel_append ht (List.Forall₂.cons hab List.Forall₂.nil))
      | none =>
        cases hvv with
        | dict d d' h1 h2 h3 h4 =>
          exact ih (tab ++ [d]) (tab' ++ [d']) err s1
            (List.rel_append ht (List.Forall₂.cons (sameValue.dict d d' h1 h2 h3 h4)
              List.Forall₂.nil))
        | _ => trivial

/-- The adapter on two listings of the same record, with two listings of the same contexts. -/
theorem maskField_rel {σ : Type} (engine : MaskEngine σ) (o o' : Dictionary) (key : String)
    (c c' : List Dictionary) (st : σ) (he : respectsMaps engine) (ho : sameRecord o o')
    (hc : sameContexts c c') :
    sameOutcome sameRecord (maskField engine o key c st) (maskField engine o' key c' st) := by
  have hscalar : ∀ v v', sameValue v v' →
      sameOutcome sameRecord
        (match engine v c st with
          | none => none
          | some ((_, some erreur), st') => some ((o, some erreur), st')
          | some ((e, none), st') => some ((set o key e, none), st'))
        (match engine v' c' st with
          | none => none
          | some ((_, some erreur), st') => some ((o', some erreur), st')
          | some ((e, none), st') => some ((set o' key e, none), st')) := by
    intro v v' hvv
    have hcall := he v v' c c' st hvv hc
    cases hx : engine v c st with
    | none =>
      rw [hx] at hcall
      rw [sameOutcome_none _ _ hcall]
      trivial
    | some x =>
      obtain ⟨⟨w, e⟩, s1⟩ := x
      rw [hx] at hcall
      obtain ⟨w', hy, hww⟩ := sameOutcome_some _ _ _ _ _ hcall
      rw [hy]
      cases e with
      | none => exact ⟨sameRecord_set o o' key w w' ho hww, rfl, rfl⟩
      | some er => exact ⟨ho, rfl, rfl⟩
  unfold maskField
  rcases sameRecord_lookup o o' key ho with ⟨h1, h2⟩ | ⟨v, v', h1, h2, hvv⟩
  · rw [h1, h2]; exact ⟨ho, rfl, rfl⟩
  · rw [h1, h2]
    cases hvv with
    | nil => exact ⟨sameRecord_delete o o' key ho, rfl, rfl⟩
    | str s0 => exact hscalar _ _ (sameValue.str s0)
    | num s0 => exact hscalar _ _ (sameValue.num s0)
    | bool s0 => exact hscalar _ _ (sameValue.bool s0)
    | dict d d' n1 n2 n3 n4 => exact hscalar _ _ (sameValue.dict d d' n1 n2 n3 n4)
    | list l l' hlen hz =>
      have hl := (sameValue_list_iff l l').1 (sameValue.list l l' hlen hz)
      have hm := maskEntries_rel engine c c' he hc l l' hl [] [] none st List.Forall₂.nil
      simp only
      cases hx : maskEntries engine c l [] none st with
      | none =>
        rw [hx] at hm
        rw [sameOutcome_none _ _ hm]
        trivial
      | some x =>
        obtain ⟨⟨tab, e⟩, s1⟩ := x
        rw [hx] at hm
        obtain ⟨tab', hy, htt⟩ := sameOutcome_some _ _ _ _ _ hm
        rw [hy]
        exact ⟨sameRecord_set o o' key _ _ ho ((sameValue_list_iff tab tab').2 htt), rfl, rfl⟩
    | dicts l l' hlen hz =>
      have hl := (sameValue_dicts_iff l l').1 (sameValue.dicts l l' hlen hz)
      have hm := maskDictionaries_rel engine c c' he hc l l' hl [] [] none st List.Forall₂.nil
      simp only
      cases hx : maskDictionaries engine c l [] none st with
      | none =>
        rw [hx] at hm
        rw [sameOutcome_none _ _ hm]
        trivial
      | some x =>
        obtain ⟨⟨tab, e⟩, s1⟩ := x
        rw [hx] at hm
        obtain ⟨tab', hy, htt⟩ := sameOutcome_some _ _ _ _ _ hm
        rw [hy]
        exact ⟨sameRecord_set o o' key _ _ ho ((sameValue_dicts_iff tab tab').2 htt), rfl, rfl⟩

theorem wrapper_respectsMaps {σ : Type} (engine : MaskEngine σ) (k : String)
    (h : respectsMaps engine) :
    bindingRespectsMaps ⟨ContextWrapper.MaskContext ⟨engine⟩, k⟩ := by
  intro o o' key c c' st ho hc
  obtain ⟨h1, h2, -, -⟩ := (sameRecord_iff o o').1 ho
  show sameOutcome sameRecord (ContextWrapper.MaskContext ⟨engine⟩ o key c st)
    (ContextWrapper.MaskContext ⟨engine⟩ o' key c' st)
  rw [maskContext_eq_maskField _ _ _ _ _ h1, maskContext_eq_maskField _ _ _ _ _ h2]
  exact maskField_rel engine o o' key c c' st h ho hc

/-- The driver's loop on two listings of the same record, with two listings of the same
contexts. -/
theorem applyBindings_rel {σ : Type} (root : Bool) (contexts contexts' : List Dictionary)
    (hc : sameContexts contexts contexts') (bs : List (MaskKey σ))
    (hb : ∀ b ∈ bs, bindingRespectsMaps b) :
    ∀ (o o' : Dictionary) (e : Option Err) (st : σ), sameRecord o o' →
      sameOutcome sameRecord (applyBindings root contexts bs o e st)
        (applyBindings root contexts' bs o' e st) := by
  induction bs with
  | nil => intro o o' e st ho; exact ⟨ho, rfl, rfl⟩
  | cons b bs ih =>
    intro o o' e st ho
    have ih' := ih (fun b' hb' => hb b' (List.mem_cons_of_mem _ hb'))
    have hstep : ∀ (c c' : List Dictionary), sameContexts c c' →
        sameOutcome sameRecord
          (match b.maskCont o b.Key c st with
            | none => none
            | some ((output', some err), st') =>
              applyBindings root contexts bs (delete output' b.Key) (some err) st'
            | some ((output', none), st') => applyBindings root contexts bs output' e st')
          (match b.maskCont o' b.Key c' st with
            | none => none
            | some ((output', some err), st') =>
              applyBindings root contexts' bs (delete output' b.Key) (some err) st'
            | some ((output', none), st') => applyBindings root contexts' bs output' e st') := by
      intro c c' hcc
      have h1 := hb b (List.mem_cons_self _ _) o o' b.Key c c' st ho hcc
      cases hx : b.maskCont o b.Key c st with
      | none =>
        rw [hx] at h1
        rw [sameOutcome_none _ _ h1]
        trivial
      | some x =>
        obtain ⟨⟨o1, e1⟩, s1⟩ := x
        rw [hx] at h1
        obtain ⟨o1', hy, hoo⟩ := sameOutcome_some _ _ _ _ _ h1
        rw [hy]
        cases e1 with
        | none => exact ih' o1 o1' e s1 hoo
        | some er =>
          exact ih' (delete o1 b.Key) (delete o1' b.Key) (some er) s1
            (sameRecord_delete o1 o1' b.Key hoo)
    cases root with
    | true =>
      simp only [applyBindings, if_true]
      exact hstep [o] [o'] (List.Forall₂.cons ho List.Forall₂.nil)
    | false =>
      simp only [applyBindings, Bool.false_eq_true, if_false]
      exact hstep contexts contexts' hc

/-- The driver, root or nested, on two listings of the same value. -/
theorem driver_rel {σ : Type} (config : MapMaskConfiguration σ) (root : Bool)
    (h : ∀ b ∈ config.config, bindingRespectsMaps b) (v v' : Entry) (c c' : List Dictionary)
    (st : σ) (hv : sameValue v v') (hc : sameContexts c c') :
    sameOutcome sameValue (MaskingEngineFactory config root v c st)
      (MaskingEngineFactory config root v' c' st) := by
  cases hv with
  | dict d d' h1 h2 h3 h4 =>
    have hd : sameRecord d d' := sameValue.dict d d' h1 h2 h3 h4
    have hm := applyBindings_rel root c c' hc config.config h d d' none st hd
    simp only [MaskingEngineFactory, MapMaskConfiguration.Entries, copyDictionary_eq d h1,
      copyDictionary_eq d' h2]
    cases hx : applyBindings root c config.config d none st with
    | none =>
      rw [hx] at hm
      rw [sameOutcome_none _ _ hm]
      trivial
    | some x =>
      obtain ⟨⟨o1, e1⟩, s1⟩ := x
      rw [hx] at hm
      obtain ⟨o1', hy, hoo⟩ := sameOutcome_some _ _ _ _ _ hm
      rw [hy]
      exact ⟨hoo, rfl, rfl⟩
  | nil => exact ⟨sameValue.nil, rfl, rfl⟩
  | str s0 => exact ⟨sameValue.str s0, rfl, rfl⟩
  | num s0 => exact ⟨sameValue.num s0, rfl, rfl⟩
  | bool s0 => exact ⟨sameValue.bool s0, rfl, rfl⟩
  | list l l' hlen hz => exact ⟨sameValue.list l l' hlen hz, rfl, rfl⟩
  | dicts l l' hlen hz => exact ⟨sameValue.dicts l l' hlen hz, rfl, rfl⟩

theorem nested_driver_respectsMaps {σ : Type} (config : MapMaskConfiguration σ)
    (h : ∀ b ∈ config.config, bindingRespectsMaps b) :
    respectsMaps (MaskingEngineFactory config false) :=
  fun v v' c c' st hv hc => driver_rel config false h v v' c c' st hv hc

/-- Every binding of a configuration holding one path respects the listings when the strategy
registered does, whatever the depth of the path. -/
theorem WithContextEntry_respectsMaps {σ : Type} (n : Nat) :
    ∀ (key : String) (engine : MaskContextEngine σ), key.length < n →
      (∀ k, bindingRespectsMaps ⟨engine, k⟩) →
      ∀ b ∈ (MapMaskConfiguration.WithContextEntry NewMaskConfiguration key engine).config,
        bindingRespectsMaps b := by
  induction n with
  | zero => intro key engine hlen; omega
  | succ n ih =>
    intro key engine hlen he b hb
    rcases SplitN_cases key with ⟨hs, -⟩ | ⟨rest, hs⟩
    · rw [WithContextEntry_plain _ key _ hs] at hb
      simp only [NewMaskConfiguration, List.nil_append, List.mem_singleton] at hb
      subst hb
      exact he key
    · rw [WithContextEntry_dotted _ key _ rest _ hs] at hb
      simp only [NewMaskConfiguration, List.nil_append, List.mem_singleton] at hb
      subst hb
      have hlt := SplitN_length key _ rest hs
      exact wrapper_respectsMaps _ _ (nested_driver_respectsMaps _
        (ih rest engine (by omega) he))

theorem buildConfig_respectsMaps {σ : Type} (es : List (String × MaskEngine σ))
    (h : ∀ e ∈ es, respectsMaps e.2) :
    ∀ b ∈ (buildConfig es).config, bindingRespectsMaps b := by
  induction es with
  | nil => intro b hb; simp [buildConfig, NewMaskConfiguration] at hb
  | cons e es ih =>
    intro b hb
    have happ := buildConfig_append [e] es
    rw [List.singleton_append] at happ
    rw [happ] at hb
    rcases List.mem_append.1 hb with hb | hb
    · have he : respectsMaps e.2 := h e (List.mem_cons_self _ _)
      have hcfg : (buildConfig [e]).config =
          (MapMaskConfiguration.WithContextEntry NewMaskConfiguration e.1
            (ContextWrapper.MaskContext ⟨e.2⟩)).config := rfl
      rw [hcfg] at hb
      exact WithContextEntry_respectsMaps (e.1.length + 1) e.1 _ (by omega)
        (fun k => wrapper_respectsMaps e.2 k he) b hb
    · exact ih (fun e' he' => h e' (List.mem_cons_of_mem _ he')) b hb

/-- The field-copy strategy reads its first context record as a map. -/
theorem fieldCopy_respectsMaps {σ : Type} (f : String) :
    respectsMaps (replacement.MaskEngine.Mask (replacement.NewMask f) : MaskEngine σ) := by
  intro v v' c c' st _ hc
  cases hc with
  | nil => trivial
  | @cons d d' c c' hd _ =>
    refine ⟨?_, rfl, rfl⟩
    show sameValue (get d f) (get d' f)
    unfold get
    rcases sameRecord_lookup d d' f hd with ⟨h1, h2⟩ | ⟨x, x', h1, h2, hxx⟩
    · rw [h1, h2]; exact sameValue.nil
    · rw [h1, h2]; exact hxx

theorem sameValue_getD (l : List Entry) (h : ∀ x ∈ l, sameValue x x) :
    ∀ i : Nat, sameValue (l.getD i Entry.nil) (l.getD i Entry.nil) := by
  induction l with
  | nil => intro i; exact sameValue.nil
  | cons a l ih =>
    intro i
    cases i with
    | zero => exact h a (List.mem_cons_self _ _)
    | succ i => exact ih (fun x hx => h x (List.mem_cons_of_mem _ hx)) i

/-- The keyed-select strategy is a function of its input as a Go value when its hash is. -/
theorem hash_respectsMaps {σ : Type} (stableHash : Entry → Nat) (hm : hash.MaskEngine)
    (hh : ∀ v v', sameValue v v' → stableHash v = stableHash v')
    (hcand : ∀ x ∈ hm.candidates, sameValue x x) :
    respectsMaps (hash.MaskEngine.Mask stableHash hm : MaskEngine σ) := by
  intro v v' c c' st hv _
  refine ⟨?_, rfl, rfl⟩
  show sameValue (hm.candidates.getD (stableHash v % hm.candidates.length) Entry.nil)
    (hm.candidates.getD (stableHash v' % hm.candidates.length) Entry.nil)
  rw [hh v v' hv]
  exact sameValue_getD _ hcand _

theorem textLength_sameValue (v v' : Entry) (h : sameValue v v') :
    textLength v = textLength v' := by
  cases h <;> rfl

/-- Two records of two fields, listed in either order. -/
theorem sameRecord_swap (k1 k2 : String) (v1 v1' v2 v2' : Entry) (hne : k1 ≠ k2)
    (h1 : sameValue v1 v1') (h2 : sameValue v2 v2') :
    sameRecord [(k1, v1), (k2, v2)] [(k2, v2'), (k1, v1')] := by
  have hne' : k2 ≠ k1 := fun h => hne h.symm
  refine (sameRecord_iff _ _).2 ⟨?_, ?_, ?_, ?_⟩
  · simp [nodupKeys, keys, hne]
  · simp [nodupKeys, keys, hne']
  · intro k
    simp only [lookup]
    by_cases e1 : k1 = k <;> by_cases e2 : k2 = k <;> simp [e1, e2]
  · intro k v v'
    simp only [lookup]
    by_cases e1 : k1 = k
    · have e2 : ¬ k2 = k := fun h => hne (e1.trans h.symm)
      simp only [e1, e2, if_true, if_false, Option.some.injEq]
      rintro rfl rfl
      exact h1
    · by_cases e2 : k2 = k
      · simp only [e1, e2, if_true, if_false, Option.some.injEq]
        rintro rfl rfl
        exact h2
      · simp [e1, e2]

/-- C14 (masking is deterministic for stateless strategies): for a configuration built with
WithEntry from strategies that are functions of the value and the context records as Go values
(maps, whose fields have no order), the driver's result on a record does not depend on the order
in which the fields of the record, of the records nested in it or of the caller's context
records are listed: on two listings of the same record the driver aborts on both, or returns two
listings of the same record, the same outcome and the same state of the strategies.  When the
strategies are stateless that state is the one the call started from, so masking the record
again gives the same result again. -/
theorem masking_is_deterministic {σ : Type} (entries : List (String × MaskEngine σ))
    (root : Bool) (r r' : Dictionary) (contexts contexts' : List Dictionary) (st : σ)
    (hs : ∀ e ∈ entries, respectsMaps e.2) (hr : sameRecord r r')
    (hc : sameContexts contexts contexts') :
    (MaskingEngineFactory (buildConfig entries) root (Entry.dict r) contexts st = none ∧
      MaskingEngineFactory (buildConfig entries) root (Entry.dict r') contexts' st = none) ∨
    ∃ o o' err st',
      MaskingEngineFactory (buildConfig entries) root (Entry.dict r) contexts st =
        some ((Entry.dict o, err), st') ∧
      MaskingEngineFactory (buildConfig entries) root (Entry.dict r') contexts' st =
        some ((Entry.dict o', err), st') ∧
      sameRecord o o' ∧
      ((∀ e ∈ entries, keepsState e.2) → st' = st ∧
        MaskingEngineFactory (buildConfig entries) root (Entry.dict r) contexts st' =
          some ((Entry.dict o, err), st') ∧
        MaskingEngineFactory (buildConfig entries) root (Entry.dict r') contexts' st' =
          some ((Entry.dict o', err), st')) := by
  have h := driver_rel (buildConfig entries) root (buildConfig_respectsMaps entries hs)
    (Entry.dict r) (Entry.dict r') contexts contexts' st hr hc
  cases hx : MaskingEngineFactory (buildConfig entries) root (Entry.dict r) contexts st with
  | none =>
    rw [hx] at h
    exact Or.inl ⟨rfl, sameOutcome_none _ _ h⟩
  | some x =>
    obtain ⟨⟨v, e⟩, s⟩ := x
    rw [hx] at h
    obtain ⟨v', hy, hvv⟩ := sameOutcome_some _ _ _ _ _ h
    obtain ⟨o, hvo⟩ : ∃ o, v = Entry.dict o := by
      simp only [MaskingEngineFactory] at hx
      cases ha : applyBindings root contexts (buildConfig entries).Entries (copyDictionary r)
          none st with
      | none => rw [ha] at hx; simp at hx
      | some y =>
        obtain ⟨⟨o, e0⟩, s0⟩ := y
        rw [ha] at hx
        simp only [Option.some.injEq, Prod.mk.injEq] at hx
        exact ⟨o, hx.1.1.symm⟩
    subst hvo
    cases hvv with
    | dict _ o' n1 n2 n3 n4 =>
      refine Or.inr ⟨o, o', e, s, rfl, hy, sameValue.dict o o' n1 n2 n3 n4, ?_⟩
      intro hk
      have hst : s = st := by
        simp only [MaskingEngineFactory] at hx
        cases ha : applyBindings root contexts (buildConfig entries).Entries (copyDictionary r)
            none st with
        | none => rw [ha] at hx; simp at hx
        | some y =>
          obtain ⟨⟨o0, e0⟩, s0⟩ := y
          rw [ha] at hx
          simp only [Option.some.injEq, Prod.mk.injEq] at hx
          rw [← hx.2]
          exact applyBindings_keepsState root contexts _ (buildConfig_keepsState entries hk)
            _ _ _ _ _ ha
      subst hst
      exact ⟨rfl, hx, hy⟩

theorem masking_is_deterministic_witness :
    (∀ e ∈ [("name", hashOfNames),
        ("a.b", replacement.MaskEngine.Mask (replacement.NewMask "name"))], respectsMaps e.2) ∧
    (∀ e ∈ [("name", hashOfNames),
        ("a.b", replacement.MaskEngine.Mask (replacement.NewMask "name"))], keepsState e.2) ∧
    sameRecord
      [("name", Entry.str "Alexis"), ("a", Entry.dict [("b", Entry.str "z"), ("n", Entry.num 1)])]
      [("a", Entry.dict [("n", Entry.num 1), ("b", Entry.str "z")]), ("name", Entry.str "Alexis")] ∧
    sameContexts [] [] ∧
    MaskingEngineFactory (buildConfig [("name", hashOfNames),
        ("a.b", replacement.MaskEngine.Mask (replacement.NewMask "name"))]) true
      (Entry.dict [("name", Entry.str "Alexis"),
        ("a", Entry.dict [("b", Entry.str "z"), ("n", Entry.num 1)])]) [] () =
      some ((Entry.dict [("name", Entry.str "Marc"),
        ("a", Entry.dict [("b", Entry.str "Marc"), ("n", Entry.num 1)])], none), ()) ∧
    MaskingEngineFactory (buildConfig [("name", hashOfNames),
        ("a.b", replacement.MaskEngine.Mask (replacement.NewMask "name"))]) true
      (Entry.dict [("a", Entry.dict [("n", Entry.num 1), ("b", Entry.str "z")]),
        ("name", Entry.str "Alexis")]) [] () =
      some ((Entry.dict [("a", Entry.dict [("n", Entry.num 1), ("b", Entry.str "Marc")]),
        ("name", Entry.str "Marc")], none), ()) ∧
    sameRecord
      [("name", Entry.str "Marc"), ("a", Entry.dict [("b", Entry.str "Marc"), ("n", Entry.num 1)])]
      [("a", Entry.dict [("n", Entry.num 1), ("b", Entry.str "Marc")]), ("name", Entry.str "Marc")] ∧
    MaskingEngineFactory (buildConfig [("name", hashOfNames)]) true
      (Entry.dict [("name", Entry.str "Alexis")]) [] () =
      some ((Entry.dict [("name", Entry.str "Marc")], none), ()) := by
  have hs : ∀ e ∈ [("name", hashOfNames),
      ("a.b", replacement.MaskEngine.Mask (replacement.NewMask "name"))],
      respectsMaps e.2 := by
    intro e he
    simp only [List.mem_cons, List.mem_singleton, List.not_mem_nil, or_false] at he
    rcases he with rfl | rfl
    · refine hash_respectsMaps textLength _ textLength_sameValue ?_
      intro x hx
      simp only [List.mem_cons, List.mem_singleton, List.not_mem_nil, or_false] at hx
      rcases hx with rfl | rfl | rfl | rfl | rfl <;> exact sameValue.str _
    · exact fieldCopy_respectsMaps "name"
  have hk : ∀ e ∈ [("name", hashOfNames),
      ("a.b", replacement.MaskEngine.Mask (replacement.NewMask "name"))],
      keepsState e.2 := by
    intro e he
    simp only [List.mem_cons, List.mem_singleton, List.not_mem_nil, or_false] at he
    rcases he with rfl | rfl
    · intro v c st st' res h
      cases h
      rfl
    · intro v c st st' res h
      cases c with
      | nil => cases h
      | cons c0 c =>
        cases h
        rfl
  have hr : sameRecord
      [("name", Entry.str "Alexis"), ("a", Entry.dict [("b", Entry.str "z"), ("n", Entry.num 1)])]
      [("a", Entry.dict [("n", Entry.num 1), ("b", Entry.str "z")]),
        ("name", Entry.str "Alexis")] :=
    sameRecord_swap "name" "a" _ _ _ _ (by decide) (sameValue.str _)
      (sameRecord_swap "b" "n" _ _ _ _ (by decide) (sameValue.str _) (sameValue.num _))
  have hcfg : (buildConfig [("name", hashOfNames),
      ("a.b", replacement.MaskEngine.Mask (replacement.NewMask "name"))]).config =
      [⟨ContextWrapper.MaskContext ⟨hashOfNames⟩, "name"⟩,
        ⟨ContextWrapper.MaskContext ⟨MaskingEngineFactory
          ⟨[⟨ContextWrapper.MaskContext
            ⟨replacement.MaskEngine.Mask (replacement.NewMask "name")⟩, "b"⟩]⟩ false⟩, "a"⟩] := by
    rw [buildConfig_cons_plain "name" _ _ (by decide),
      buildConfig_cons_dotted "a.b" "a" "b" _ _ (by decide) (by decide), buildConfig_nil]
  have hcfg1 : (buildConfig [("name", hashOfNames)]).config =
      [⟨ContextWrapper.MaskContext ⟨hashOfNames⟩, "name"⟩] := by
    rw [buildConfig_cons_plain "name" _ _ (by decide), buildConfig_nil]
  have hrun : MaskingEngineFactory (buildConfig [("name", hashOfNames),
        ("a.b", replacement.MaskEngine.Mask (replacement.NewMask "name"))]) true
      (Entry.dict [("name", Entry.str "Alexis"),
        ("a", Entry.dict [("b", Entry.str "z"), ("n", Entry.num 1)])]) [] () =
      some ((Entry.dict [("name", Entry.str "Marc"),
        ("a", Entry.dict [("b", Entry.str "Marc"), ("n", Entry.num 1)])], none), ()) := by
    simp only [MaskingEngineFactory, MapMaskConfiguration.Entries]
    rw [hcfg]
    rfl
  have hrun' : MaskingEngineFactory (buildConfig [("name", hashOfNames),
        ("a.b", replacement.MaskEngine.Mask (replacement.NewMask "name"))]) true
      (Entry.dict [("a", Entry.dict [("n", Entry.num 1), ("b", Entry.str "z")]),
        ("name", Entry.str "Alexis")]) [] () =
      some ((Entry.dict [("a", Entry.dict [("n", Entry.num 1), ("b", Entry.str "Marc")]),
        ("name", Entry.str "Marc")], none), ()) := by
    simp only [MaskingEngineFactory, MapMaskConfiguration.Entries]
    rw [hcfg]
    rfl
  refine ⟨hs, hk, hr, List.Forall₂.nil, hrun, hrun', ?_, ?_⟩
  · rcases masking_is_deterministic _ true _ _ [] [] () hs hr List.Forall₂.nil with
      ⟨h1, -⟩ | ⟨o, o', err, st', h1, h2, h3, -⟩
    · rw [hrun] at h1
      exact absurd h1 (by simp)
    · rw [hrun] at h1
      rw [hrun'] at h2
      simp only [Option.some.injEq, Prod.mk.injEq, Entry.dict.injEq] at h1 h2
      rw [h1.1.1, h2.1.1]
      exact h3
  · simp only [MaskingEngineFactory, MapMaskConfiguration.Entries]
    rw [hcfg1]
    rfl

end PIMO
